import Mathlib

/-!
# Karamelo: the updated-Lagrangian MPM method, time stepping, body force and dump writer

A shallow embedding of `src/ulmpm.cpp`, `src/update.cpp`, `src/fix_body_force.cpp`
and `dump_particle_gz.cpp`.

Conventions of the embedding.

* A C++ `double` that the code only stores, compares and multiplies at the level
  of the time-step control is a `Dbl`: an exact rational or NaN (the code tests
  `std::isnan`). Infinities and rounding are not represented.
* A `double` of the particle/grid kernels is a rational (exact arithmetic).
* `int`, `bigint` and `size_t` counters are `Int`/`Nat`; `size_t` arithmetic is
  taken modulo `2^64` where the code relies on it.
  The conversion of a `bigint` to the `int` a function returns is `toInt32`.
* `error->all` and `error->one` abort the run: they are the `Except` error.
  Reading `args[n]` past the end of a `vector<string>` is undefined behaviour in
  C++; the embedding makes it the distinguished outcome `Err.oob n`.
-/

namespace Karamelo

/-! ## Scalars and errors -/

/-- A double as the time-step control sees it: a finite value (exact) or NaN. -/
inductive Dbl where
  | val (q : ℚ)
  | nan
deriving DecidableEq, Repr

namespace Dbl

/-- The C++ test `std::isnan`. -/
def isnan : Dbl → Bool
  | val _ => false
  | nan => true

/-- The C++ comparison `a < b` on doubles: false as soon as one side is NaN. -/
def lt : Dbl → Dbl → Bool
  | val a, val b => decide (a < b)
  | _, _ => false

/-- The C++ comparison `a <= b` on doubles: false as soon as one side is NaN. -/
def le : Dbl → Dbl → Bool
  | val a, val b => decide (a ≤ b)
  | _, _ => false

/-- The C++ product of two doubles (NaN propagates). -/
def mul : Dbl → Dbl → Dbl
  | val a, val b => val (a * b)
  | _, _ => nan

/-- The C++ sum of two doubles (NaN propagates). -/
def add : Dbl → Dbl → Dbl
  | val a, val b => val (a + b)
  | _, _ => nan

end Dbl

/-- Modelled from the spec: the macro `MIN` (its header is not among the sources),
the usual `((A) < (B) ? (A) : (B))` with which `dtCFL` is "reduced with MIN". -/
def MIN (a b : Dbl) : Dbl := if Dbl.lt a b then a else b

/-- The ways a call can fail: `error->all` (collective), `error->one`
(rank-local), and a read of `args[n]` beyond the end of the argument vector. -/
inductive Err where
  | all (msg : String)
  | one (msg : String)
  | oob (n : Nat)
deriving DecidableEq, Repr

/-! ## Update -/

/-- The fields of `class Update` that the embedded functions read or write. -/
structure Update where
  atime : Dbl := .val 0
  atimestep : Int := 0
  ntimestep : Int := 0
  dt : Dbl := .val (1 / 10 ^ 16)
  dt_constant : Bool := false
  dt_factor : Dbl := .val (9 / 10)
  method_type : String := ""
  method_shape_function : String := ""

/-- The table `input->vars` of published variables, by name. -/
abbrev Vars := List (String × Dbl)

/-- The assignment `(*input->vars)[name] = Var(name, v)`. -/
def setVar (vars : Vars) (name : String) (v : Dbl) : Vars :=
  (name, v) :: vars.filter (fun kv => kv.1 != name)

/-! ## Geometry, particles, grid, solid -/

/-- An `Eigen::Vector3d` in exact arithmetic. -/
structure Vec3 where
  x : ℚ := 0
  y : ℚ := 0
  z : ℚ := 0
deriving DecidableEq, Repr, Inhabited

/-- One particle of a solid: the slots of the migration record. The parallel
particle arrays of `Solid` are kept as one list of such records; `rest` holds the
slots that follow the position, in schema order. -/
structure Particle where
  tag : ℚ := 0
  x : Vec3 := {}
  rest : List ℚ := []
deriving DecidableEq, Repr, Inhabited

/-- The background grid of a solid, as far as the method and the fix read it. -/
structure Grid where
  nnodes_local : Nat := 0
  nnodes_ghost : Nat := 0
  nx_global : Int := 1
  ny_global : Int := 1
  nz_global : Int := 1
  cellsize : ℚ := 1
  x0 : List Vec3 := []
  ntype : List (Int × Int × Int) := []
  rigid : List Bool := []
  map_ntag : Int → Option Int := fun _ => none
  mass : List ℚ := []
  mask : List Nat := []
  mb : List Vec3 := []

/-- A 3×3 matrix, by rows. -/
abbrev Mat3 := Vec3 × Vec3 × Vec3

/-- The fields of `class Solid` that the method reads or writes. -/
structure Solid where
  np_local : Nat := 0
  comm_n : Nat := 0
  particles : List Particle := []
  dtCFL : Dbl := .val (10 ^ 22)
  mat_rigid : Bool := false
  grid : Grid := {}
  numneigh_pn : List Int := []
  numneigh_np : List Int := []
  neigh_pn : List (List Int) := []
  neigh_np : List (List Int) := []
  wf_pn : List (List ℚ) := []
  wf_np : List (List ℚ) := []
  wfd_pn : List (List Vec3) := []
  wfd_np : List (List Vec3) := []
  Dp : List Mat3 := []

instance : Inhabited Solid := ⟨{}⟩

/-- The fields of `class Domain` that the method reads. -/
structure Domain where
  dimension : Int := 3
  boxlo : Vec3 := {}
  boxhi : Vec3 := {}
  inside_subdomain : ℚ → ℚ → ℚ → Bool := fun _ _ _ => true
  solids : List Solid := []

/-- The per-process state reached through the `MPM` pointer. -/
structure MPM where
  update : Update := {}
  domain : Domain := {}
  vars : Vars := []

/-! ## `ULMPM::adjust_dt` -/

/-- The loop of `ULMPM::adjust_dt` over the solids of this rank (lines 529-542):
the running minimum, with the two fatal tests after each solid. -/
def adjust_dt_loop : List Solid → Dbl → Except Err Dbl
  | [], dtCFL => .ok dtCFL
  | s :: rest, dtCFL =>
    let dtCFL := MIN dtCFL s.dtCFL
    if dtCFL = .val 0 then .error (.one "")
    else if dtCFL.isnan then .error (.one "")
    else adjust_dt_loop rest dtCFL

/-- Modelled from the spec: `MPI_Allreduce(..., MPI_MIN, ...)` as seen from this
rank. `others` lists the solids of every other rank; each of them contributes the
result of its own loop, and a rank that stopped in `error->one` takes the job
down. -/
def allreduce_min (mine : Dbl) : List (List Solid) → Except Err Dbl
  | [] => .ok mine
  | r :: rs =>
    match adjust_dt_loop r (.val (10 ^ 22)) with
    | .error e => .error e
    | .ok d => allreduce_min (MIN mine d) rs

/-- The function `ULMPM::adjust_dt` (lines 522-548). -/
def adjust_dt (mpm : MPM) (others : List (List Solid)) : Except Err MPM :=
  if mpm.update.dt_constant then .ok mpm
  else
    match adjust_dt_loop mpm.domain.solids (.val (10 ^ 22)) with
    | .error e => .error e
    | .ok dtCFL =>
      match allreduce_min dtCFL others with
      | .error e => .error e
      | .ok dtCFL_reduced =>
        let dt := Dbl.mul dtCFL_reduced mpm.update.dt_factor
        .ok { mpm with update := { mpm.update with dt := dt },
                       vars := setVar mpm.vars "dt" dt }

/-- The state a call of `adjust_dt` leaves behind: the new state when it returns,
the state it was called in when it stops in an error (nothing is written before
the error is raised). -/
def adjust_dt_state (mpm : MPM) (others : List (List Solid)) : MPM :=
  match adjust_dt mpm others with
  | .ok m => m
  | .error _ => mpm

/-! ## `ULMPM::setup` and `Update::create_method` -/

/-- The pair of function pointers `basis_function`, `derivative_basis_function`:
which family of `BasisFunction` they point to. -/
inductive BasisFamily where
  | linear
  | cubic_spline
  | quadratic_spline
  | bernstein_quadratic
deriving DecidableEq, Repr

/-- The fields of `class ULMPM`, with the values its constructor gives them. -/
structure ULMPM where
  update_wf : Bool := true
  method_type : String := "FLIP"
  FLIP : Dbl := .val (99 / 100)
  shape_function : String := "linear"
  basis_function : BasisFamily := .linear
deriving DecidableEq, Repr

/-- The read `args[n]` of a `vector<string>`: past the end it is undefined
behaviour, reported as `Err.oob n`. -/
def argAt (args : List String) (n : Nat) : Except Err String :=
  match args[n]? with
  | some a => .ok a
  | none => .error (.oob n)

/-- First part of `ULMPM::setup` (lines 50-76): the method, read from `args[1]`.
Returns the method and the flag `isFLIP`. -/
def ULMPM.setup_method (m : ULMPM) (args : List String) : Except Err (ULMPM × Bool) :=
  match argAt args 1 with
  | .error e => .error e
  | .ok a =>
    if a = "PIC" then .ok ({ m with method_type := "PIC", FLIP := .val 0 }, false)
    else if a = "FLIP" then
      if args.length < 2 then
        .error (.all "Illegal modify_method command: not enough arguments.\n")
      else .ok ({ m with method_type := "FLIP" }, true)
    else if a = "APIC" then .ok ({ m with method_type := "APIC", FLIP := .val 0 }, false)
    else .error (.all ("Error: method type " ++ a ++
      " not understood. Expect: PIC, FLIP or APIC\n"))

/-- Second part of `ULMPM::setup` (lines 80-117): the shape function, read from
`args[n]` when there are more than `1 + isFLIP` arguments. Returns the method and
the new value of `n`. -/
def ULMPM.setup_shape (m : ULMPM) (args : List String) (n : Nat) (isFLIP : Bool) :
    Except Err (ULMPM × Nat) :=
  if args.length > 1 + isFLIP.toNat then
    match argAt args n with
    | .error e => .error e
    | .ok a =>
      if a = "linear" then
        .ok ({ m with shape_function := "linear", basis_function := .linear }, n + 1)
      else if a = "cubic-spline" then
        .ok ({ m with shape_function := "cubic-spline", basis_function := .cubic_spline },
          n + 1)
      else if a = "quadratic-spline" then
        .ok ({ m with shape_function := "quadratic-spline",
                      basis_function := .quadratic_spline }, n + 1)
      else if a = "Bernstein-quadratic" then
        .ok ({ m with shape_function := "Bernstein-quadratic",
                      basis_function := .bernstein_quadratic }, n + 1)
      else .error (.all ("Illegal method_method argument: form function of type \x1b[1;31m" ++
        a ++ "\x1b[0m is unknown. Available options are:  \x1b[1;32mlinear\x1b[0m, " ++
        "\x1b[1;32mcubic-spline\x1b[0m, \x1b[1;32mquadratic-spline\x1b[0m, " ++
        "\x1b[1;32mBernstein-quadratic\x1b[0m.\n"))
  else .ok (m, n)

/-- The function `ULMPM::setup` (lines 48-128). `parsev` is `Input::parsev`, the
expression parser, which is not among the sources. -/
def ULMPM.setup (parsev : String → Dbl) (m : ULMPM) (args : List String) :
    Except Err ULMPM :=
  match ULMPM.setup_method m args with
  | .error e => .error e
  | .ok (m1, isFLIP) =>
    match ULMPM.setup_shape m1 args 2 isFLIP with
    | .error e => .error e
    | .ok (m2, n) =>
      if args.length > n + isFLIP.toNat then
        .error (.all ("Illegal modify_method command: too many arguments: " ++
          toString (n + isFLIP.toNat) ++ " expected, " ++ toString args.length ++
          " received.\n"))
      else if isFLIP then
        match argAt args n with
        | .error e => .error e
        | .ok a => .ok { m2 with FLIP := parsev a }
      else .ok m2

/-- The classes registered in `style_method.h`: the method of this file, or
another one (whose `setup` is not among the sources). -/
inductive MethodClass where
  | ULMPM
  | other
deriving DecidableEq, Repr

/-- The object `update->method` after `create_method`. -/
inductive Method where
  | ulmpm (m : ULMPM)
  | other (style : String)
deriving DecidableEq, Repr

/-- The function `Update::create_method` (lines 104-126). The table
`style_method` stands for the `MethodStyle(key,Class)` entries of
`style_method.h`, which is not among the sources; a class other than `ULMPM` is
created but its `setup` is not followed. -/
def Update.create_method (style_method : List (String × MethodClass))
    (parsev : String → Dbl) (u : Update) (args : List String) :
    Except Err (Update × Method) :=
  if args.length < 3 then .error (.all "Illegal method command: not enough arguments.\n")
  else
    match argAt args 0, argAt args 2 with
    | .ok a0, .ok a2 =>
      let u1 := { u with method_type := a0, method_shape_function := a2 }
      match style_method.lookup a0 with
      | some .ULMPM =>
        match ULMPM.setup parsev {} args with
        | .error e => .error e
        | .ok m => .ok (u1, .ulmpm m)
      | some .other => .ok (u1, .other a0)
      | none => .error (.all "Illegal method style.\n")
    | .error e, _ => .error e
    | _, .error e => .error e

/-- A stand-in for `Input::parsev` that reads the literal `2` (and nothing
else). -/
def parsev_two (s : String) : Dbl := if s = "2" then .val 2 else .nan

/-! ## `DumpParticleGz::write` -/

/-- The constant `std::string::npos` for a 64-bit `size_t`. -/
def npos : Nat := 2 ^ 64 - 1

/-- The call `filename.find(c)`: the index of the first `c`, or `npos`. -/
def find (s : List Char) (c : Char) : Nat :=
  match s with
  | [] => npos
  | a :: rest =>
    if a = c then 0
    else
      let r := find rest c
      if r = npos then npos else r + 1

/-- The call `s.substr(pos, len)`, for `pos ≤ s.size()`. -/
def substr (s : List Char) (pos len : Nat) : List Char := (s.drop pos).take len

/-- The name of the file `DumpParticleGz::write` opens (lines 28-39). The index
`pos_asterisk` is a `size_t`: the test `pos_asterisk >= 0` is a test on a natural
number and the differences are taken modulo `2^64`. -/
def DumpParticleGz.fdump (filename : String) (ntimestep : Int) : String :=
  let f := filename.toList
  let pos_asterisk := find f '*'
  if 0 ≤ pos_asterisk then
    let fdump := substr f 0 pos_asterisk ++ (toString ntimestep).toList
    let len := (f.length + 2 ^ 64 - pos_asterisk - 1) % 2 ^ 64
    if len > 0 then String.mk (fdump ++ substr f ((pos_asterisk + 1) % 2 ^ 64) len)
    else String.mk fdump
  else filename

/-- What `DumpParticleGz::write` reads of a solid: the count `np` and, for each
particle, the 25 doubles streamed after its id and type, in column order (the
von Mises stress `seq` is computed with `mpm_math.h`, not among the sources, and is
taken as given). -/
structure DumpSolid where
  np : Nat := 0
  columns : Nat → List ℚ := fun _ => []

/-- One line of the `ITEM: ATOMS` section (lines 62-89). -/
def DumpParticleGz.atom_line (fmt : ℚ → String) (ID : Nat) (isolid : Nat)
    (cols : List ℚ) : String :=
  toString ID ++ " " ++ toString (isolid + 1) ++ " " ++
    " ".intercalate (cols.map fmt) ++ "\n"

/-- The lines of all particles (lines 58-91); `ID` is the running identifier and
`isolid` the index of the first solid of the list. -/
def DumpParticleGz.atom_lines (fmt : ℚ → String) : List DumpSolid → Nat → Nat → String
  | [], _, _ => ""
  | s :: rest, ID, isolid =>
    String.join ((List.range s.np).map
      (fun i => DumpParticleGz.atom_line fmt (ID + i + 1) isolid (s.columns i))) ++
    DumpParticleGz.atom_lines fmt rest (ID + s.np) (isolid + 1)

/-- What `DumpParticleGz::write` streams after its first literal (lines 48-91):
the particle count, the box, the column header and the particle lines. `fmt` is the
formatting of a `double` by `operator<<`. -/
def DumpParticleGz.body (fmt : ℚ → String) (boxlo boxhi : Vec3)
    (solids : List DumpSolid) : String :=
  toString ((solids.map (·.np)).sum) ++ "\n" ++
  "ITEM: BOX BOUNDS sm sm sm\n" ++
  fmt boxlo.x ++ " " ++ fmt boxhi.x ++ "\n" ++
  fmt boxlo.y ++ " " ++ fmt boxhi.y ++ "\n" ++
  fmt boxlo.z ++ " " ++ fmt boxhi.z ++ "\n" ++
  "ITEM: ATOMS id type x y z x0 y0 z0 vx vy vz s11 s22 s33 s12 s13 s23 seq damage damage_init volume mass bx by bz ep epdot\n" ++
  DumpParticleGz.atom_lines fmt solids 0 0

/-- The text `DumpParticleGz::write` streams into the file (lines 46-91): the
literal of line 46, then the rest. -/
def DumpParticleGz.text (fmt : ℚ → String) (boxlo boxhi : Vec3)
    (solids : List DumpSolid) : String :=
  "ITEM: TIMESTEP\n0\nITEM: NUMBER OF ATOMS\n" ++ DumpParticleGz.body fmt boxlo boxhi solids

/-- The function `DumpParticleGz::write` (lines 25-93): the name of the file it
opens and the text it writes there. -/
def DumpParticleGz.write (fmt : ℚ → String) (filename : String) (update : Update)
    (boxlo boxhi : Vec3) (solids : List DumpSolid) : String × String :=
  (DumpParticleGz.fdump filename update.ntimestep,
   DumpParticleGz.text fmt boxlo boxhi solids)

/-- The lines of a text: the pieces between line feeds. -/
def lines : List Char → List (List Char)
  | [] => [[]]
  | c :: cs =>
    if c = '\n' then [] :: lines cs
    else
      match lines cs with
      | [] => [[c]]
      | l :: ls => (c :: l) :: ls

/-! ## Particle migration: `ULMPM::exchange_particles` -/

/-- Modelled from the spec: the migration record of a particle, `comm_n` doubles
laid out as `[tag, x, y, z, x0, ...]`: the tag, the position, then the other
slots. -/
def Particle.record (p : Particle) : List ℚ :=
  p.tag :: p.x.x :: p.x.y :: p.x.z :: p.rest

/-- Modelled from the spec: the particle read back from a migration record. -/
def Particle.ofRecord (r : List ℚ) : Particle :=
  { tag := r.getD 0 0, x := { x := r.getD 1 0, y := r.getD 2 0, z := r.getD 3 0 },
    rest := r.drop 4 }

/-- Modelled from the spec: `Solid::pack_particle(ip, buf)`, which appends the
record of particle `ip` to `buf` (`solid.cpp` is not among the sources). -/
def Solid.pack_particle (s : Solid) (ip : Nat) (buf : List ℚ) : List ℚ :=
  buf ++ (s.particles.getD ip default).record

/-- Modelled from the spec: `Solid::copy_particle(i, j)`, which copies particle `i`
into slot `j` ("swap the last in-domain particle into slot `ip`"). -/
def Solid.copy_particle (s : Solid) (i j : Nat) : Solid :=
  { s with particles := s.particles.set j (s.particles.getD i default) }

/-- Modelled from the spec: `Solid::grow(n)`, which reallocates the particle arrays
to `n` slots and preserves `np_local` and the slots that remain. -/
def Solid.grow (s : Solid) (n : Nat) : Solid :=
  { s with particles :=
      s.particles.take n ++ List.replicate (n - s.particles.length) default }

/-- Modelled from the spec: `Solid::unpack_particle(base, indices, buf)`, which
reads, for each offset of `indices`, a record of `comm_n` doubles of `buf` into the
next free slot and advances `np_local`. -/
def Solid.unpack_particle (s : Solid) (list : List Nat) (buf : List ℚ) : Solid :=
  list.foldl (fun s j =>
    { s with
      particles :=
        s.particles.set s.np_local (Particle.ofRecord ((buf.drop j).take s.comm_n)),
      np_local := s.np_local + 1 }) s

/-- The test `domain->inside_subdomain(x[0], x[1], x[2])` on the position of a
particle. -/
def Particle.inside (inside_subdomain : ℚ → ℚ → ℚ → Bool) (p : Particle) : Bool :=
  inside_subdomain p.x.x p.x.y p.x.z

/-- The local partition loop of `ULMPM::exchange_particles` (lines 578-593), from
the state `(solid, ip, buf_send)`. The loop makes at most `np_local - ip` turns;
`fuel` bounds their number. Returns the solid, the final `ip` and `buf_send`. -/
def partition_loop (inside_subdomain : ℚ → ℚ → ℚ → Bool) :
    Nat → Solid → Nat → List ℚ → Solid × Nat × List ℚ
  | 0, s, ip, buf_send => (s, ip, buf_send)
  | fuel + 1, s, ip, buf_send =>
    if ip < s.np_local then
      if !(s.particles.getD ip default).inside inside_subdomain then
        let buf_send := s.pack_particle ip buf_send
        let s := s.copy_particle (s.np_local - 1) ip
        partition_loop inside_subdomain fuel { s with np_local := s.np_local - 1 } ip
          buf_send
      else partition_loop inside_subdomain fuel s (ip + 1) buf_send
    else (s, ip, buf_send)

/-- The text of the fatal error of line 598. -/
def size_mismatch (departed size : Nat) : Err :=
  .one ("Size of buffer does not match the number of particles that left the domain: " ++
    toString departed ++ "!=" ++ toString size ++ "\n")

/-- The local part of `ULMPM::exchange_particles` for one solid (lines 574-603):
the partition, the test on the size of `buf_send` (an integer division by
`comm_n`) and the resize. Returns the solid and `buf_send`. -/
def exchange_local (inside_subdomain : ℚ → ℚ → ℚ → Bool) (s : Solid) :
    Except Err (Solid × List ℚ) :=
  let np_local_old := s.np_local
  let r := partition_loop inside_subdomain s.np_local s 0 []
  let s1 := r.1
  let buf_send := r.2.2
  if np_local_old - s1.np_local != buf_send.length / s1.comm_n then
    .error (size_mismatch (np_local_old - s1.np_local) buf_send.length)
  else if buf_send.length != 0 then .ok (s1.grow s1.np_local, buf_send)
  else .ok (s1, buf_send)

/-- The scan of a received buffer (lines 632-641): the offsets of the records whose
position lies in this rank's subdomain. The loop advances by `comm_n`; `fuel`
bounds the number of its turns. -/
def unpack_scan (inside_subdomain : ℚ → ℚ → ℚ → Bool) (comm_n : Nat) (buf_recv : List ℚ) :
    Nat → Nat → List Nat → List Nat
  | 0, _, unpack_list => unpack_list
  | fuel + 1, ip, unpack_list =>
    if ip < buf_recv.length then
      if inside_subdomain (buf_recv.getD (ip + 1) 0) (buf_recv.getD (ip + 2) 0)
          (buf_recv.getD (ip + 3) 0) then
        unpack_scan inside_subdomain comm_n buf_recv fuel (ip + comm_n) (unpack_list ++ [ip])
      else unpack_scan inside_subdomain comm_n buf_recv fuel (ip + comm_n) unpack_list
    else unpack_list

/-- What a rank does with the buffer of one sender (lines 623-647). -/
def receive (inside_subdomain : ℚ → ℚ → ℚ → Bool) (s : Solid) (buf_recv : List ℚ) :
    Solid :=
  if buf_recv.length != 0 then
    let unpack_list :=
      unpack_scan inside_subdomain s.comm_n buf_recv buf_recv.length 0 []
    (s.grow (s.np_local + unpack_list.length)).unpack_particle unpack_list buf_recv
  else s

/-- The loop over the senders (lines 606-649) as rank `me` runs it: `sproc` is the
rank of the first buffer of the list; the rank skips its own turn and receives the
buffer of every other rank. -/
def exchange_buffers (inside_subdomain : ℚ → ℚ → ℚ → Bool) (me : Nat) :
    Nat → List (List ℚ) → Solid → Solid
  | _, [], s => s
  | sproc, buf :: rest, s =>
    exchange_buffers inside_subdomain me (sproc + 1) rest
      (if sproc = me then s else receive inside_subdomain s buf)

/-- The local parts of all ranks for one solid; an error on a rank aborts the
job. Each rank keeps its subdomain predicate, its solid and its `buf_send`. -/
def exchange_locals :
    List ((ℚ → ℚ → ℚ → Bool) × Solid) →
      Except Err (List ((ℚ → ℚ → ℚ → Bool) × Solid × List ℚ))
  | [] => .ok []
  | r :: rest =>
    match exchange_local r.1 r.2 with
    | .error e => .error e
    | .ok l =>
      match exchange_locals rest with
      | .error e => .error e
      | .ok ls => .ok ((r.1, l) :: ls)

/-- The receiving parts of all ranks for one solid: `me` is the rank of the first
rank of the list, `bufs` the send buffers of all ranks by rank. -/
def exchange_all (bufs : List (List ℚ)) :
    Nat → List ((ℚ → ℚ → ℚ → Bool) × Solid × List ℚ) → List Solid
  | _, [] => []
  | me, r :: rest =>
    exchange_buffers r.1 me 0 bufs r.2.1 :: exchange_all bufs (me + 1) rest

/-- The body of the loop over the solids of `ULMPM::exchange_particles` (lines
574-649) as all ranks run it together: every rank partitions its solid, then
receives the send buffer of every other rank. `ranks` lists, by rank, the subdomain
predicate and the solid. -/
def exchange_solid (ranks : List ((ℚ → ℚ → ℚ → Bool) × Solid)) :
    Except Err (List Solid) :=
  match exchange_locals ranks with
  | .error e => .error e
  | .ok locals => .ok (exchange_all (locals.map (·.2.2)) 0 locals)

/-- The solid `isolid` of every rank, with the subdomain predicate of the rank. -/
def rank_view (world : List Domain) (isolid : Nat) : List ((ℚ → ℚ → ℚ → Bool) × Solid) :=
  world.map (fun d => (d.inside_subdomain, d.solids.getD isolid default))

/-- One turn of the loop over the solids, on all ranks: the solid `isolid` of every
rank is exchanged and put back. -/
def exchange_isolid (world : List Domain) (isolid : Nat) : Except Err (List Domain) :=
  match exchange_solid (rank_view world isolid) with
  | .error e => .error e
  | .ok col =>
    .ok (List.zipWith (fun d s => { d with solids := d.solids.set isolid s }) world col)

/-- The loop over the solids, on all ranks. -/
def exchange_loop : List Nat → List Domain → Except Err (List Domain)
  | [], world => .ok world
  | isolid :: rest, world =>
    match exchange_isolid world isolid with
    | .error e => .error e
    | .ok world1 => exchange_loop rest world1

/-- The function `ULMPM::exchange_particles` (lines 562-651) as all ranks run it
together; `world` lists the domains by rank. All ranks hold the same number of
solids (they read the same input), the one of rank 0. -/
def exchange_particles (world : List Domain) : Except Err (List Domain) :=
  exchange_loop (List.range (world.headD {}).solids.length) world

/-- The sum over the ranks of `np_local` of the solid `isolid`. -/
def total_np_local (world : List Domain) (isolid : Nat) : Nat :=
  ((rank_view world isolid).map (fun r => r.2.np_local)).sum

/-- The condition under which the migration of one solid neither fails nor loses
or duplicates a particle: the ranks agree on a positive `comm_n`; on every rank
the arrays hold the `np_local` particles and `pack_particle` writes `comm_n`
doubles for each of them; and every particle that is outside the subdomain of its
rank is inside the subdomain of exactly one rank. -/
def exchangeable (ranks : List ((ℚ → ℚ → ℚ → Bool) × Solid)) : Prop :=
  ∃ c : Nat, 0 < c ∧ ∀ r ∈ ranks,
    r.2.np_local ≤ r.2.particles.length ∧ r.2.comm_n = c ∧
    ∀ p ∈ r.2.particles.take r.2.np_local,
      p.record.length = c ∧
      (p.inside r.1 = false → ranks.countP (fun r' => p.inside r'.1) = 1)

/-! ## `ULMPM::compute_grid_weight_functions_and_gradients` -/

/-- The conversion `(int) d` of a double: truncation toward zero. -/
def toInt (q : ℚ) : Int := if 0 ≤ q then ⌊q⌋ else ⌈q⌉

/-- The read `v[i]` of a vector at an `int` index. -/
def vget {α : Type} [Inhabited α] (v : List α) (i : Int) : α :=
  if 0 ≤ i then v.getD i.toNat default else default

/-- The write `v[i] = a` of a vector at an `int` index. -/
def vset {α : Type} (v : List α) (i : Int) (a : α) : List α :=
  if 0 ≤ i then v.set i.toNat a else v

/-- The difference of two vectors, scaled: `(a - b) * c`. -/
def Vec3.sub_scaled (a b : Vec3) (c : ℚ) : Vec3 :=
  { x := (a.x - b.x) * c, y := (a.y - b.y) * c, z := (a.z - b.z) * c }

/-- The functions of `basis_functions.h` (not among the sources): for each family,
the shape function `f(r, ntype)` and its derivative `f'(r, ntype, inv_cellsize)`. -/
structure BasisFunction where
  value : BasisFamily → ℚ → Int → ℚ
  derivative : BasisFamily → ℚ → Int → ℚ → ℚ

/-- The locals `wf`, `wfd` and `sd` of the function, which keep their value from
one (particle, node) pair to the next. -/
structure KernelLocals where
  wf : ℚ := 0
  wfd : Vec3 := {}
  sd : Vec3 := {}

/-- The lookup `map_ntag.find(tag)` followed by the `push_back` of the index found
(lines 224-228). -/
def find_push (map_ntag : Int → Option Int) (tag : Int) : List Int :=
  match map_ntag tag with
  | some idx => [idx]
  | none => []

/-- The three nested loops over the candidates of a particle (lines 214-246,
264-296, 305-331; the three copies differ only in the anchor `(i0, j0, k0)` and in
the width `w` of the stencil). Returns what they append to `n_neigh`. -/
def stencil (g : Grid) (i0 j0 k0 : Int) (w : Nat) : List Int :=
  (List.range w).flatMap fun a =>
    let i := i0 + (a : Int)
    if g.ny_global > 1 then
      (List.range w).flatMap fun b =>
        let j := j0 + (b : Int)
        if g.nz_global > 1 then
          (List.range w).flatMap fun c =>
            let k := k0 + (c : Int)
            find_push g.map_ntag (g.nz_global * g.ny_global * i + g.nz_global * j + k)
        else find_push g.map_ntag (g.ny_global * i + j)
    else if i < ((g.nnodes_local + g.nnodes_ghost : Nat) : Int) then [i] else []

/-- The decrement of a Bernstein anchor (lines 254-260). -/
def bernstein_anchor (i0 : Int) : Int :=
  if i0 ≥ 1 ∧ i0 % 2 ≠ 0 then i0 - 1 else i0

/-- The list `n_neigh` of the nodes particle `ip` may interact with (lines
202-336), by the shape function named in `update->method_shape_function`. -/
def n_neigh (u : Update) (dom : Domain) (s : Solid) (ip : Nat) : Except Err (List Int) :=
  let g := s.grid
  let inv_cellsize := 1 / g.cellsize
  let xp := (s.particles.getD ip default).x
  let linear := u.method_shape_function == "linear"
  let cubic_or_quadratic := u.method_shape_function == "cubic-spline" ||
    u.method_shape_function == "quadratic-spline"
  let bernstein := u.method_shape_function == "Bernstein-quadratic"
  if linear then
    .ok (stencil g (toInt ((xp.x - dom.boxlo.x) * inv_cellsize))
      (toInt ((xp.y - dom.boxlo.y) * inv_cellsize))
      (toInt ((xp.z - dom.boxlo.z) * inv_cellsize)) 2)
  else if bernstein then
    let i0 := 2 * toInt ((xp.x - dom.boxlo.x) * inv_cellsize)
    let j0 := 2 * toInt ((xp.y - dom.boxlo.y) * inv_cellsize)
    let k0 := 2 * toInt ((xp.z - dom.boxlo.z) * inv_cellsize)
    .ok (stencil g (bernstein_anchor i0) (bernstein_anchor j0)
      (if g.nz_global > 1 then bernstein_anchor k0 else k0) 3)
  else if cubic_or_quadratic then
    .ok (stencil g (toInt ((xp.x - dom.boxlo.x) * inv_cellsize - 1))
      (toInt ((xp.y - dom.boxlo.y) * inv_cellsize - 1))
      (toInt ((xp.z - dom.boxlo.z) * inv_cellsize - 1)) 4)
  else
    .error (.all ("Shape function type not supported by " ++
      "TLMPM::compute_grid_weight_functions_and_gradients(): " ++
      u.method_shape_function ++ ".\n"))

/-- The eight `push_back` and increments of lines 374-408: the entry
`(inn, wf, wfd)` goes to the lists of particle `ip`, the entry `(ip, wf, wfd)` to the
lists of node `inn`. -/
def push_entry (s : Solid) (ip : Nat) (inn : Int) (wf : ℚ) (wfd : Vec3) : Solid :=
  { s with
    neigh_pn := s.neigh_pn.set ip (s.neigh_pn.getD ip [] ++ [inn]),
    neigh_np := vset s.neigh_np inn (vget s.neigh_np inn ++ [(ip : Int)]),
    numneigh_pn := s.numneigh_pn.set ip (s.numneigh_pn.getD ip 0 + 1),
    numneigh_np := vset s.numneigh_np inn (vget s.numneigh_np inn + 1),
    wf_pn := s.wf_pn.set ip (s.wf_pn.getD ip [] ++ [wf]),
    wf_np := vset s.wf_np inn (vget s.wf_np inn ++ [wf]),
    wfd_pn := s.wfd_pn.set ip (s.wfd_pn.getD ip [] ++ [wfd]),
    wfd_np := vset s.wfd_np inn (vget s.wfd_np inn ++ [wfd]) }

/-- The body of the loop over `n_neigh` (lines 346-412) for particle `ip` and the
node of index `inn`: the shape function on each axis, the test that none is zero,
the weight and the gradient, and the entries appended to the lists of the particle
and of the node. -/
def add_neighbor (bf : BasisFunction) (m : ULMPM) (dom : Domain) (ip : Nat)
    (st : Solid × KernelLocals) (inn : Int) : Solid × KernelLocals :=
  let s := st.1
  let loc := st.2
  let inv_cellsize := 1 / s.grid.cellsize
  let r := Vec3.sub_scaled (s.particles.getD ip default).x (vget s.grid.x0 inn) inv_cellsize
  let ntype := vget s.grid.ntype inn
  let s0 := bf.value m.basis_function r.x ntype.1
  let s1 := if dom.dimension ≥ 2 then bf.value m.basis_function r.y ntype.2.1 else 1
  let s2 := if dom.dimension = 3 then bf.value m.basis_function r.z ntype.2.2 else 1
  if s0 ≠ 0 ∧ s1 ≠ 0 ∧ s2 ≠ 0 then
    let rigid := if s.mat_rigid then vset s.grid.rigid inn true else s.grid.rigid
    let sd0 := bf.derivative m.basis_function r.x ntype.1 inv_cellsize
    let sd1 := if dom.dimension ≥ 2 then
      bf.derivative m.basis_function r.y ntype.2.1 inv_cellsize else loc.sd.y
    let sd2 := if dom.dimension = 3 then
      bf.derivative m.basis_function r.z ntype.2.2 inv_cellsize else loc.sd.z
    let wf1 := if dom.dimension = 1 then s0 else loc.wf
    let wf2 := if dom.dimension = 2 then s0 * s1 else wf1
    let wf := if dom.dimension = 3 then s0 * s1 * s2 else wf2
    let wfd : Vec3 :=
      if dom.dimension = 1 then { x := sd0, y := 0, z := 0 }
      else if dom.dimension = 2 then { x := sd0 * s1, y := s0 * sd1, z := 0 }
      else if dom.dimension = 3 then
        { x := sd0 * s1 * s2, y := s0 * sd1 * s2, z := s0 * s1 * sd2 }
      else loc.wfd
    (push_entry { s with grid := { s.grid with rigid := rigid } } ip inn wf wfd,
     { wf := wf, wfd := wfd, sd := { x := sd0, y := sd1, z := sd2 } })
  else (s, loc)

/-- The clearing of the lists of node `inn` (lines 186-189). -/
def clear_np (s : Solid) (inn : Nat) : Solid :=
  { s with
    neigh_np := s.neigh_np.set inn [],
    numneigh_np := s.numneigh_np.set inn 0,
    wf_np := s.wf_np.set inn [],
    wfd_np := s.wfd_np.set inn [] }

/-- The clearing of the lists of particle `ip` (lines 196-199). -/
def clear_pn (s : Solid) (ip : Nat) : Solid :=
  { s with
    neigh_pn := s.neigh_pn.set ip [],
    numneigh_pn := s.numneigh_pn.set ip 0,
    wf_pn := s.wf_pn.set ip [],
    wfd_pn := s.wfd_pn.set ip [] }

/-- The loop over the particles (lines 194-415), for the particles of the list. -/
def particle_loop (bf : BasisFunction) (m : ULMPM) (u : Update) (dom : Domain) :
    List Nat → Solid × KernelLocals → Except Err (Solid × KernelLocals)
  | [], st => .ok st
  | ip :: rest, st =>
    let s := clear_pn st.1 ip
    match n_neigh u dom s ip with
    | .error e => .error e
    | .ok nb =>
      particle_loop bf m u dom rest (nb.foldl (add_neighbor bf m dom ip) (s, st.2))

/-- A 3×3 matrix of zeros. -/
def Mat3.zero : Mat3 := ({}, {}, {})

/-- The sum of a matrix and of `c · v vᵀ`. -/
def Mat3.add_outer (M : Mat3) (c : ℚ) (v : Vec3) : Mat3 :=
  ({ x := M.1.x + c * v.x * v.x, y := M.1.y + c * v.x * v.y, z := M.1.z + c * v.x * v.z },
   { x := M.2.1.x + c * v.y * v.x, y := M.2.1.y + c * v.y * v.y,
     z := M.2.1.z + c * v.y * v.z },
   { x := M.2.2.x + c * v.z * v.x, y := M.2.2.y + c * v.z * v.y,
     z := M.2.2.z + c * v.z * v.z })

/-- Modelled from the spec: the tensor `Dp = Σ_n wf (xn − xp)(xn − xp)ᵀ` of
particle `ip`, summed over its neighbour list. -/
def Solid.inertia_tensor (s : Solid) (ip : Nat) : Mat3 :=
  (List.zip (s.neigh_pn.getD ip []) (s.wf_pn.getD ip [])).foldl
    (fun M e => Mat3.add_outer M e.2
      (Vec3.sub_scaled (vget s.grid.x0 e.1) (s.particles.getD ip default).x 1))
    Mat3.zero

/-- Modelled from the spec: `Solid::compute_inertia_tensor(shape)`, which caches
the tensor of every particle (`solid.cpp` is not among the sources). -/
def Solid.compute_inertia_tensor (s : Solid) (_shape_function : String) : Solid :=
  { s with Dp := (List.range s.np_local).map (fun ip => s.inertia_tensor ip) }

/-- The body of the loop over the solids (lines 144-418) for one solid. `garbage`
is the content of the uninitialised locals `wf`, `wfd`, `sd`. -/
def compute_solid (bf : BasisFunction) (garbage : KernelLocals) (m : ULMPM) (u : Update)
    (dom : Domain) (s : Solid) : Except Err Solid :=
  let nn := s.grid.nnodes_local + s.grid.nnodes_ghost
  let s1 := (List.range nn).foldl clear_np s
  let looped : Except Err (Solid × KernelLocals) :=
    if s.np_local ≠ 0 ∧ nn ≠ 0 then
      particle_loop bf m u dom (List.range s.np_local) (s1, garbage)
    else .ok (s1, garbage)
  match looped with
  | .error e => .error e
  | .ok st =>
    if m.method_type = "APIC" then .ok (st.1.compute_inertia_tensor m.shape_function)
    else .ok st.1

/-- The loop over the solids (lines 141-419). -/
def compute_solids (bf : BasisFunction) (garbage : KernelLocals) (m : ULMPM) (u : Update)
    (dom : Domain) : List Solid → Except Err (List Solid)
  | [] => .ok []
  | s :: rest =>
    match compute_solid bf garbage m u dom s with
    | .error e => .error e
    | .ok s' =>
      match compute_solids bf garbage m u dom rest with
      | .error e => .error e
      | .ok rest' => .ok (s' :: rest')

/-- The function `ULMPM::compute_grid_weight_functions_and_gradients` (lines
130-421). -/
def compute_grid_weight_functions_and_gradients (bf : BasisFunction)
    (garbage : KernelLocals) (m : ULMPM) (mpm : MPM) : Except Err MPM :=
  if !m.update_wf then .ok mpm
  else
    match compute_solids bf garbage m mpm.update mpm.domain mpm.domain.solids with
    | .error e => .error e
    | .ok solids => .ok { mpm with domain := { mpm.domain with solids := solids } }

/-- The entries of particle `ip`: the triples `(node, weight, gradient)` found at a
common position of `neigh_pn[ip]`, `wf_pn[ip]` and `wfd_pn[ip]`. -/
def Solid.entries_pn (s : Solid) (ip : Nat) : List (Int × ℚ × Vec3) :=
  List.zip (s.neigh_pn.getD ip []) (List.zip (s.wf_pn.getD ip []) (s.wfd_pn.getD ip []))

/-- The entries of node `inn`: the triples `(particle, weight, gradient)` found at a
common position of `neigh_np[inn]`, `wf_np[inn]` and `wfd_np[inn]`. -/
def Solid.entries_np (s : Solid) (inn : Nat) : List (Int × ℚ × Vec3) :=
  List.zip (s.neigh_np.getD inn []) (List.zip (s.wf_np.getD inn []) (s.wfd_np.getD inn []))

/-- The three lists of node `inn` have the same length. -/
def Solid.aligned_np (s : Solid) (inn : Nat) : Prop :=
  (s.neigh_np.getD inn []).length = (s.wf_np.getD inn []).length ∧
  (s.wf_np.getD inn []).length = (s.wfd_np.getD inn []).length

/-- The three lists of particle `ip` have the same length. -/
def Solid.aligned_pn (s : Solid) (ip : Nat) : Prop :=
  (s.neigh_pn.getD ip []).length = (s.wf_pn.getD ip []).length ∧
  (s.wf_pn.getD ip []).length = (s.wfd_pn.getD ip []).length

/-- The neighbour vectors are allocated for `N` nodes and `P` particles. -/
def Solid.allocated (s : Solid) (N P : Nat) : Prop :=
  N ≤ s.neigh_np.length ∧ N ≤ s.wf_np.length ∧ N ≤ s.wfd_np.length ∧
  P ≤ s.neigh_pn.length ∧ P ≤ s.wf_pn.length ∧ P ≤ s.wfd_pn.length

/-- The invariant of the construction of the neighbour lists, for `N` nodes, `P`
particles and the set `A` of the particles whose lists have been rebuilt: the lists
are allocated and aligned; the entries of a particle of `A` and of a node below `N`
mirror each other; and the lists of the nodes below `N` hold only particles of
`A`. -/
def Solid.neigh_inv (s : Solid) (N P : Nat) (A : Nat → Prop) : Prop :=
  s.allocated N P ∧
  (∀ k < N, s.aligned_np k) ∧
  (∀ ip, A ip → ip < P ∧ s.aligned_pn ip) ∧
  (∀ ip, A ip → ∀ k < N, ∀ (w : ℚ) (g : Vec3),
    ((k : Int), w, g) ∈ s.entries_pn ip ↔ ((ip : Int), w, g) ∈ s.entries_np k) ∧
  (∀ k < N, ∀ e ∈ s.entries_np k, ∃ ip, A ip ∧ e.1 = (ip : Int))

/-- The shape functions the neighbour construction supports. -/
def supported_shape (u : Update) : Prop :=
  u.method_shape_function = "linear" ∨ u.method_shape_function = "cubic-spline" ∨
  u.method_shape_function = "quadratic-spline" ∨
  u.method_shape_function = "Bernstein-quadratic"

/-! ## `Update::update_time` and `Update::update_timestep` -/

/-- The function `Update::update_time` (lines 131-136): the new `Update` and the
new table of variables. -/
def Update.update_time (u : Update) (vars : Vars) : Update × Vars :=
  let atime := Dbl.add u.atime (Dbl.mul (.val ((u.ntimestep - u.atimestep : Int) : ℚ)) u.dt)
  ({ u with atime := atime, atimestep := u.ntimestep }, setVar vars "time" atime)

/-- The conversion of a `bigint` to the `int` a function returns: the value modulo
`2^32`, in `[-2^31, 2^31)`. -/
def toInt32 (n : Int) : Int := (n + 2 ^ 31) % 2 ^ 32 - 2 ^ 31

/-- The function `Update::update_timestep` (lines 141-146): the new `Update`, the
new table of variables and the value returned. The counter `ntimestep` is a 64-bit
`bigint` and the function is declared `int`: the value returned is the new counter
converted to `int`. The increment of the counter is exact below `2^63`. -/
def Update.update_timestep (u : Update) (vars : Vars) : (Update × Vars) × Int :=
  let ntimestep := u.ntimestep + 1
  (({ u with ntimestep := ntimestep }, setVar vars "timestep" (.val (ntimestep : ℚ))),
   toInt32 ntimestep)

/-- A call of one of the two functions. -/
inductive TimeCall where
  | update_time
  | update_timestep
deriving DecidableEq, Repr

/-- The state after one call. -/
def TimeCall.run (st : Update × Vars) : TimeCall → Update × Vars
  | .update_time => st.1.update_time st.2
  | .update_timestep => (st.1.update_timestep st.2).1

/-- The state after a sequence of calls. -/
def run_calls (calls : List TimeCall) (st : Update × Vars) : Update × Vars :=
  calls.foldl TimeCall.run st

/-- The invariant of the clock for the time step `d`. -/
def Update.clock_inv (u : Update) (d : ℚ) : Prop :=
  u.dt = .val d ∧ u.atimestep ≤ u.ntimestep ∧ u.atime = .val ((u.atimestep : ℚ) * d)

/-- The counters are not negative and the step counter is at most `n`. -/
def Update.counters_within (u : Update) (n : Int) : Prop :=
  0 ≤ u.atimestep ∧ 0 ≤ u.ntimestep ∧ u.ntimestep ≤ n

/-! ## The weight and the gradient as products over the active axes -/

/-- The component of a vector on axis `d` (0, 1 or 2). -/
def Vec3.get (v : Vec3) : Nat → ℚ
  | 0 => v.x
  | 1 => v.y
  | _ => v.z

/-- The active axes of a run: the axes `d < dimension` among 0, 1, 2. -/
def active_axes (dimension : Int) : List Nat :=
  (List.range 3).filter fun d => (d : Int) < dimension

/-- The values `s[d]` of the shape function of node `inn` at particle `ip`, axis by
axis (lines 348-358, evaluated on the three axes). -/
def axis_values (bf : BasisFunction) (m : ULMPM) (s : Solid) (ip : Nat) (inn : Int) : Vec3 :=
  let inv_cellsize := 1 / s.grid.cellsize
  let r := Vec3.sub_scaled (s.particles.getD ip default).x (vget s.grid.x0 inn) inv_cellsize
  let ntype := vget s.grid.ntype inn
  { x := bf.value m.basis_function r.x ntype.1,
    y := bf.value m.basis_function r.y ntype.2.1,
    z := bf.value m.basis_function r.z ntype.2.2 }

/-- The values `sd[d]` of the derivative of the shape function of node `inn` at
particle `ip`, axis by axis (lines 365-370, evaluated on the three axes). -/
def axis_derivatives (bf : BasisFunction) (m : ULMPM) (s : Solid) (ip : Nat) (inn : Int) :
    Vec3 :=
  let inv_cellsize := 1 / s.grid.cellsize
  let r := Vec3.sub_scaled (s.particles.getD ip default).x (vget s.grid.x0 inn) inv_cellsize
  let ntype := vget s.grid.ntype inn
  { x := bf.derivative m.basis_function r.x ntype.1 inv_cellsize,
    y := bf.derivative m.basis_function r.y ntype.2.1 inv_cellsize,
    z := bf.derivative m.basis_function r.z ntype.2.2 inv_cellsize }

/-- The weight as the specification words it: the product of `s[d]` over the active
axes. -/
def tensor_weight (dimension : Int) (sv : Vec3) : ℚ :=
  ((active_axes dimension).map sv.get).prod

/-- The component `d` of the gradient as the specification words it: `sd[d]` times
the product of `s[e]` over the other active axes, and 0 on an inactive axis. -/
def tensor_gradient_component (dimension : Int) (sv sdv : Vec3) (d : Nat) : ℚ :=
  if (d : Int) < dimension then
    sdv.get d * (((active_axes dimension).filter fun e => e ≠ d).map sv.get).prod
  else 0

/-- The gradient as the specification words it. -/
def tensor_gradient (dimension : Int) (sv sdv : Vec3) : Vec3 :=
  { x := tensor_gradient_component dimension sv sdv 0,
    y := tensor_gradient_component dimension sv sdv 1,
    z := tensor_gradient_component dimension sv sdv 2 }

/-- The flags `rigid` of the grid after the test of line 361 for node `inn`. -/
def mark_rigid (s : Solid) (inn : Int) : Solid :=
  { s with grid := { s.grid with
      rigid := if s.mat_rigid then vset s.grid.rigid inn true else s.grid.rigid } }

/-! ## The candidates of a stencil -/

/-- The values taken by the counter of a loop `for (i = i0; i < i0 + w; i++)`. -/
def axis_range (i0 : Int) (w : Nat) : List Int :=
  (List.range w).map fun (a : Nat) => i0 + (a : Int)

/-- What the innermost statement of the loops appends to `n_neigh` for the candidate
`(i, j, k)` (lines 218-243): in 3D and in 2D the index found for its tag, if any; in
1D the index `i` itself when it is below the number of nodes. -/
def resolve (g : Grid) (i j k : Int) : List Int :=
  if g.ny_global > 1 then
    if g.nz_global > 1 then
      find_push g.map_ntag (g.nz_global * g.ny_global * i + g.nz_global * j + k)
    else find_push g.map_ntag (g.ny_global * i + j)
  else if i < ((g.nnodes_local + g.nnodes_ghost : Nat) : Int) then [i] else []

/-- The candidates with first index in `is`, second in `js` (when `ny > 1`) and third
in `ks` (when `nz > 1`), resolved in the order of the loops. -/
def resolve_all (g : Grid) (is js ks : List Int) : List Int :=
  is.flatMap fun i =>
    if g.ny_global > 1 then
      js.flatMap fun j =>
        if g.nz_global > 1 then ks.flatMap fun k => resolve g i j k
        else resolve g i j 0
    else resolve g i 0 0

/-- The coordinate `q = (x - boxlo) * inv_cellsize` of a particle on an axis, in
cells (lines 210-212). -/
def cell_coordinate (x boxlo cellsize : ℚ) : ℚ := (x - boxlo) * (1 / cellsize)

/-- The candidates of the cubic and quadratic splines on an axis (lines 299-305):
the anchor `(int) (q - 1)` and the three integers that follow. -/
def spline_range (q : ℚ) : List Int := axis_range (toInt (q - 1)) 4

/-- The candidates of the Bernstein functions on an axis (lines 250-264): the anchor
`2 * (int) q`, after the decrement, and the two integers that follow. -/
def bernstein_range (q : ℚ) : List Int := axis_range (bernstein_anchor (2 * toInt q)) 3

/-! ## The tag map of a grid -/

/-- The tag of the candidate `(i, j, k)`: `nz * ny * i + nz * j + k` in 3D (line 222)
and `ny * i + j` in 2D (line 231), as the loops compute it; in 1D, where the loops
look no tag up, the tag `i` of the specification. -/
def Grid.tag (g : Grid) (i j k : Int) : Int :=
  if g.ny_global > 1 then
    if g.nz_global > 1 then g.nz_global * g.ny_global * i + g.nz_global * j + k
    else g.ny_global * i + j
  else i

/-- The candidate `(i, j, k)` is within the range of the grid on every axis the
loops iterate over. -/
def Grid.in_range (g : Grid) (i j k : Int) : Prop :=
  (0 ≤ i ∧ i < g.nx_global) ∧ (g.ny_global > 1 → 0 ≤ j ∧ j < g.ny_global) ∧
  (g.ny_global > 1 → g.nz_global > 1 → 0 ≤ k ∧ k < g.nz_global)

/-- The node of grid coordinates `c` is the node of grid coordinates `(i, j, k)`, on
the axes the loops iterate over. -/
def Grid.same_node (g : Grid) (c : Int × Int × Int) (i j k : Int) : Prop :=
  c.1 = i ∧ (g.ny_global > 1 → c.2.1 = j) ∧
  (g.ny_global > 1 → g.nz_global > 1 → c.2.2 = k)

/-- The map `map_ntag` is the tag map of the stored nodes, `coord n` being the grid
coordinates of the node of local index `n`: the stored nodes have their coordinates in
range, the tag of each is sent to its local index, and the map holds nothing else. -/
def Grid.tag_map_of (g : Grid) (coord : Nat → Int × Int × Int) : Prop :=
  (∀ n < g.nnodes_local + g.nnodes_ghost,
    g.in_range (coord n).1 (coord n).2.1 (coord n).2.2) ∧
  (∀ n < g.nnodes_local + g.nnodes_ghost,
    g.map_ntag (g.tag (coord n).1 (coord n).2.1 (coord n).2.2) = some (n : Int)) ∧
  (∀ (t idx : Int), g.map_ntag t = some idx →
    ∃ n < g.nnodes_local + g.nnodes_ghost,
      idx = (n : Int) ∧ g.tag (coord n).1 (coord n).2.1 (coord n).2.2 = t)

/-- A 2D grid of 2 × 2 nodes, all local, at the corners of the unit square; the node
of coordinates `(i, j)` has the tag and the local index `2 * i + j`. -/
def grid_two_by_two : Grid :=
  { nnodes_local := 4, nx_global := 2, ny_global := 2,
    x0 := [{ x := 0, y := 0 }, { x := 0, y := 1 }, { x := 1, y := 0 }, { x := 1, y := 1 }],
    ntype := [(0, 0, 0), (0, 0, 0), (0, 0, 0), (0, 0, 0)],
    rigid := [false, false, false, false],
    map_ntag := fun t => if 0 ≤ t ∧ t < 4 then some t else none }

/-- The grid coordinates of the nodes of `grid_two_by_two`. -/
def coord_two_by_two (n : Nat) : Int × Int × Int := ((n / 2 : Nat), (n % 2 : Nat), 0)

/-- A solid on `grid_two_by_two` with one particle at the centre of the cell. -/
def solid_two_by_two : Solid :=
  { np_local := 1, particles := [{ x := { x := 1 / 2, y := 1 / 2 } }],
    grid := grid_two_by_two,
    numneigh_pn := [0], neigh_pn := [[]], wf_pn := [[]], wfd_pn := [[]],
    numneigh_np := [0, 0, 0, 0], neigh_np := [[], [], [], []],
    wf_np := [[], [], [], []], wfd_np := [[], [], [], []] }

/-! ## The lists of a particle -/

/-- The four records of particle `ip`: `neigh_pn[ip]`, `numneigh_pn[ip]`, `wf_pn[ip]`
and `wfd_pn[ip]`. -/
def Solid.pn (s : Solid) (ip : Nat) : List Int × Int × List ℚ × List Vec3 :=
  (s.neigh_pn.getD ip [], s.numneigh_pn.getD ip 0, s.wf_pn.getD ip [],
   s.wfd_pn.getD ip [])

/-- The four per-particle vectors are allocated for `P` particles. -/
def Solid.pn_allocated (s : Solid) (P : Nat) : Prop :=
  P ≤ s.neigh_pn.length ∧ P ≤ s.numneigh_pn.length ∧ P ≤ s.wf_pn.length ∧
  P ≤ s.wfd_pn.length

/-- The solid `s'` has the particles, the particle count and the grid of `s`, up to
the flags `rigid` of the grid. -/
def Solid.same_stencil (s s' : Solid) : Prop :=
  s'.particles = s.particles ∧ s'.np_local = s.np_local ∧
  ∃ rigid, s'.grid = { s.grid with rigid := rigid }

/-- The test of line 360 for particle `ip` and node `inn`: no shape function is
zero (`s[1]` and `s[2]` are 1 on the axes the run does not have). -/
def keeps (bf : BasisFunction) (m : ULMPM) (dom : Domain) (s : Solid) (ip : Nat)
    (inn : Int) : Bool :=
  let sv := axis_values bf m s ip inn
  let s1 := if dom.dimension ≥ 2 then sv.y else 1
  let s2 := if dom.dimension = 3 then sv.z else 1
  decide (sv.x ≠ 0 ∧ s1 ≠ 0 ∧ s2 ≠ 0)

/-- The records of particle `ip` are consistent: `numneigh_pn[ip]` is the common
length of the three lists, and `neigh_pn[ip]` holds, in the order of the list
`n_neigh` of the particle, the nodes of that list that pass the test of line 360. -/
def Solid.pn_good (bf : BasisFunction) (m : ULMPM) (u : Update) (dom : Domain)
    (s : Solid) (ip : Nat) : Prop :=
  s.numneigh_pn.getD ip 0 = ((s.neigh_pn.getD ip []).length : Int) ∧
  s.aligned_pn ip ∧
  ∃ nb, n_neigh u dom s ip = .ok nb ∧
    s.neigh_pn.getD ip [] = nb.filter (keeps bf m dom s ip)

/-- The tag map sends distinct tags to distinct local indices. -/
def Grid.map_injective (g : Grid) : Prop :=
  ∀ (t t' idx : Int), g.map_ntag t = some idx → g.map_ntag t' = some idx → t = t'

/-- Modelled from the spec: the cubic spline of `basis_functions.h` (not among the
sources), "support 2, four nodes per axis", which "returns 0 outside support": the
cubic B-spline and its derivative, taken for every family and node type. -/
def spline_basis : BasisFunction :=
  { value := fun _ r _ =>
      if |r| < 1 then |r| ^ 3 / 2 - r ^ 2 + 2 / 3
      else if |r| < 2 then (2 - |r|) ^ 3 / 6
      else 0,
    derivative := fun _ r _ inv_cellsize =>
      if |r| < 1 then (3 * r * |r| / 2 - 2 * r) * inv_cellsize
      else if |r| < 2 then
        (if r < 0 then (2 - |r|) ^ 2 / 2 else -((2 - |r|) ^ 2 / 2)) * inv_cellsize
      else 0 }

/-- A 2D run with the cubic spline and the solid `solid_two_by_two`. -/
def mpm_two_by_two : MPM :=
  { update := { method_shape_function := "cubic-spline" },
    domain := { dimension := 2, solids := [solid_two_by_two] } }

/-! ## `FixBodyforce::post_particles_to_grid` -/

instance : Inhabited Grid := ⟨{}⟩

instance : Zero Vec3 := ⟨{}⟩

instance : Add Vec3 := ⟨fun a b => { x := a.x + b.x, y := a.y + b.y, z := a.z + b.z }⟩

/-- The product `f *= c` of a vector by a scalar. -/
def Vec3.scale (c : ℚ) (a : Vec3) : Vec3 := { x := c * a.x, y := c * a.y, z := c * a.z }

/-- The sum of a list of vectors. -/
def Vec3.sum : List Vec3 → Vec3
  | [] => 0
  | a :: rest => a + Vec3.sum rest

/-- The vector `a` added `n` times. -/
def Vec3.times (n : Nat) (a : Vec3) : Vec3 := Vec3.scale (n : ℚ) a

/-- The grids reached through `domain->solids[isolid]->grid`. The member `grid` of a
solid is a pointer: `solid_grid[isolid]` is the index, in the list `grids` of the
grids of the process, of the grid solid `isolid` points to, and two solids may point to
the same grid. -/
structure GridStore where
  grids : List Grid := []
  solid_grid : List Nat := []

/-- The fields of `class FixBodyforce` (and of its base `Fix`) that
`post_particles_to_grid` reads. `solid` is `group->solid[igroup]`; `xvalue`, `yvalue`
and `zvalue` give the result `Var::result(mpm)` of the three expressions as a
function of the table of variables they are evaluated in. -/
structure FixBodyforce where
  id : String := ""
  groupbit : Nat := 1
  solid : Int := -1
  xset : Bool := false
  yset : Bool := false
  zset : Bool := false
  xvalue : Vars → ℚ := fun _ => 0
  yvalue : Vars → ℚ := fun _ => 0
  zvalue : Vars → ℚ := fun _ => 0

/-- The read `(*input->vars)[name]` of a variable. -/
def getVar (vars : Vars) (name : String) : Option Dbl :=
  (vars.find? fun kv => kv.1 == name).map fun kv => kv.2

/-- The three assignments of lines 105-107: the variables `x0`, `y0`, `z0` take the
coordinates of the node. -/
def node_vars (vars : Vars) (p : Vec3) : Vars :=
  setVar (setVar (setVar vars "x0" (.val p.x)) "y0" (.val p.y)) "z0" (.val p.z)

/-- The vector `f` of lines 108-111, before its product by the mass: an unset
component is 0. -/
def FixBodyforce.force (fix : FixBodyforce) (vars : Vars) : Vec3 :=
  { x := if fix.xset then fix.xvalue vars else 0,
    y := if fix.yset then fix.yvalue vars else 0,
    z := if fix.zset then fix.zvalue vars else 0 }

/-- The body of the loop over the nodes (lines 103-121), on the grid, the table of
variables and the sum `ftot`. -/
def FixBodyforce.node_step (fix : FixBodyforce) (st : Grid × Vars × Vec3) (inn : Nat) :
    Grid × Vars × Vec3 :=
  let g := st.1
  if g.mass.getD inn 0 > 0 then
    if g.mask.getD inn 0 &&& fix.groupbit ≠ 0 then
      let vars := node_vars st.2.1 (g.x0.getD inn default)
      let f := Vec3.scale (g.mass.getD inn 0) (fix.force vars)
      ({ g with mb := g.mb.set inn (g.mb.getD inn default + f) }, vars,
       if inn < g.nnodes_local then st.2.2 + f else st.2.2)
    else st
  else st

/-- The loop over the nodes of a grid (lines 102-122). -/
def FixBodyforce.grid_pass (fix : FixBodyforce) (st : Grid × Vars × Vec3) :
    Grid × Vars × Vec3 :=
  (List.range (st.1.nnodes_local + st.1.nnodes_ghost)).foldl fix.node_step st

/-- The body of the loop over the solids (lines 100-123): the loop over the nodes of
the grid of solid `isolid`. -/
def FixBodyforce.solid_step (fix : FixBodyforce) (st : GridStore × Vars × Vec3)
    (isolid : Nat) : GridStore × Vars × Vec3 :=
  let gi := st.1.solid_grid.getD isolid 0
  let r := fix.grid_pass (st.1.grids.getD gi default, st.2.1, st.2.2)
  ({ st.1 with grids := st.1.grids.set gi r.1 }, r.2.1, r.2.2)

/-- The part of `post_particles_to_grid` before the reduction (lines 91-146): the
grids, the table of variables and the sum `ftot` of the process. Reading
`domain->solids[solid]` outside the vector is the outcome `Err.oob`. -/
def FixBodyforce.local_pass (fix : FixBodyforce) (store : GridStore) (vars : Vars) :
    Except Err (GridStore × Vars × Vec3) :=
  if fix.solid = -1 then
    .ok ((List.range store.solid_grid.length).foldl fix.solid_step (store, vars, 0))
  else if 0 ≤ fix.solid ∧ fix.solid.toNat < store.solid_grid.length then
    .ok (fix.solid_step (store, vars, 0) fix.solid.toNat)
  else .error (.oob fix.solid.toNat)

/-- The sum of the `ftot` of the other processes in `MPI_Allreduce(..., MPI_SUM, ...)`
(line 149): each runs the same function on its own grids and variables. -/
def FixBodyforce.allreduce_sum (fix : FixBodyforce) :
    List (GridStore × Vars) → Except Err Vec3
  | [] => .ok 0
  | o :: rest =>
    match fix.local_pass o.1 o.2 with
    | .error e => .error e
    | .ok r =>
      match FixBodyforce.allreduce_sum fix rest with
      | .error e => .error e
      | .ok total => .ok (r.2.2 + total)

/-- The function `FixBodyforce::post_particles_to_grid` (lines 87-161) on the process
`me`, the other processes being `others`: the grids and the table of variables of
the process after the call. -/
def FixBodyforce.post_particles_to_grid (fix : FixBodyforce) (me : GridStore × Vars)
    (others : List (GridStore × Vars)) : Except Err (GridStore × Vars) :=
  match fix.local_pass me.1 me.2 with
  | .error e => .error e
  | .ok r =>
    match fix.allreduce_sum others with
    | .error e => .error e
    | .ok total =>
      let ftot_reduced := r.2.2 + total
      let v1 := if fix.xset then setVar r.2.1 (fix.id ++ "_x") (.val ftot_reduced.x)
        else r.2.1
      let v2 := if fix.yset then setVar v1 (fix.id ++ "_y") (.val ftot_reduced.y) else v1
      let v3 := if fix.zset then setVar v2 (fix.id ++ "_z") (.val ftot_reduced.z) else v2
      .ok (r.1, v3)

/-- The node `inn` of the grid is one the fix acts on: its mass is positive and its
mask has a bit of `groupbit`. -/
def FixBodyforce.selected (fix : FixBodyforce) (g : Grid) (inn : Nat) : Prop :=
  g.mass.getD inn 0 > 0 ∧ g.mask.getD inn 0 &&& fix.groupbit ≠ 0

instance (fix : FixBodyforce) (g : Grid) (inn : Nat) : Decidable (fix.selected g inn) := by
  unfold FixBodyforce.selected
  infer_instance

/-- The increment `mass[inn] · (fx, fy, fz)` of node `inn`, the expressions being
evaluated in the table `vars` with `x0`, `y0`, `z0` set to the coordinates of the
node; zero for a node the fix does not act on. -/
def FixBodyforce.increment (fix : FixBodyforce) (vars : Vars) (g : Grid) (inn : Nat) : Vec3 :=
  if fix.selected g inn then
    Vec3.scale (g.mass.getD inn 0) (fix.force (node_vars vars (g.x0.getD inn default)))
  else 0

/-- The sum of the increments of the owned nodes of a grid. -/
def FixBodyforce.owned_total (fix : FixBodyforce) (vars : Vars) (g : Grid) : Vec3 :=
  Vec3.sum ((List.range g.nnodes_local).map (fix.increment vars g))

/-- The solids the call goes through: all of them when `group->solid[igroup]` is -1,
else that solid. -/
def FixBodyforce.visited_solids (fix : FixBodyforce) (store : GridStore) : List Nat :=
  if fix.solid = -1 then List.range store.solid_grid.length else [fix.solid.toNat]

/-- The grids the call goes through, in order, one for each solid visited. -/
def FixBodyforce.visits (fix : FixBodyforce) (store : GridStore) : List Nat :=
  (fix.visited_solids store).map fun isolid => store.solid_grid.getD isolid 0

/-- The sum `ftot` of a process: the sum, over the grids visited, of the increments
of their owned nodes. -/
def FixBodyforce.local_total (fix : FixBodyforce) (me : GridStore × Vars) : Vec3 :=
  Vec3.sum ((fix.visits me.1).map fun gi => fix.owned_total me.2 (me.1.grids.getD gi default))

/-- The pointers of the solids are valid and the vector `mb` of every grid is
allocated for its nodes. -/
def GridStore.allocated (store : GridStore) : Prop :=
  (∀ gi ∈ store.solid_grid, gi < store.grids.length) ∧
  (∀ g ∈ store.grids, g.nnodes_local + g.nnodes_ghost ≤ g.mb.length)

/-- A grid with one owned node, of mass 2, in the group of bit 1. -/
def grid_one_node : Grid :=
  { nnodes_local := 1, x0 := [{}], mass := [2], mask := [1], mb := [{}] }

/-- A fix on all the solids, whose only expression, on the first axis, is the
constant 5. -/
def fix_gravity : FixBodyforce :=
  { id := "grav", groupbit := 1, solid := -1, xset := true, xvalue := fun _ => 5 }

/-- One solid on the grid `grid_one_node`. -/
def store_one_solid : GridStore := { grids := [grid_one_node], solid_grid := [0] }

/-- Two solids that point to the same grid `grid_one_node`. -/
def store_shared : GridStore := { grids := [grid_one_node], solid_grid := [0, 0] }

/-! ## Example configurations -/

/-- A solid with three particles at `x = 5, 1, 6` and records of 4 doubles. -/
def solid_three : Solid :=
  { np_local := 3, comm_n := 4,
    particles := [{ tag := 2, x := { x := 5 } }, { tag := 1, x := { x := 1 } },
      { tag := 3, x := { x := 6 } }] }

/-- Two ranks: rank 0 owns `x < 3` and holds `solid_three`, rank 1 owns `3 ≤ x` and
holds no particle. -/
def world_two_ranks : List Domain :=
  [{ inside_subdomain := fun x _ _ => decide (x < 3), solids := [solid_three] },
   { inside_subdomain := fun x _ _ => decide (3 ≤ x),
     solids := [{ np_local := 0, comm_n := 4, particles := [] }] }]

/-- Two ranks owning `x < 3` and `3 ≤ x < 6`; the particle of rank 1 has moved to
`x = 7`, outside both subdomains. -/
def world_lost_particle : List Domain :=
  [{ inside_subdomain := fun x _ _ => decide (x < 3),
     solids := [{ np_local := 1, comm_n := 4,
                  particles := [{ tag := 1, x := { x := 1 } }] }] },
   { inside_subdomain := fun x _ _ => decide (3 ≤ x) && decide (x < 6),
     solids := [{ np_local := 1, comm_n := 4,
                  particles := [{ tag := 2, x := { x := 7 } }] }] }]

/-- A solid with `comm_n = 4` whose only particle has a record of 5 doubles. -/
def solid_long_record : Solid :=
  { np_local := 1, comm_n := 4, particles := [{ tag := 1, rest := [7] }] }

/-- A stand-in for `basis_functions.h`: the hat function `1 - |r|` on `|r| < 1`
and its derivative, for every family and node type. -/
def hat_basis : BasisFunction :=
  { value := fun _ r _ => if |r| < 1 then 1 - |r| else 0,
    derivative := fun _ r _ inv_cellsize =>
      if |r| < 1 then (if r < 0 then inv_cellsize else -inv_cellsize) else 0 }

/-- A solid on a 1D grid of two nodes at `x = 0` and `x = 1`, with one particle at
`x = 1/2`; the list of node 0 holds a stale entry. -/
def solid_one_particle : Solid :=
  { np_local := 1, particles := [{ x := { x := 1 / 2 } }],
    grid := { nnodes_local := 2, nx_global := 2, x0 := [{ x := 0 }, { x := 1 }],
              ntype := [(0, 0, 0), (0, 0, 0)], rigid := [false, false] },
    numneigh_pn := [0], neigh_pn := [[]], wf_pn := [[]], wfd_pn := [[]],
    numneigh_np := [1, 0], neigh_np := [[7], []], wf_np := [[1], []],
    wfd_np := [[{}], []] }

/-- A 1D run with the linear shape function and the solid `solid_one_particle`. -/
def mpm_one_particle : MPM :=
  { update := { method_shape_function := "linear" },
    domain := { dimension := 1, solids := [solid_one_particle] } }

/-! ## Facts about the time-step control -/

theorem MIN_val_val (a q : ℚ) : MIN (.val a) (.val q) = .val (min a q) := by
  unfold MIN Dbl.lt
  by_cases h : a < q
  · simp [h, min_eq_left (le_of_lt h)]
  · simp [h, min_eq_right (not_lt.mp h)]

theorem MIN_val_nan (a : ℚ) : MIN (.val a) .nan = .nan := by
  simp [MIN, Dbl.lt]

/-- A loop that returns has returned the minimum of its start value and of the
`dtCFL` of the solids, all of which are numbers. -/
theorem adjust_dt_loop_ok (ss : List Solid) : ∀ (a : ℚ) (d : Dbl),
    adjust_dt_loop ss (.val a) = .ok d →
    ∃ m : ℚ, d = .val m ∧ m ≤ a ∧
      (∀ s ∈ ss, ∃ q : ℚ, s.dtCFL = .val q ∧ m ≤ q) ∧
      (m = a ∨ ∃ s ∈ ss, s.dtCFL = .val m) := by
  induction ss with
  | nil =>
    intro a d h
    simp only [adjust_dt_loop, Except.ok.injEq] at h
    exact ⟨a, h.symm, le_refl _, by simp, Or.inl rfl⟩
  | cons s rest ih =>
    intro a d h
    cases hs : s.dtCFL with
    | nan =>
      simp [adjust_dt_loop, hs, MIN_val_nan, Dbl.isnan] at h
    | val q =>
      simp only [adjust_dt_loop, hs, MIN_val_val, Dbl.isnan] at h
      split at h
      · cases h
      · simp only [Bool.false_eq_true, if_false] at h
        obtain ⟨m, hd, hm, hall, hex⟩ := ih (min a q) d h
        refine ⟨m, hd, le_trans hm (min_le_left _ _), ?_, ?_⟩
        · intro s' hs'
          rcases List.mem_cons.mp hs' with rfl | hr
          · exact ⟨q, hs, le_trans hm (min_le_right _ _)⟩
          · exact hall s' hr
        · rcases hex with hma | ⟨s', hs', hv⟩
          · rcases min_choice a q with h1 | h1
            · left; rw [hma, h1]
            · right; exact ⟨s, List.mem_cons_self _ _, by rw [hs, hma, h1]⟩
          · right; exact ⟨s', List.mem_cons_of_mem _ hs', hv⟩

/-- A loop that stops in an error was started at 0, or met a solid whose
`dtCFL` is 0 or NaN; the error is the rank-local one. -/
theorem adjust_dt_loop_error (ss : List Solid) : ∀ (a : ℚ) (e : Err), a ≠ 0 →
    adjust_dt_loop ss (.val a) = .error e →
    e = .one "" ∧ ∃ s ∈ ss, s.dtCFL = .val 0 ∨ s.dtCFL = .nan := by
  induction ss with
  | nil => intro a e _ h; simp [adjust_dt_loop] at h
  | cons s rest ih =>
    intro a e ha h
    cases hs : s.dtCFL with
    | nan =>
      simp only [adjust_dt_loop, hs, MIN_val_nan, Dbl.isnan] at h
      simp at h
      exact ⟨h.symm, s, List.mem_cons_self _ _, Or.inr hs⟩
    | val q =>
      simp only [adjust_dt_loop, hs, MIN_val_val, Dbl.isnan] at h
      split at h
      · rename_i h0
        simp only [Except.error.injEq] at h
        refine ⟨h.symm, s, List.mem_cons_self _ _, Or.inl ?_⟩
        have h0' : min a q = 0 := by simpa using h0
        rcases min_choice a q with h1 | h1
        · exact absurd (h1 ▸ h0') ha
        · rw [hs, ← h0', h1]
      · rename_i h0
        simp only [Bool.false_eq_true, if_false] at h
        have h0' : min a q ≠ 0 := by simpa using h0
        obtain ⟨he, s', hs', hv⟩ := ih (min a q) e h0' h
        exact ⟨he, s', List.mem_cons_of_mem _ hs', hv⟩

/-- A solid with `dtCFL = 0` stops the loop in the rank-local error, provided the
loop was started at a nonnegative value and no solid before it has a negative
`dtCFL`. -/
theorem adjust_dt_loop_zero (pre : List Solid) (s : Solid) (post : List Solid)
    (hs : s.dtCFL = .val 0)
    (hpre : ∀ p ∈ pre, ∀ q : ℚ, p.dtCFL = .val q → 0 ≤ q) : ∀ (a : ℚ), 0 ≤ a →
    adjust_dt_loop (pre ++ s :: post) (.val a) = .error (.one "") := by
  induction pre with
  | nil =>
    intro a ha
    simp [adjust_dt_loop, hs, MIN_val_val, min_eq_right ha]
  | cons p rest ih =>
    intro a ha
    cases hp : p.dtCFL with
    | nan => simp [adjust_dt_loop, hp, MIN_val_nan, Dbl.isnan]
    | val q =>
      have hq : 0 ≤ q := hpre p (List.mem_cons_self _ _) q hp
      simp only [List.cons_append, adjust_dt_loop, hp, MIN_val_val, Dbl.isnan]
      split
      · rfl
      · simp only [Bool.false_eq_true, if_false]
        exact ih (fun p' hp' => hpre p' (List.mem_cons_of_mem _ hp')) (min a q) (le_min ha hq)

/-- A reduction that returns has returned the minimum of this rank's value and of
the `dtCFL` of the solids of the other ranks (each capped by the start value
`1e22` of their loops). -/
theorem allreduce_min_ok (rs : List (List Solid)) : ∀ (a : ℚ) (d : Dbl),
    allreduce_min (.val a) rs = .ok d →
    ∃ m : ℚ, d = .val m ∧ m ≤ a ∧
      (∀ r ∈ rs, ∀ s ∈ r, ∃ q : ℚ, s.dtCFL = .val q ∧ m ≤ q) ∧
      (m = a ∨ m = 10 ^ 22 ∨ ∃ r ∈ rs, ∃ s ∈ r, s.dtCFL = .val m) := by
  induction rs with
  | nil =>
    intro a d h
    simp only [allreduce_min, Except.ok.injEq] at h
    exact ⟨a, h.symm, le_refl _, by simp, Or.inl rfl⟩
  | cons r rest ih =>
    intro a d h
    simp only [allreduce_min] at h
    cases hr : adjust_dt_loop r (.val (10 ^ 22)) with
    | error e => rw [hr] at h; cases h
    | ok d0 =>
      rw [hr] at h
      obtain ⟨m0, hd0, _, hall0, hex0⟩ := adjust_dt_loop_ok r _ _ hr
      subst hd0
      simp only [MIN_val_val] at h
      obtain ⟨m, hd, hm, hall, hex⟩ := ih (min a m0) d h
      refine ⟨m, hd, le_trans hm (min_le_left _ _), ?_, ?_⟩
      · intro r' hr' s hs
        rcases List.mem_cons.mp hr' with rfl | hin
        · obtain ⟨q, hq, hle⟩ := hall0 s hs
          exact ⟨q, hq, le_trans (le_trans hm (min_le_right _ _)) hle⟩
        · exact hall r' hin s hs
      · rcases hex with hma | h22 | ⟨r', hr', s, hs, hv⟩
        · rcases min_choice a m0 with h1 | h1
          · left; rw [hma, h1]
          · rcases hex0 with h0 | ⟨s, hs, hv⟩
            · right; left; rw [hma, h1, h0]
            · right; right
              exact ⟨r, List.mem_cons_self _ _, s, hs, by rw [hv, hma, h1]⟩
        · right; left; exact h22
        · right; right; exact ⟨r', List.mem_cons_of_mem _ hr', s, hs, hv⟩

/-- A reduction that fails does so because some other rank met a solid whose
`dtCFL` is 0 or NaN. -/
theorem allreduce_min_error (rs : List (List Solid)) : ∀ (a : Dbl) (e : Err),
    allreduce_min a rs = .error e →
    e = .one "" ∧ ∃ r ∈ rs, ∃ s ∈ r, s.dtCFL = .val 0 ∨ s.dtCFL = .nan := by
  induction rs with
  | nil => intro a e h; simp [allreduce_min] at h
  | cons r rest ih =>
    intro a e h
    simp only [allreduce_min] at h
    cases hr : adjust_dt_loop r (.val (10 ^ 22)) with
    | error e0 =>
      rw [hr] at h
      simp only [Except.error.injEq] at h
      subst h
      obtain ⟨he, s, hs, hv⟩ := adjust_dt_loop_error r _ _ (by norm_num) hr
      exact ⟨he, r, List.mem_cons_self _ _, s, hs, hv⟩
    | ok d0 =>
      rw [hr] at h
      obtain ⟨he, r', hr', s, hs, hv⟩ := ih _ e h
      exact ⟨he, r', List.mem_cons_of_mem _ hr', s, hs, hv⟩

theorem setVar_setVar (vars : Vars) (name : String) (v : Dbl) :
    setVar (setVar vars name v) name v = setVar vars name v := by
  simp [setVar, List.filter_cons, List.filter_filter]

/-! ## C4: the time step chosen by `adjust_dt` -/

/-- C4 as stated fails in two ways. With one solid whose `dtCFL` is `2e22` and
`dt_factor = 1` the call returns `dt = 1e22`, which is not `dt_factor` times the
minimum `2e22` of the solids. With `dt_factor = -1` and solids of `dtCFL` 1 and 2
the call returns `dt = -1`, which is not `≤ dt_factor · 2 = -2`. -/
theorem adjust_dt_dt_counterexample :
    (∃ m : MPM,
      adjust_dt { update := { dt_factor := .val 1 },
                  domain := { solids := [{ dtCFL := .val (2 * 10 ^ 22) }] } } [] = .ok m ∧
      m.update.dt = .val (10 ^ 22) ∧
      m.update.dt ≠ Dbl.mul (.val 1) (.val (2 * 10 ^ 22))) ∧
    (∃ m : MPM,
      adjust_dt { update := { dt_factor := .val (-1) },
                  domain := { solids := [{ dtCFL := .val 1 }, { dtCFL := .val 2 }] } } []
        = .ok m ∧
      m.update.dt = .val (-1) ∧
      Dbl.le m.update.dt (Dbl.mul (.val (-1)) (.val 2)) = false) := by
  constructor
  · refine ⟨{ update := { dt_factor := .val 1, dt := .val (10 ^ 22) },
              domain := { solids := [{ dtCFL := .val (2 * 10 ^ 22) }] },
              vars := [("dt", .val (10 ^ 22))] }, ?_, rfl, ?_⟩
    · simp only [adjust_dt, adjust_dt_loop, allreduce_min, MIN_val_val, Dbl.isnan]
      norm_num [Dbl.mul, setVar]
    · simp [Dbl.mul]
  · refine ⟨{ update := { dt_factor := .val (-1), dt := .val (-1) },
              domain := { solids := [{ dtCFL := .val 1 }, { dtCFL := .val 2 }] },
              vars := [("dt", .val (-1))] }, ?_, rfl, ?_⟩
    · simp only [adjust_dt, adjust_dt_loop, allreduce_min, MIN_val_val, Dbl.isnan]
      norm_num [Dbl.mul, setVar]
    · simp [Dbl.mul, Dbl.le]

/-- C4, amended: when `adjust_dt` returns, and `dt_constant` is set, nothing has
changed; when `dt_constant` is not set, `dt` is `dt_factor` times the minimum `m`
of `1e22` and of the `dtCFL` of all solids of all ranks, and, if `dt_factor` is a
nonnegative number, `dt ≤ dt_factor · dtCFL` for every solid. -/
theorem adjust_dt_dt (mpm : MPM) (others : List (List Solid)) (mpm' : MPM)
    (h : adjust_dt mpm others = .ok mpm') :
    (mpm.update.dt_constant = true → mpm' = mpm) ∧
    (mpm.update.dt_constant = false → ∃ m : ℚ,
      mpm'.update.dt = Dbl.mul (.val m) mpm.update.dt_factor ∧
      m ≤ 10 ^ 22 ∧
      (∀ r ∈ mpm.domain.solids :: others, ∀ s ∈ r, ∃ q : ℚ, s.dtCFL = .val q ∧ m ≤ q) ∧
      (m = 10 ^ 22 ∨ ∃ r ∈ mpm.domain.solids :: others, ∃ s ∈ r, s.dtCFL = .val m) ∧
      (∀ f : ℚ, mpm.update.dt_factor = .val f → 0 ≤ f →
        ∀ r ∈ mpm.domain.solids :: others, ∀ s ∈ r,
          Dbl.le mpm'.update.dt (Dbl.mul mpm.update.dt_factor s.dtCFL) = true)) := by
  constructor
  · intro hc
    simp only [adjust_dt, hc, if_true, Except.ok.injEq] at h
    exact h.symm
  · intro hc
    simp only [adjust_dt, hc, Bool.false_eq_true, if_false] at h
    cases h1 : adjust_dt_loop mpm.domain.solids (.val (10 ^ 22)) with
    | error e => rw [h1] at h; cases h
    | ok d1 =>
      rw [h1] at h
      obtain ⟨m1, hd1, hm1, hall1, hex1⟩ := adjust_dt_loop_ok _ _ _ h1
      subst hd1
      simp only [] at h
      cases h2 : allreduce_min (.val m1) others with
      | error e => rw [h2] at h; cases h
      | ok d2 =>
        rw [h2] at h
        obtain ⟨m, hd2, hm, hall2, hex2⟩ := allreduce_min_ok _ _ _ h2
        subst hd2
        simp only [Except.ok.injEq] at h
        subst h
        have hall : ∀ r ∈ mpm.domain.solids :: others, ∀ s ∈ r,
            ∃ q : ℚ, s.dtCFL = .val q ∧ m ≤ q := by
          intro r hr s hs
          rcases List.mem_cons.mp hr with rfl | hin
          · obtain ⟨q, hq, hle⟩ := hall1 s hs
            exact ⟨q, hq, le_trans hm hle⟩
          · exact hall2 r hin s hs
        refine ⟨m, rfl, le_trans hm hm1, hall, ?_, ?_⟩
        · rcases hex2 with hma | h22 | ⟨r, hr, s, hs, hv⟩
          · rcases hex1 with h0 | ⟨s, hs, hv⟩
            · left; rw [hma, h0]
            · right
              exact ⟨_, List.mem_cons_self _ _, s, hs, by rw [hv, hma]⟩
          · left; exact h22
          · right; exact ⟨r, List.mem_cons_of_mem _ hr, s, hs, hv⟩
        · intro f hf hf0 r hr s hs
          obtain ⟨q, hq, hle⟩ := hall r hr s hs
          simp only [hf, hq, Dbl.mul, Dbl.le, decide_eq_true_eq]
          rw [mul_comm f q]
          exact mul_le_mul_of_nonneg_right hle hf0

/-- Witness of `adjust_dt_dt`: two solids with `dtCFL` 4 and 2 on this rank and one
with `dtCFL` 3 on another rank; the call returns `dt = 0.9 · 2`. -/
theorem adjust_dt_dt_witness :
    adjust_dt { domain := { solids := [{ dtCFL := .val 4 }, { dtCFL := .val 2 }] } }
        [[{ dtCFL := .val 3 }]]
      = .ok { update := { dt := .val (9 / 5) },
              domain := { solids := [{ dtCFL := .val 4 }, { dtCFL := .val 2 }] },
              vars := [("dt", .val (9 / 5))] } ∧
    ∃ m : ℚ, Dbl.val (9 / 5) = Dbl.mul (.val m) (.val (9 / 10)) ∧ m ≤ 10 ^ 22 := by
  have hrun : adjust_dt
      { domain := { solids := [{ dtCFL := .val 4 }, { dtCFL := .val 2 }] } }
        [[{ dtCFL := .val 3 }]]
      = .ok { update := { dt := .val (9 / 5) },
              domain := { solids := [{ dtCFL := .val 4 }, { dtCFL := .val 2 }] },
              vars := [("dt", .val (9 / 5))] } := by
    simp only [adjust_dt, adjust_dt_loop, allreduce_min, MIN_val_val, Dbl.isnan]
    norm_num [Dbl.mul, setVar, MIN_val_val]
  obtain ⟨m, h1, h2, _⟩ := (adjust_dt_dt _ _ _ hrun).2 rfl
  exact ⟨hrun, m, h1, h2⟩

/-! ## C5: the fatal error of `adjust_dt` -/

/-- C5 as stated fails in two ways. With `dt_constant` set, a solid whose `dtCFL`
is 0 raises no error: the call returns at once. With `dt_constant` not set and
solids of `dtCFL` -1 and 0, the running minimum is -1 when the second solid is
tested, no error is raised and `dt` is assigned. -/
theorem adjust_dt_error_counterexample :
    adjust_dt { update := { dt_constant := true },
                domain := { solids := [{ dtCFL := .val 0 }] } } []
      = .ok { update := { dt_constant := true },
              domain := { solids := [{ dtCFL := .val 0 }] } } ∧
    adjust_dt { update := { dt_factor := .val 1 },
                domain := { solids := [{ dtCFL := .val (-1) }, { dtCFL := .val 0 }] } } []
      = .ok { update := { dt_factor := .val 1, dt := .val (-1) },
              domain := { solids := [{ dtCFL := .val (-1) }, { dtCFL := .val 0 }] },
              vars := [("dt", .val (-1))] } := by
  constructor
  · simp [adjust_dt]
  · simp only [adjust_dt, adjust_dt_loop, allreduce_min, MIN_val_val, Dbl.isnan]
    norm_num [Dbl.mul, setVar]

/-- C5, amended: with `dt_constant` set the call returns the state unchanged and
raises nothing. With `dt_constant` not set, a solid of this rank whose `dtCFL` is 0
and before which no solid has a negative `dtCFL` makes the call end in the
rank-local error, leaving the state (and `dt`) as it was. The call ends in an error
only if some solid has a `dtCFL` that is 0 or NaN, and the error is the rank-local
one. -/
theorem adjust_dt_error (mpm : MPM) (others : List (List Solid)) :
    (mpm.update.dt_constant = true → adjust_dt mpm others = .ok mpm) ∧
    (mpm.update.dt_constant = false →
      ∀ (pre : List Solid) (s : Solid) (post : List Solid),
        mpm.domain.solids = pre ++ s :: post → s.dtCFL = .val 0 →
        (∀ p ∈ pre, ∀ q : ℚ, p.dtCFL = .val q → 0 ≤ q) →
        adjust_dt mpm others = .error (.one "") ∧ adjust_dt_state mpm others = mpm) ∧
    (∀ e : Err, adjust_dt mpm others = .error e →
      e = .one "" ∧
      ∃ r ∈ mpm.domain.solids :: others, ∃ s ∈ r, s.dtCFL = .val 0 ∨ s.dtCFL = .nan) := by
  refine ⟨?_, ?_, ?_⟩
  · intro hc
    simp [adjust_dt, hc]
  · intro hc pre s post hsol hs hpre
    have hloop := adjust_dt_loop_zero pre s post hs hpre (10 ^ 22) (by norm_num)
    have hrun : adjust_dt mpm others = .error (.one "") := by
      simp only [adjust_dt, hc, Bool.false_eq_true, if_false, hsol, hloop]
    exact ⟨hrun, by simp only [adjust_dt_state, hrun]⟩
  · intro e h
    by_cases hc : mpm.update.dt_constant = true
    · simp [adjust_dt, hc] at h
    · have hc' : mpm.update.dt_constant = false := by simpa using hc
      simp only [adjust_dt, hc', Bool.false_eq_true, if_false] at h
      cases h1 : adjust_dt_loop mpm.domain.solids (.val (10 ^ 22)) with
      | error e1 =>
        rw [h1] at h
        simp only [Except.error.injEq] at h
        subst h
        obtain ⟨he, s, hs, hv⟩ := adjust_dt_loop_error _ _ _ (by norm_num) h1
        exact ⟨he, _, List.mem_cons_self _ _, s, hs, hv⟩
      | ok d1 =>
        rw [h1] at h
        simp only [] at h
        cases h2 : allreduce_min d1 others with
        | error e2 =>
          rw [h2] at h
          simp only [Except.error.injEq] at h
          subst h
          obtain ⟨he, r, hr, s, hs, hv⟩ := allreduce_min_error _ _ _ h2
          exact ⟨he, r, List.mem_cons_of_mem _ hr, s, hs, hv⟩
        | ok d2 => rw [h2] at h; cases h

/-- Witness of `adjust_dt_error`: solids with `dtCFL` 5, 0 and 7; the second one
stops the call. -/
theorem adjust_dt_error_witness :
    adjust_dt { domain := { solids := [{ dtCFL := .val 5 }, { dtCFL := .val 0 },
        { dtCFL := .val 7 }] } } [] = .error (.one "") :=
  ((adjust_dt_error
      { domain := { solids := [{ dtCFL := .val 5 }, { dtCFL := .val 0 },
        { dtCFL := .val 7 }] } } []).2.1 rfl
      [{ dtCFL := .val 5 }] { dtCFL := .val 0 } [{ dtCFL := .val 7 }] rfl rfl
      (by
        intro p hp q hq
        simp only [List.mem_singleton] at hp
        subst hp
        simp only [Dbl.val.injEq] at hq
        subst hq
        norm_num)).1

/-! ## C9: calling `adjust_dt` twice -/

/-- C9: a second call of `adjust_dt`, made in the state the first call left, ends
exactly as the first one did: it returns the same state (so the same `dt`) when
the first returned, and it raises the same error when the first raised one. -/
theorem adjust_dt_twice (mpm : MPM) (others : List (List Solid)) :
    adjust_dt (adjust_dt_state mpm others) others = adjust_dt mpm others := by
  cases h : adjust_dt mpm others with
  | error e => simp only [adjust_dt_state, h]
  | ok m1 =>
    simp only [adjust_dt_state, h]
    by_cases hc : mpm.update.dt_constant = true
    · simp only [adjust_dt, hc, if_true, Except.ok.injEq] at h
      subst h
      simp [adjust_dt, hc]
    · have hc' : mpm.update.dt_constant = false := by simpa using hc
      simp only [adjust_dt, hc', Bool.false_eq_true, if_false] at h
      cases h1 : adjust_dt_loop mpm.domain.solids (.val (10 ^ 22)) with
      | error e1 => rw [h1] at h; cases h
      | ok d1 =>
        rw [h1] at h
        simp only [] at h
        cases h2 : allreduce_min d1 others with
        | error e2 => rw [h2] at h; cases h
        | ok d2 =>
          rw [h2] at h
          simp only [Except.ok.injEq] at h
          subst h
          simp only [adjust_dt, hc', Bool.false_eq_true, if_false, h1, h2, setVar_setVar]

/-! ## C7: the arguments read by `create_method` and `setup` -/

/-- C7, at the failing input: a FLIP method given a shape function but no blending
coefficient (three arguments) passes every test on the argument count, and
`ULMPM::setup` then reads `args[3]`, one past the end of the list. No error is
reported. -/
theorem create_method_flip_three_args (key : String) (parsev : String → Dbl)
    (u : Update) :
    Update.create_method [(key, .ULMPM)] parsev u [key, "FLIP", "linear"]
      = .error (.oob 3) := by
  simp [Update.create_method, argAt, ULMPM.setup, ULMPM.setup_method, ULMPM.setup_shape,
    List.lookup]

theorem argAt_ok (args : List String) (n : Nat) (a : String)
    (h : argAt args n = .ok a) : args[n]? = some a := by
  unfold argAt at h
  split at h
  · rename_i b hb
    simp only [Except.ok.injEq] at h
    rw [hb, h]
  · cases h

theorem argAt_error (args : List String) (n : Nat) (e : Err)
    (h : argAt args n = .error e) : e = .oob n ∧ args.length ≤ n := by
  unfold argAt at h
  split at h
  · cases h
  · rename_i hb
    simp only [Except.error.injEq] at h
    exact ⟨h.symm, List.getElem?_eq_none_iff.mp hb⟩

/-- What a successful first part of `setup` has done. -/
theorem setup_method_ok (m : ULMPM) (args : List String) (m1 : ULMPM) (isFLIP : Bool)
    (h : ULMPM.setup_method m args = .ok (m1, isFLIP)) :
    (isFLIP = false ∧ (args[1]? = some "PIC" ∨ args[1]? = some "APIC") ∧
        m1.FLIP = .val 0) ∨
    (isFLIP = true ∧ args[1]? = some "FLIP" ∧ m1.FLIP = m.FLIP) := by
  unfold ULMPM.setup_method at h
  split at h
  · cases h
  · rename_i a ha
    have ha' := argAt_ok _ _ _ ha
    split at h
    · rename_i h1
      simp only [Except.ok.injEq, Prod.mk.injEq] at h
      left
      exact ⟨h.2.symm, Or.inl (by rw [ha', h1]), by rw [← h.1]⟩
    · split at h
      · rename_i h1
        split at h
        · cases h
        · simp only [Except.ok.injEq, Prod.mk.injEq] at h
          right
          exact ⟨h.2.symm, by rw [ha', h1], by rw [← h.1]⟩
      · split at h
        · rename_i h1
          simp only [Except.ok.injEq, Prod.mk.injEq] at h
          left
          exact ⟨h.2.symm, Or.inr (by rw [ha', h1]), by rw [← h.1]⟩
        · cases h

/-- The first part of `setup` reads past the end only when there is no
`args[1]`. -/
theorem setup_method_oob (m : ULMPM) (args : List String) (n : Nat)
    (h : ULMPM.setup_method m args = .error (.oob n)) : args.length ≤ 1 := by
  unfold ULMPM.setup_method at h
  split at h
  · rename_i e he
    exact (argAt_error _ _ _ he).2
  · split at h
    · cases h
    · split at h
      · split at h <;> cases h
      · split at h <;> cases h

/-- What a successful second part of `setup` has done. -/
theorem setup_shape_ok (m1 : ULMPM) (args : List String) (n : Nat) (isFLIP : Bool)
    (m2 : ULMPM) (n' : Nat) (h : ULMPM.setup_shape m1 args n isFLIP = .ok (m2, n')) :
    m2.FLIP = m1.FLIP ∧
    ((args.length > 1 + isFLIP.toNat ∧ n' = n + 1) ∨
     (¬ args.length > 1 + isFLIP.toNat ∧ n' = n)) := by
  unfold ULMPM.setup_shape at h
  split at h
  · rename_i hlen
    split at h
    · cases h
    · split at h
      · simp only [Except.ok.injEq, Prod.mk.injEq] at h
        exact ⟨by rw [← h.1], Or.inl ⟨hlen, h.2.symm⟩⟩
      · split at h
        · simp only [Except.ok.injEq, Prod.mk.injEq] at h
          exact ⟨by rw [← h.1], Or.inl ⟨hlen, h.2.symm⟩⟩
        · split at h
          · simp only [Except.ok.injEq, Prod.mk.injEq] at h
            exact ⟨by rw [← h.1], Or.inl ⟨hlen, h.2.symm⟩⟩
          · split at h
            · simp only [Except.ok.injEq, Prod.mk.injEq] at h
              exact ⟨by rw [← h.1], Or.inl ⟨hlen, h.2.symm⟩⟩
            · cases h
  · rename_i hlen
    simp only [Except.ok.injEq, Prod.mk.injEq] at h
    exact ⟨by rw [← h.1], Or.inr ⟨hlen, h.2.symm⟩⟩

/-- The second part of `setup` reads past the end only when there is no
`args[n]`. -/
theorem setup_shape_oob (m1 : ULMPM) (args : List String) (n : Nat) (isFLIP : Bool)
    (k : Nat) (h : ULMPM.setup_shape m1 args n isFLIP = .error (.oob k)) :
    args.length ≤ n := by
  unfold ULMPM.setup_shape at h
  split at h
  · split at h
    · rename_i e he
      exact (argAt_error _ _ _ he).2
    · split at h
      · cases h
      · split at h
        · cases h
        · split at h
          · cases h
          · split at h <;> cases h
  · cases h

/-- With at least three arguments, the only read past the end that `setup` can
make is the one of `args[3]` by a FLIP method given exactly three arguments. -/
theorem setup_oob (parsev : String → Dbl) (m : ULMPM) (args : List String) (n : Nat)
    (hlen : 3 ≤ args.length)
    (h : ULMPM.setup parsev m args = .error (.oob n)) :
    n = 3 ∧ args.length = 3 ∧ args[1]? = some "FLIP" := by
  unfold ULMPM.setup at h
  split at h
  · rename_i e he
    simp only [Except.error.injEq] at h
    subst h
    have := setup_method_oob _ _ _ he
    omega
  · rename_i m1 isFLIP hm
    split at h
    · rename_i e he
      simp only [Except.error.injEq] at h
      subst h
      have := setup_shape_oob _ _ _ _ _ he
      omega
    · rename_i m2 n' hs
      obtain ⟨_, hn⟩ := setup_shape_ok _ _ _ _ _ _ hs
      split at h
      · cases h
      · rename_i hnot
        split at h
        · rename_i hF
          split at h
          · rename_i e he
            simp only [Except.error.injEq] at h
            subst h
            obtain ⟨he1, he2⟩ := argAt_error _ _ _ he
            simp only [Err.oob.injEq] at he1
            subst hF
            simp only [Bool.toNat_true] at hn hnot
            rcases setup_method_ok _ _ _ _ hm with ⟨hf, _⟩ | ⟨_, h1, _⟩
            · cases hf
            · refine ⟨?_, ?_, h1⟩ <;> omega
          · cases h
        · cases h

/-- The only read past the end that `create_method` can make is the one of
`args[3]` by a FLIP method given exactly three arguments. -/
theorem create_method_oob (style_method : List (String × MethodClass))
    (parsev : String → Dbl) (u : Update) (args : List String) (n : Nat)
    (h : Update.create_method style_method parsev u args = .error (.oob n)) :
    n = 3 ∧ args.length = 3 ∧ args[1]? = some "FLIP" := by
  unfold Update.create_method at h
  split at h
  · cases h
  · rename_i hlen
    have hlen' : 3 ≤ args.length := by omega
    split at h
    · split at h
      · split at h
        · rename_i e he
          simp only [Except.error.injEq] at h
          subst h
          exact setup_oob _ _ _ _ hlen' he
        · cases h
      · cases h
      · cases h
    · rename_i e he
      have := (argAt_error _ _ _ he).2
      omega
    · rename_i e he _
      have := (argAt_error _ _ _ he).2
      omega

/-! ## C8: the blending coefficient after `setup` -/

/-- C8 as stated fails: `method(ulmpm, FLIP, linear, 2)` is accepted and leaves
`FLIP = 2`, outside `[0,1]`. -/
theorem setup_FLIP_counterexample :
    ∃ m : ULMPM, ULMPM.setup parsev_two {} ["ulmpm", "FLIP", "linear", "2"] = .ok m ∧
      m.FLIP = .val 2 ∧ Dbl.le m.FLIP (.val 1) = false := by
  refine ⟨{ FLIP := .val 2 }, ?_, rfl, ?_⟩
  · simp [ULMPM.setup, ULMPM.setup_method, ULMPM.setup_shape, argAt, parsev_two]
  · simp [Dbl.le]

/-- C8, amended: when `setup` completes without error, `FLIP` is 0 for PIC and
APIC; for FLIP there are exactly four arguments and `FLIP` is the value the parser
gives for the fourth, whatever that value is (no range is checked). -/
theorem setup_FLIP (parsev : String → Dbl) (m : ULMPM) (args : List String)
    (m' : ULMPM) (h : ULMPM.setup parsev m args = .ok m') :
    ((args[1]? = some "PIC" ∨ args[1]? = some "APIC") ∧ m'.FLIP = .val 0) ∨
    (args[1]? = some "FLIP" ∧ args.length = 4 ∧
      ∃ a : String, args[3]? = some a ∧ m'.FLIP = parsev a) := by
  unfold ULMPM.setup at h
  split at h
  · cases h
  · rename_i m1 isFLIP hm
    split at h
    · cases h
    · rename_i m2 n' hs
      obtain ⟨hF2, hn⟩ := setup_shape_ok _ _ _ _ _ _ hs
      split at h
      · cases h
      · rename_i hnot
        rcases setup_method_ok _ _ _ _ hm with ⟨hf, h1, hF1⟩ | ⟨hf, h1, _⟩
        · subst hf
          simp only [Bool.false_eq_true, if_false, Except.ok.injEq] at h
          subst h
          exact Or.inl ⟨h1, by rw [hF2, hF1]⟩
        · subst hf
          simp only [if_true] at h
          split at h
          · cases h
          · rename_i a ha
            simp only [Except.ok.injEq] at h
            subst h
            have ha' := argAt_ok _ _ _ ha
            have hlt : n' < args.length := by
              by_contra hge
              rw [List.getElem?_eq_none_iff.mpr (by omega)] at ha'
              cases ha'
            simp only [Bool.toNat_true] at hn hnot
            have hn3 : n' = 3 := by omega
            subst hn3
            exact Or.inr ⟨h1, by omega, a, ha', rfl⟩

/-- Witness of `setup_FLIP`: `method(ulmpm, FLIP, cubic-spline, 2)`. -/
theorem setup_FLIP_witness :
    ULMPM.setup parsev_two {} ["ulmpm", "FLIP", "cubic-spline", "2"]
      = .ok { shape_function := "cubic-spline", basis_function := .cubic_spline,
              FLIP := .val 2 } ∧
    ((["ulmpm", "FLIP", "cubic-spline", "2"][1]? = some "PIC" ∨
        ["ulmpm", "FLIP", "cubic-spline", "2"][1]? = some "APIC") ∧
        Dbl.val 2 = Dbl.val 0 ∨
      (["ulmpm", "FLIP", "cubic-spline", "2"][1]? = some "FLIP" ∧
        ["ulmpm", "FLIP", "cubic-spline", "2"].length = 4 ∧
        ∃ a : String, ["ulmpm", "FLIP", "cubic-spline", "2"][3]? = some a ∧
          Dbl.val 2 = parsev_two a)) := by
  have hrun : ULMPM.setup parsev_two {} ["ulmpm", "FLIP", "cubic-spline", "2"]
      = .ok { shape_function := "cubic-spline", basis_function := .cubic_spline,
              FLIP := .val 2 } := by
    simp [ULMPM.setup, ULMPM.setup_method, ULMPM.setup_shape, argAt, parsev_two]
  exact ⟨hrun, setup_FLIP _ _ _ _ hrun⟩

/-! ## C10: the time step written in the dump -/

theorem toList_append (s t : String) : (s ++ t).toList = s.toList ++ t.toList :=
  String.data_append s t

theorem lines_append_nl (l rest : List Char) (h : '\n' ∉ l) :
    lines (l ++ '\n' :: rest) = l :: lines rest := by
  induction l with
  | nil => simp [lines]
  | cons c cs ih =>
    have hc : c ≠ '\n' := fun hc => h (by simp [hc])
    have hcs : '\n' ∉ cs := fun hcs => h (List.mem_cons_of_mem _ hcs)
    simp [lines, hc, ih hcs]

/-- C10, on the code: whatever the current time step, the first line of the text
written by `DumpParticleGz::write` is `ITEM: TIMESTEP` and the line that follows it
is the constant `0`; at time step 5 this is not the decimal value `5` of the time
step (which the same call puts in the file name). -/
theorem write_timestep_line (fmt : ℚ → String) (filename : String) (update : Update)
    (boxlo boxhi : Vec3) (solids : List DumpSolid) :
    (lines (DumpParticleGz.write fmt filename update boxlo boxhi solids).2.toList)[0]?
      = some "ITEM: TIMESTEP".toList ∧
    (lines (DumpParticleGz.write fmt filename update boxlo boxhi solids).2.toList)[1]?
      = some ['0'] ∧
    (toString (5 : Int)).toList ≠ ['0'] ∧
    (DumpParticleGz.write fmt "dump.*.txt" { update with ntimestep := 5 }
      boxlo boxhi solids).1 = "dump.5.txt" := by
  have key : lines (DumpParticleGz.write fmt filename update boxlo boxhi solids).2.toList
      = "ITEM: TIMESTEP".toList :: ['0'] :: lines ("ITEM: NUMBER OF ATOMS\n".toList ++
          (DumpParticleGz.body fmt boxlo boxhi solids).toList) := by
    simp only [DumpParticleGz.write, DumpParticleGz.text, toList_append]
    rw [show "ITEM: TIMESTEP\n0\nITEM: NUMBER OF ATOMS\n".toList
      = "ITEM: TIMESTEP".toList ++
          '\n' :: (['0'] ++ '\n' :: "ITEM: NUMBER OF ATOMS\n".toList)
      from by decide]
    rw [List.append_assoc, List.cons_append, lines_append_nl _ _ (by decide)]
    exact congrArg _ (lines_append_nl ['0'] _ (by decide))
  refine ⟨?_, ?_, by decide, ?_⟩
  · rw [key, List.getElem?_cons_zero]
  · rw [key, List.getElem?_cons_succ, List.getElem?_cons_zero]
  · show DumpParticleGz.fdump "dump.*.txt" 5 = "dump.5.txt"
    decide

/-! ## Facts about the local partition -/

theorem set_append_perm {α : Type} (A : List α) : ∀ (i : Nat) (x : α) (h : i < A.length),
    (A.set i x ++ [A[i]]).Perm (A ++ [x]) := by
  induction A with
  | nil => intro i x h; simp at h
  | cons a A' ih =>
    intro i x h
    cases i with
    | zero =>
      simp only [List.set_cons_zero, List.cons_append, List.getElem_cons_zero]
      exact ((List.perm_append_singleton a A').cons x).trans
        ((List.Perm.swap a x A').trans ((List.perm_append_singleton x A').symm.cons a))
    | succ j =>
      simp only [List.set_cons_succ, List.cons_append, List.getElem_cons_succ]
      exact (ih j x (by simpa using h)).cons a

/-- Moving the last of the first `np` entries into slot `ip` and dropping the last
slot removes exactly the entry that was at `ip`. -/
theorem take_swap_last_perm {α : Type} (l : List α) (d : α) (ip np : Nat)
    (hip : ip < np) (hnp : np ≤ l.length) :
    ((l.set ip (l.getD (np - 1) d)).take (np - 1) ++ [l.getD ip d]).Perm (l.take np) := by
  have h1 : np - 1 < l.length := by omega
  have hlast : l.take np = l.take (np - 1) ++ [l.getD (np - 1) d] := by
    have := List.take_concat_get l (np - 1) h1
    rw [List.concat_eq_append, show np - 1 + 1 = np by omega] at this
    rw [← this, List.getD_eq_getElem _ _ h1]
  rw [hlast]
  by_cases hlt : ip < np - 1
  · rw [List.set_take]
    have hA : ip < (l.take (np - 1)).length := by
      rw [List.length_take]; omega
    have hget : l.getD ip d = (l.take (np - 1))[ip] := by
      rw [List.getElem_take, List.getD_eq_getElem _ _ (by omega)]
    rw [hget]
    exact set_append_perm _ ip _ hA
  · have hip' : ip = np - 1 := by omega
    rw [hip', List.set_take, List.set_eq_of_length_le (by rw [List.length_take]; omega)]

/-- The invariant of the partition loop: what a run with enough fuel returns. -/
theorem partition_loop_inv (inside : ℚ → ℚ → ℚ → Bool) :
    ∀ (fuel : Nat) (s : Solid) (ip : Nat) (buf : List ℚ),
      ip ≤ s.np_local → s.np_local ≤ s.particles.length → s.np_local - ip ≤ fuel →
      (∀ k < ip, (s.particles.getD k default).inside inside = true) →
      (partition_loop inside fuel s ip buf).2.1
          = (partition_loop inside fuel s ip buf).1.np_local ∧
      ip ≤ (partition_loop inside fuel s ip buf).1.np_local ∧
      (partition_loop inside fuel s ip buf).1.np_local ≤ s.np_local ∧
      (partition_loop inside fuel s ip buf).1.comm_n = s.comm_n ∧
      (partition_loop inside fuel s ip buf).1.particles.length = s.particles.length ∧
      (∀ k < (partition_loop inside fuel s ip buf).1.np_local,
        ((partition_loop inside fuel s ip buf).1.particles.getD k default).inside inside
          = true) ∧
      ∃ departed : List Particle,
        (partition_loop inside fuel s ip buf).2.2 = buf ++ departed.flatMap Particle.record ∧
        ((partition_loop inside fuel s ip buf).1.particles.take
            (partition_loop inside fuel s ip buf).1.np_local ++ departed).Perm
          (s.particles.take s.np_local) ∧
        (∀ p ∈ departed, p.inside inside = false) := by
  intro fuel
  induction fuel with
  | zero =>
    intro s ip buf hip hnp hfuel hpre
    have heq : ip = s.np_local := by omega
    rw [show partition_loop inside 0 s ip buf = (s, ip, buf) from rfl]
    refine ⟨heq, hip, le_refl _, rfl, rfl, ?_, [], by simp, by simp, by simp⟩
    intro k hk
    exact hpre k (by simp only at hk; omega)
  | succ fuel ih =>
    intro s ip buf hip hnp hfuel hpre
    by_cases hlt : ip < s.np_local
    · by_cases hin : (s.particles.getD ip default).inside inside = true
      · have hstep : partition_loop inside (fuel + 1) s ip buf
            = partition_loop inside fuel s (ip + 1) buf := by
          simp only [partition_loop, hlt, hin, if_true, Bool.not_true, Bool.false_eq_true,
            if_false]
        rw [hstep]
        have hpre' : ∀ k < ip + 1, (s.particles.getD k default).inside inside = true := by
          intro k hk
          rcases Nat.lt_succ_iff_lt_or_eq.mp hk with h | h
          · exact hpre k h
          · rw [h]; exact hin
        obtain ⟨h1, h2, h3, h4, h5, h6, h7⟩ :=
          ih s (ip + 1) buf (by omega) hnp (by omega) hpre'
        exact ⟨h1, by omega, h3, h4, h5, h6, h7⟩
      · have hin' : (s.particles.getD ip default).inside inside = false := by
          simpa using hin
        have hstep : partition_loop inside (fuel + 1) s ip buf
            = partition_loop inside fuel
                { s with
                  particles := s.particles.set ip (s.particles.getD (s.np_local - 1) default),
                  np_local := s.np_local - 1 } ip
                (buf ++ (s.particles.getD ip default).record) := by
          simp only [partition_loop, hlt, hin', if_true, Bool.not_false,
            Solid.pack_particle, Solid.copy_particle]
        rw [hstep]
        have hpre' : ∀ k < ip,
            ((s.particles.set ip (s.particles.getD (s.np_local - 1) default)).getD k
              default).inside inside = true := by
          intro k hk
          rw [List.getD_eq_getElem?_getD, List.getElem?_set_ne (by omega),
            ← List.getD_eq_getElem?_getD]
          exact hpre k hk
        obtain ⟨h1, h2, h3, h4, h5, h6, departed, h7, h8, h9⟩ :=
          ih { s with
                particles := s.particles.set ip (s.particles.getD (s.np_local - 1) default),
                np_local := s.np_local - 1 } ip
            (buf ++ (s.particles.getD ip default).record)
            (by simp only; omega) (by simp only [List.length_set]; omega)
            (by simp only; omega) hpre'
        simp only [List.length_set] at h3 h4 h5 h8
        refine ⟨h1, h2, by omega, h4, h5, h6,
          s.particles.getD ip default :: departed, ?_, ?_, ?_⟩
        · rw [h7]; simp [List.append_assoc]
        · have hsw := take_swap_last_perm s.particles default ip s.np_local hlt hnp
          refine List.Perm.trans ?_ hsw
          refine List.Perm.trans List.perm_middle ?_
          refine List.Perm.trans ?_ (List.perm_append_singleton _ _).symm
          exact h8.cons _
        · intro p hp
          rcases List.mem_cons.mp hp with rfl | hp'
          · exact hin'
          · exact h9 p hp'
    · have heq : ip = s.np_local := by omega
      have hstep : partition_loop inside (fuel + 1) s ip buf = (s, ip, buf) := by
        simp only [partition_loop, hlt, if_false]
      rw [hstep]
      refine ⟨heq, hip, le_refl _, rfl, rfl, ?_, [], by simp, by simp, by simp⟩
      intro k hk
      exact hpre k (by simp only at hk; omega)

/-- One more unit of fuel than the loop needs changes nothing. -/
theorem partition_loop_succ (inside : ℚ → ℚ → ℚ → Bool) :
    ∀ (fuel : Nat) (s : Solid) (ip : Nat) (buf : List ℚ), s.np_local - ip ≤ fuel →
      partition_loop inside (fuel + 1) s ip buf = partition_loop inside fuel s ip buf := by
  intro fuel
  induction fuel with
  | zero =>
    intro s ip buf h
    have hlt : ¬ ip < s.np_local := by omega
    simp only [partition_loop, hlt, if_false]
  | succ fuel ih =>
    intro s ip buf h
    have e1 := partition_loop.eq_2 inside s ip buf (fuel + 1)
    have e2 := partition_loop.eq_2 inside s ip buf fuel
    rw [e1, e2]
    by_cases hlt : ip < s.np_local
    · simp only [hlt, if_true]
      split
      · exact ih _ _ _ (by simp only [Solid.copy_particle]; omega)
      · exact ih _ _ _ (by omega)
    · simp only [hlt, if_false]

/-- Any fuel beyond `np_local - ip` gives the result of the loop. -/
theorem partition_loop_fuel (inside : ℚ → ℚ → ℚ → Bool) (s : Solid) (ip : Nat)
    (buf : List ℚ) (fuel : Nat) (h : s.np_local - ip ≤ fuel) :
    partition_loop inside fuel s ip buf
      = partition_loop inside (s.np_local - ip) s ip buf := by
  induction fuel with
  | zero =>
    have : s.np_local - ip = 0 := by omega
    rw [this]
  | succ fuel ih =>
    by_cases hle : s.np_local - ip ≤ fuel
    · rw [partition_loop_succ inside fuel s ip buf hle, ih hle]
    · have : s.np_local - ip = fuel + 1 := by omega
      rw [this]

theorem flatMap_record_length (c : Nat) (departed : List Particle)
    (h : ∀ p ∈ departed, p.record.length = c) :
    (departed.flatMap Particle.record).length = c * departed.length := by
  induction departed with
  | nil => simp
  | cons p rest ih =>
    rw [List.flatMap_cons, List.length_append, h p (List.mem_cons_self _ _),
      ih (fun q hq => h q (List.mem_cons_of_mem _ hq)), List.length_cons, Nat.mul_succ,
      Nat.add_comm]

/-! ## C3: the local partition loop -/

/-- C3: for a solid whose arrays hold its `np_local` particles, the partition loop
of `exchange_particles` ends with `ip = np_local`; every particle left below
`np_local` is inside the subdomain; the particles kept below `np_local` together
with the particles packed into `buf_send` (which is the concatenation of their
records, and all of which are outside the subdomain) are a permutation of the
particles that were below `np_local` before; when every record has `comm_n`
doubles, `buf_send` holds `comm_n × (old np_local − new np_local)` doubles; and
the loop needs no more than `np_local` turns. -/
theorem partition_loop_spec (inside : ℚ → ℚ → ℚ → Bool) (s : Solid)
    (h : s.np_local ≤ s.particles.length) :
    (partition_loop inside s.np_local s 0 []).2.1
      = (partition_loop inside s.np_local s 0 []).1.np_local ∧
    (partition_loop inside s.np_local s 0 []).1.np_local ≤ s.np_local ∧
    (∀ ip < (partition_loop inside s.np_local s 0 []).1.np_local,
      ((partition_loop inside s.np_local s 0 []).1.particles.getD ip default).inside inside
        = true) ∧
    (∃ departed : List Particle,
      (partition_loop inside s.np_local s 0 []).2.2 = departed.flatMap Particle.record ∧
      ((partition_loop inside s.np_local s 0 []).1.particles.take
          (partition_loop inside s.np_local s 0 []).1.np_local ++ departed).Perm
        (s.particles.take s.np_local) ∧
      (∀ p ∈ departed, p.inside inside = false)) ∧
    ((∀ p ∈ s.particles.take s.np_local, p.record.length = s.comm_n) →
      (partition_loop inside s.np_local s 0 []).2.2.length
        = s.comm_n * (s.np_local - (partition_loop inside s.np_local s 0 []).1.np_local)) ∧
    (∀ fuel : Nat, s.np_local ≤ fuel →
      partition_loop inside fuel s 0 [] = partition_loop inside s.np_local s 0 []) := by
  obtain ⟨h1, _, h3, _, h5, h6, departed, h7, h8, h9⟩ :=
    partition_loop_inv inside s.np_local s 0 [] (Nat.zero_le _) h (by omega)
      (fun k hk => absurd hk (Nat.not_lt_zero k))
  rw [List.nil_append] at h7
  refine ⟨h1, h3, h6, ⟨departed, h7, h8, h9⟩, ?_, ?_⟩
  · intro hrec
    have hlen := h8.length_eq
    rw [List.length_append, List.length_take, List.length_take] at hlen
    have hdep : ∀ p ∈ departed, p.record.length = s.comm_n := by
      intro p hp
      exact hrec p (h8.subset (List.mem_append_right _ hp))
    rw [h7, flatMap_record_length _ _ hdep]
    congr 1
    omega
  · intro fuel hfuel
    have := partition_loop_fuel inside s 0 [] fuel (by omega)
    rw [this]
    rfl

/-- Witness of `partition_loop_spec`: three particles, of which the first and the
last are outside the subdomain `x < 3`. -/
theorem partition_loop_spec_witness :
    (partition_loop (fun x _ _ => decide (x < 3)) 3 solid_three 0 []).2.2
      = [2, 5, 0, 0, 3, 6, 0, 0] ∧
    (partition_loop (fun x _ _ => decide (x < 3)) 3 solid_three 0 []).1.np_local ≤ 3 :=
  ⟨by decide, (partition_loop_spec (fun x _ _ => decide (x < 3)) solid_three (by decide)).2.1⟩

/-! ## Facts about the migration of one solid -/

theorem record_length_pos (p : Particle) : 0 < p.record.length := by
  simp [Particle.record]

/-- The local part of a rank succeeds on a solid whose records have `comm_n`
doubles: the buffer is the concatenation of the records of the departed
particles. -/
theorem exchange_local_ok (inside : ℚ → ℚ → ℚ → Bool) (s : Solid) (c : Nat)
    (hc : 0 < c) (hnp : s.np_local ≤ s.particles.length) (hcn : s.comm_n = c)
    (hrec : ∀ p ∈ s.particles.take s.np_local, p.record.length = c) :
    ∃ (s1 : Solid) (D : List Particle),
      exchange_local inside s = .ok (s1, D.flatMap Particle.record) ∧
      s1.np_local + D.length = s.np_local ∧ s1.comm_n = c ∧
      ∀ p ∈ D, p.inside inside = false ∧ p ∈ s.particles.take s.np_local := by
  obtain ⟨_, _, h3, h4, h5, _, D, h7, h8, h9⟩ :=
    partition_loop_inv inside s.np_local s 0 [] (Nat.zero_le _) hnp (by omega)
      (fun k hk => absurd hk (Nat.not_lt_zero k))
  rw [List.nil_append] at h7
  have hlen := h8.length_eq
  rw [List.length_append, List.length_take, List.length_take] at hlen
  have hsub : ∀ p ∈ D, p ∈ s.particles.take s.np_local :=
    fun p hp => h8.subset (List.mem_append_right _ hp)
  have hDlen : D.length = s.np_local - (partition_loop inside s.np_local s 0 []).1.np_local := by
    omega
  have hbuf : (partition_loop inside s.np_local s 0 []).2.2.length = c * D.length := by
    rw [h7, flatMap_record_length c D (fun p hp => hrec p (hsub p hp))]
  have hcheck : (s.np_local - (partition_loop inside s.np_local s 0 []).1.np_local
      != (partition_loop inside s.np_local s 0 []).2.2.length
          / (partition_loop inside s.np_local s 0 []).1.comm_n) = false := by
    rw [hbuf, h4, hcn, Nat.mul_div_cancel_left _ hc, ← hDlen]
    simp
  rw [h7] at hcheck
  by_cases hne : ((D.flatMap Particle.record).length != 0) = true
  · refine ⟨(partition_loop inside s.np_local s 0 []).1.grow
        (partition_loop inside s.np_local s 0 []).1.np_local, D, ?_, ?_, ?_, ?_⟩
    · simp only [exchange_local, hcheck, hne, Bool.false_eq_true, if_false, if_true, h7]
    · simp only [Solid.grow]; omega
    · simp only [Solid.grow]; rw [h4, hcn]
    · exact fun p hp => ⟨h9 p hp, hsub p hp⟩
  · refine ⟨(partition_loop inside s.np_local s 0 []).1, D, ?_, ?_, ?_, ?_⟩
    · simp only [exchange_local, hcheck, hne, Bool.false_eq_true, if_false, h7]
    · omega
    · rw [h4, hcn]
    · exact fun p hp => ⟨h9 p hp, hsub p hp⟩

/-- The scan of a buffer made of whole records finds as many offsets as there are
records whose position is inside the subdomain. -/
theorem unpack_scan_length (inside : ℚ → ℚ → ℚ → Bool) (c : Nat) (buf : List ℚ) :
    ∀ (D : List Particle) (pre : List ℚ) (fuel : Nat) (acc : List Nat),
      buf = pre ++ D.flatMap Particle.record → (∀ p ∈ D, p.record.length = c) →
      D.length ≤ fuel →
      (unpack_scan inside c buf fuel pre.length acc).length
        = acc.length + D.countP (fun p => p.inside inside) := by
  intro D
  induction D with
  | nil =>
    intro pre fuel acc hbuf _ _
    have hlt : ¬ pre.length < buf.length := by rw [hbuf]; simp
    cases fuel with
    | zero => simp [unpack_scan]
    | succ f => simp [unpack_scan, hlt]
  | cons p D' ih =>
    intro pre fuel acc hbuf hrec hfuel
    cases fuel with
    | zero => simp at hfuel
    | succ f =>
      have hp : p.record.length = c := hrec p (List.mem_cons_self _ _)
      have hlt : pre.length < buf.length := by
        rw [hbuf, List.length_append, List.flatMap_cons, List.length_append]
        have := record_length_pos p
        omega
      have hx : ∀ k : Nat, buf.getD (pre.length + k) 0 = (p.record ++ D'.flatMap Particle.record).getD k 0 := by
        intro k
        rw [hbuf, List.flatMap_cons, List.getD_append_right _ _ _ _ (by omega)]
        congr 1
        omega
      have h1 : buf.getD (pre.length + 1) 0 = p.x.x := by rw [hx]; simp [Particle.record]
      have h2 : buf.getD (pre.length + 2) 0 = p.x.y := by rw [hx]; simp [Particle.record]
      have h3 : buf.getD (pre.length + 3) 0 = p.x.z := by rw [hx]; simp [Particle.record]
      have hbuf' : buf = (pre ++ p.record) ++ D'.flatMap Particle.record := by
        rw [hbuf, List.flatMap_cons, List.append_assoc]
      have hlen' : pre.length + c = (pre ++ p.record).length := by
        rw [List.length_append, hp]
      have hrec' : ∀ q ∈ D', q.record.length = c :=
        fun q hq => hrec q (List.mem_cons_of_mem _ hq)
      have hfuel' : D'.length ≤ f := by simpa using hfuel
      rw [unpack_scan]
      simp only [hlt, if_true, h1, h2, h3]
      by_cases hin : p.inside inside = true
      · have hin' : inside p.x.x p.x.y p.x.z = true := hin
        simp only [hin', if_true]
        rw [hlen', ih (pre ++ p.record) f (acc ++ [pre.length]) hbuf' hrec' hfuel',
          List.countP_cons, List.length_append]
        simp only [hin, if_true, List.length_singleton]
        omega
      · have hin' : inside p.x.x p.x.y p.x.z = false := by
          simpa [Particle.inside] using hin
        have hinf : p.inside inside = false := hin'
        simp only [hin', Bool.false_eq_true, if_false]
        rw [hlen', ih (pre ++ p.record) f acc hbuf' hrec' hfuel', List.countP_cons]
        simp only [hinf, Bool.false_eq_true, if_false]
        omega

theorem unpack_particle_np (list : List Nat) (buf : List ℚ) : ∀ (s : Solid),
    (s.unpack_particle list buf).np_local = s.np_local + list.length ∧
    (s.unpack_particle list buf).comm_n = s.comm_n := by
  induction list with
  | nil => intro s; simp [Solid.unpack_particle]
  | cons j rest ih =>
    intro s
    have := ih { s with
      particles :=
        s.particles.set s.np_local (Particle.ofRecord ((buf.drop j).take s.comm_n)),
      np_local := s.np_local + 1 }
    simp only [Solid.unpack_particle, List.foldl_cons, List.length_cons] at this ⊢
    constructor
    · rw [this.1]; omega
    · rw [this.2]

/-- Receiving a buffer of whole records adds to `np_local` the number of records
whose position is inside the subdomain. -/
theorem receive_np (inside : ℚ → ℚ → ℚ → Bool) (s : Solid) (D : List Particle)
    (hrec : ∀ p ∈ D, p.record.length = s.comm_n) :
    (receive inside s (D.flatMap Particle.record)).np_local
        = s.np_local + D.countP (fun p => p.inside inside) ∧
    (receive inside s (D.flatMap Particle.record)).comm_n = s.comm_n := by
  by_cases hne : ((D.flatMap Particle.record).length != 0) = true
  · have hscan := unpack_scan_length inside s.comm_n (D.flatMap Particle.record) D []
      (D.flatMap Particle.record).length [] (by simp) hrec (by
        clear hne hrec
        induction D with
        | nil => simp
        | cons p D' ih =>
          rw [List.flatMap_cons, List.length_append, List.length_cons]
          have := record_length_pos p
          omega)
    simp only [List.length_nil, Nat.zero_add] at hscan
    simp only [receive, hne, if_true]
    have hu := unpack_particle_np
      (unpack_scan inside s.comm_n (D.flatMap Particle.record)
        (D.flatMap Particle.record).length 0 []) (D.flatMap Particle.record)
      (s.grow (s.np_local + (unpack_scan inside s.comm_n (D.flatMap Particle.record)
        (D.flatMap Particle.record).length 0 []).length))
    rw [hu.1, hu.2, hscan]
    simp [Solid.grow]
  · have hD : D = [] := by
      cases D with
      | nil => rfl
      | cons p D' =>
        exfalso
        apply hne
        have := record_length_pos p
        simp only [List.flatMap_cons, List.length_append, bne_iff_ne, ne_eq]
        omega
    subst hD
    simp [receive]

/-- The loop over the senders adds to `np_local` the number of received records
whose position is inside the subdomain, over all buffers: the own buffer, which is
skipped, holds none. -/
theorem exchange_buffers_np (inside : ℚ → ℚ → ℚ → Bool) (me c : Nat) :
    ∀ (Ds : List (List Particle)) (sproc : Nat) (s : Solid), s.comm_n = c →
      (∀ D ∈ Ds, ∀ p ∈ D, p.record.length = c) →
      (∀ D, sproc ≤ me → Ds[me - sproc]? = some D → ∀ p ∈ D, p.inside inside = false) →
      (exchange_buffers inside me sproc (Ds.map (fun D => D.flatMap Particle.record)) s).np_local
          = s.np_local + (Ds.map (fun D => D.countP (fun p => p.inside inside))).sum ∧
      (exchange_buffers inside me sproc (Ds.map (fun D => D.flatMap Particle.record)) s).comm_n
          = c := by
  intro Ds
  induction Ds with
  | nil => intro sproc s hc _ _; simp [exchange_buffers, hc]
  | cons D rest ih =>
    intro sproc s hc hrec hdiag
    have hrec' : ∀ D' ∈ rest, ∀ p ∈ D', p.record.length = c :=
      fun D' hD' => hrec D' (List.mem_cons_of_mem _ hD')
    have hdiag' : ∀ D', sproc + 1 ≤ me → rest[me - (sproc + 1)]? = some D' →
        ∀ p ∈ D', p.inside inside = false := by
      intro D' hle hget
      apply hdiag D' (by omega)
      rw [show me - sproc = (me - (sproc + 1)) + 1 by omega, List.getElem?_cons_succ]
      exact hget
    simp only [List.map_cons, exchange_buffers, List.sum_cons]
    by_cases hme : sproc = me
    · simp only [hme, if_true]
      have hzero : D.countP (fun p => p.inside inside) = 0 := by
        rw [List.countP_eq_zero]
        intro p hp
        have := hdiag D (by omega)
          (by rw [hme, Nat.sub_self]; exact List.getElem?_cons_zero) p hp
        simp [this]
      obtain ⟨h1, h2⟩ := ih (me + 1) s hc hrec' (fun D' hle _ => absurd hle (by omega))
      rw [h1, h2, hzero]
      exact ⟨by omega, rfl⟩
    · simp only [hme, if_false]
      obtain ⟨hr1, hr2⟩ := receive_np inside s D (by
        rw [hc]; exact hrec D (List.mem_cons_self _ _))
      obtain ⟨h1, h2⟩ := ih (sproc + 1) (receive inside s (D.flatMap Particle.record))
        (by rw [hr2, hc]) hrec' hdiag'
      rw [h1, h2, hr1]
      exact ⟨by omega, rfl⟩

/-- The receiving parts of all ranks: the new `np_local` of each rank. -/
theorem exchange_all_sum (c : Nat) (Ds : List (List Particle))
    (hDs : ∀ D ∈ Ds, ∀ p ∈ D, p.record.length = c) :
    ∀ (xs : List ((ℚ → ℚ → ℚ → Bool) × Solid × List ℚ)) (me0 : Nat),
      (∀ x ∈ xs, x.2.1.comm_n = c) →
      (∀ (k : Nat) (x : (ℚ → ℚ → ℚ → Bool) × Solid × List ℚ), xs[k]? = some x →
        ∀ D, Ds[me0 + k]? = some D → ∀ p ∈ D, p.inside x.1 = false) →
      (exchange_all (Ds.map (fun D => D.flatMap Particle.record)) me0 xs).length = xs.length ∧
      ((exchange_all (Ds.map (fun D => D.flatMap Particle.record)) me0 xs).map
          (fun s => s.np_local)).sum
        = (xs.map (fun x => x.2.1.np_local)).sum +
          (xs.map (fun x => (Ds.map (fun D => D.countP (fun p => p.inside x.1))).sum)).sum := by
  intro xs
  induction xs with
  | nil => intro me0 _ _; simp [exchange_all]
  | cons x rest ih =>
    intro me0 hc hdiag
    obtain ⟨h1, _⟩ := exchange_buffers_np x.1 me0 c Ds 0 x.2.1
      (hc x (List.mem_cons_self _ _)) hDs (by
        intro D _ hget
        rw [Nat.sub_zero] at hget
        exact hdiag 0 x List.getElem?_cons_zero D (by rw [Nat.add_zero]; exact hget))
    obtain ⟨hl, hs⟩ := ih (me0 + 1) (fun y hy => hc y (List.mem_cons_of_mem _ hy)) (by
      intro k y hy D hget
      exact hdiag (k + 1) y (by rw [List.getElem?_cons_succ]; exact hy) D
        (by rw [show me0 + (k + 1) = me0 + 1 + k by omega]; exact hget))
    simp only [exchange_all, List.length_cons, List.map_cons, List.sum_cons]
    rw [hl, hs, h1]
    exact ⟨rfl, by omega⟩

theorem sum_map_ite_eq_countP {α : Type} (f : α → Bool) (l : List α) :
    (l.map (fun a => if f a = true then 1 else 0)).sum = l.countP f := by
  induction l with
  | nil => rfl
  | cons a rest ih =>
    rw [List.map_cons, List.sum_cons, ih, List.countP_cons]
    omega

/-- Counting, for every rank, the received records that are inside its subdomain
counts every record once, when every record is inside exactly one subdomain. -/
theorem sum_countP_swap (preds : List (ℚ → ℚ → ℚ → Bool)) (Ds : List (List Particle))
    (h : ∀ D ∈ Ds, ∀ p ∈ D, preds.countP (fun r => p.inside r) = 1) :
    (preds.map (fun r => (Ds.map (fun D => D.countP (fun p => p.inside r))).sum)).sum
      = (Ds.map List.length).sum := by
  induction Ds with
  | nil => simp
  | cons D rest ih =>
    have hD : (preds.map (fun r => D.countP (fun p => p.inside r))).sum = D.length := by
      have hD' := h D (List.mem_cons_self _ _)
      clear h ih
      induction D with
      | nil => simp
      | cons p D' ihD =>
        have e : (fun r : ℚ → ℚ → ℚ → Bool => (p :: D').countP (fun q => q.inside r))
            = (fun r => D'.countP (fun q => q.inside r)
                + (if p.inside r = true then 1 else 0)) := by
          funext r
          rw [List.countP_cons]
        rw [e, List.sum_map_add, ihD (fun q hq => hD' q (List.mem_cons_of_mem _ hq)),
          sum_map_ite_eq_countP, hD' p (List.mem_cons_self _ _), List.length_cons]
    simp only [List.map_cons, List.sum_cons]
    rw [List.sum_map_add, hD, ih (fun D' hD' => h D' (List.mem_cons_of_mem _ hD'))]

/-- The local parts of all ranks succeed when the records have `comm_n` doubles;
`Ds` lists, by rank, the particles each rank packed. -/
theorem exchange_locals_ok (c : Nat) (hc : 0 < c) (Q : Particle → Prop) :
    ∀ (ranks : List ((ℚ → ℚ → ℚ → Bool) × Solid)),
      (∀ r ∈ ranks, r.2.np_local ≤ r.2.particles.length ∧ r.2.comm_n = c ∧
        ∀ p ∈ r.2.particles.take r.2.np_local,
          p.record.length = c ∧ (p.inside r.1 = false → Q p)) →
      ∃ (locals : List ((ℚ → ℚ → ℚ → Bool) × Solid × List ℚ)) (Ds : List (List Particle)),
        exchange_locals ranks = .ok locals ∧
        locals.map (fun x => x.2.2) = Ds.map (fun D => D.flatMap Particle.record) ∧
        locals.map (fun x => x.1) = ranks.map (fun r => r.1) ∧
        (∀ x ∈ locals, x.2.1.comm_n = c) ∧
        (locals.map (fun x => x.2.1.np_local)).sum + (Ds.map List.length).sum
          = (ranks.map (fun r => r.2.np_local)).sum ∧
        (∀ D ∈ Ds, ∀ p ∈ D, p.record.length = c ∧ Q p) ∧
        (∀ (k : Nat) (x : (ℚ → ℚ → ℚ → Bool) × Solid × List ℚ), locals[k]? = some x →
          ∀ D, Ds[k]? = some D → ∀ p ∈ D, p.inside x.1 = false) := by
  intro ranks
  induction ranks with
  | nil =>
    intro _
    exact ⟨[], [], rfl, rfl, rfl, by simp, by simp, by simp, by simp⟩
  | cons r rest ih =>
    intro h
    obtain ⟨hnp, hcn, hp⟩ := h r (List.mem_cons_self _ _)
    obtain ⟨s1, D, hl, hsum, hc1, hD⟩ :=
      exchange_local_ok r.1 r.2 c hc hnp hcn (fun p hp' => (hp p hp').1)
    obtain ⟨locals, Ds, h1, h2, h3, h4, h5, h6, h7⟩ :=
      ih (fun r' hr' => h r' (List.mem_cons_of_mem _ hr'))
    refine ⟨(r.1, s1, D.flatMap Particle.record) :: locals, D :: Ds, ?_, ?_, ?_, ?_, ?_,
      ?_, ?_⟩
    · simp only [exchange_locals, hl, h1]
    · simp only [List.map_cons, h2]
    · simp only [List.map_cons, h3]
    · intro x hx
      rcases List.mem_cons.mp hx with rfl | hx'
      · exact hc1
      · exact h4 x hx'
    · simp only [List.map_cons, List.sum_cons]
      omega
    · intro D' hD' p hp'
      rcases List.mem_cons.mp hD' with rfl | hD''
      · exact ⟨(hp p (hD p hp').2).1, (hp p (hD p hp').2).2 (hD p hp').1⟩
      · exact h6 D' hD'' p hp'
    · intro k x hx D' hD' p hp'
      cases k with
      | zero =>
        rw [List.getElem?_cons_zero] at hx hD'
        cases hx
        cases hD'
        exact (hD p hp').1
      | succ k =>
        rw [List.getElem?_cons_succ] at hx hD'
        exact h7 k x hx D' hD' p hp'

/-- The migration of one solid, under `exchangeable`: no error is raised and the
sum of `np_local` over the ranks is kept. -/
theorem exchange_solid_ok (ranks : List ((ℚ → ℚ → ℚ → Bool) × Solid))
    (h : exchangeable ranks) :
    ∃ col : List Solid, exchange_solid ranks = .ok col ∧ col.length = ranks.length ∧
      (col.map (fun s => s.np_local)).sum = (ranks.map (fun r => r.2.np_local)).sum := by
  obtain ⟨c, hc, hw⟩ := h
  obtain ⟨locals, Ds, h1, h2, h3, h4, h5, h6, h7⟩ :=
    exchange_locals_ok c hc (fun p => ranks.countP (fun r' => p.inside r'.1) = 1) ranks hw
  obtain ⟨hl, hs⟩ := exchange_all_sum c Ds (fun D hD p hp => (h6 D hD p hp).1) locals 0 h4
    (fun k x hx D hD => h7 k x hx D (by rw [Nat.zero_add] at hD; exact hD))
  refine ⟨exchange_all (locals.map (fun x => x.2.2)) 0 locals, ?_, ?_, ?_⟩
  · simp only [exchange_solid, h1]
  · rw [h2, hl]
    have := congrArg List.length h3
    simpa using this
  · rw [h2, hs]
    have hswap := sum_countP_swap (ranks.map (fun r => r.1)) Ds (by
      intro D hD p hp
      have := (h6 D hD p hp).2
      rw [List.countP_map]
      exact this)
    rw [← h3, List.map_map] at hswap
    have e : (fun x : (ℚ → ℚ → ℚ → Bool) × Solid × List ℚ =>
          (Ds.map (fun D => D.countP (fun p => p.inside x.1))).sum)
        = ((fun r => (Ds.map (fun D => D.countP (fun p => p.inside r))).sum) ∘ fun x => x.1) := by
      funext x; rfl
    rw [e, hswap]
    exact h5

/-! ## Facts about the loop over the solids -/

/-- Putting a column of solids back at `isolid` leaves the other solids of every
rank, and the subdomain predicates, as they were. -/
theorem rank_view_zipWith_ne (i j : Nat) (hj : j ≠ i) :
    ∀ (world : List Domain) (col : List Solid), world.length = col.length →
      rank_view (List.zipWith (fun d s => { d with solids := d.solids.set i s }) world col) j
        = rank_view world j := by
  intro world
  induction world with
  | nil => intro col _; simp [rank_view]
  | cons d rest ih =>
    intro col hlen
    cases col with
    | nil => simp at hlen
    | cons s col' =>
      have := ih col' (by simpa using hlen)
      simp only [rank_view, List.zipWith_cons_cons, List.map_cons] at this ⊢
      rw [this]
      congr 2
      rw [List.getD_eq_getElem?_getD, List.getElem?_set_ne (Ne.symm hj),
        ← List.getD_eq_getElem?_getD]

/-- Putting a column of solids back at `isolid` makes it the column `isolid`. -/
theorem total_np_local_zipWith (i : Nat) :
    ∀ (world : List Domain) (col : List Solid), world.length = col.length →
      (∀ d ∈ world, i < d.solids.length) →
      total_np_local
          (List.zipWith (fun d s => { d with solids := d.solids.set i s }) world col) i
        = (col.map (fun s => s.np_local)).sum := by
  intro world
  induction world with
  | nil =>
    intro col hlen _
    cases col with
    | nil => simp [total_np_local, rank_view]
    | cons s col' => simp at hlen
  | cons d rest ih =>
    intro col hlen hi
    cases col with
    | nil => simp at hlen
    | cons s col' =>
      have := ih col' (by simpa using hlen) (fun d' hd' => hi d' (List.mem_cons_of_mem _ hd'))
      have hd := hi d (List.mem_cons_self _ _)
      simp only [total_np_local, rank_view, List.zipWith_cons_cons, List.map_cons,
        List.sum_cons, List.map_map] at this ⊢
      rw [this]
      congr 1
      rw [List.getD_eq_getElem?_getD, List.getElem?_set_self (by simpa using hd)]
      rfl

/-- One turn of the loop over the solids, under `exchangeable`. -/
theorem exchange_isolid_ok (world : List Domain) (i : Nat)
    (h : exchangeable (rank_view world i)) :
    ∃ world' : List Domain, exchange_isolid world i = .ok world' ∧
      (∀ j, j ≠ i → rank_view world' j = rank_view world j) ∧
      total_np_local world' i = total_np_local world i := by
  obtain ⟨col, hcol, hlen, hsum⟩ := exchange_solid_ok _ h
  have hlen' : world.length = col.length := by
    rw [hlen]; simp [rank_view]
  have hi : ∀ d ∈ world, i < d.solids.length := by
    obtain ⟨c, hc, hw⟩ := h
    intro d hd
    by_contra hge
    have hmem : (d.inside_subdomain, d.solids.getD i default) ∈ rank_view world i :=
      List.mem_map.mpr ⟨d, hd, rfl⟩
    have hcn := (hw _ hmem).2.1
    rw [List.getD_eq_default _ _ (by omega)] at hcn
    have : (default : Solid).comm_n = 0 := rfl
    simp only at hcn
    omega
  refine ⟨List.zipWith (fun d s => { d with solids := d.solids.set i s }) world col,
    by simp only [exchange_isolid, hcol], ?_, ?_⟩
  · intro j hj
    exact rank_view_zipWith_ne i j hj world col hlen'
  · rw [total_np_local_zipWith i world col hlen' hi, hsum]
    rfl

/-- The loop over the solids, when every solid it visits is `exchangeable` and no
solid is visited twice. -/
theorem exchange_loop_ok : ∀ (is : List Nat) (world : List Domain), is.Nodup →
    (∀ i ∈ is, exchangeable (rank_view world i)) →
    ∃ world' : List Domain, exchange_loop is world = .ok world' ∧
      ∀ j, total_np_local world' j = total_np_local world j := by
  intro is
  induction is with
  | nil => intro world _ _; exact ⟨world, rfl, fun _ => rfl⟩
  | cons i rest ih =>
    intro world hnd h
    obtain ⟨world1, h1, hframe, htot⟩ := exchange_isolid_ok world i (h i (List.mem_cons_self _ _))
    have hnd' := List.nodup_cons.mp hnd
    obtain ⟨world', h2, htot'⟩ := ih world1 hnd'.2 (by
      intro j hj
      have hji : j ≠ i := fun e => hnd'.1 (e ▸ hj)
      rw [hframe j hji]
      exact h j (List.mem_cons_of_mem _ hj))
    refine ⟨world', by simp only [exchange_loop, h1, h2], ?_⟩
    intro j
    rw [htot' j]
    by_cases hji : j = i
    · rw [hji]; exact htot
    · simp only [total_np_local, hframe j hji]

/-! ## C2: conservation of the particle count by the migration -/

/-- C2 as stated fails: with subdomains `x < 3` on rank 0 and `3 ≤ x < 6` on rank 1,
a particle of rank 1 that has moved to `x = 7` is packed by rank 1 and kept by no
rank; the total of `np_local` goes from 2 to 1. -/
theorem exchange_particles_counterexample :
    total_np_local world_lost_particle 0 = 2 ∧
    (exchange_particles world_lost_particle).toOption.map (fun w => total_np_local w 0)
      = some 1 := by
  decide

/-- C2, amended: when every solid is `exchangeable` (the ranks agree on a positive
`comm_n`, the records have `comm_n` doubles, and every particle outside the
subdomain of its rank is inside the subdomain of exactly one rank),
`exchange_particles` raises no error and, for every solid, the sum over the ranks
of `np_local` is the same after it as before. -/
theorem exchange_particles_conserves (world : List Domain)
    (h : ∀ isolid < (world.headD {}).solids.length, exchangeable (rank_view world isolid)) :
    ∃ world' : List Domain, exchange_particles world = .ok world' ∧
      ∀ isolid, total_np_local world' isolid = total_np_local world isolid := by
  exact exchange_loop_ok _ world (List.nodup_range _)
    (fun i hi => h i (List.mem_range.mp hi))

/-- Witness of `exchange_particles_conserves`: rank 0 owns `x < 3` and holds
particles at `x = 5, 1, 6`; rank 1 owns `3 ≤ x` and holds none. Two particles
migrate and the total stays 3. -/
theorem exchange_particles_conserves_witness :
    ∃ world' : List Domain,
      exchange_particles world_two_ranks = .ok world' ∧ total_np_local world' 0 = 3 := by
  obtain ⟨world', h1, h2⟩ := exchange_particles_conserves world_two_ranks
    (by
      intro isolid hlt
      have h0 : isolid = 0 := by
        simp only [world_two_ranks, List.headD_cons, List.length_singleton] at hlt
        omega
      subst h0
      exact ⟨4, by decide, by decide⟩)
  exact ⟨world', h1, by rw [h2 0]; decide⟩

/-! ## C6: the test on the size of the send buffer -/

/-- The error on the size of `buf_send` is raised only for a buffer whose size is
not `comm_n` times the number of departed particles. -/
theorem exchange_local_error (inside : ℚ → ℚ → ℚ → Bool) (s : Solid) (e : Err)
    (hc : 0 < s.comm_n) (hnp : s.np_local ≤ s.particles.length)
    (h : exchange_local inside s = .error e) :
    (partition_loop inside s.np_local s 0 []).2.2.length
      ≠ s.comm_n * (s.np_local - (partition_loop inside s.np_local s 0 []).1.np_local) := by
  obtain ⟨_, _, _, h4, _⟩ :=
    partition_loop_inv inside s.np_local s 0 [] (Nat.zero_le _) hnp (by omega)
      (fun k hk => absurd hk (Nat.not_lt_zero k))
  intro heq
  unfold exchange_local at h
  simp only [] at h
  rw [h4, heq, Nat.mul_div_cancel_left _ hc] at h
  simp only [bne_self_eq_false, Bool.false_eq_true, if_false] at h
  split at h <;> cases h

/-- C6, at the failing input: a solid with `comm_n = 4` whose only particle is
outside the subdomain and has a record of 5 doubles. One particle has left and
`buf_send` holds 5 doubles, which is not `comm_n × 1`; the integer division
`5 / 4 = 1` makes the test pass and no error is raised. -/
theorem exchange_local_partial_record :
    (exchange_local (fun _ _ _ => false) solid_long_record).toOption.map
        (fun r => (r.1.np_local, r.2)) = some (0, [1, 0, 0, 0, 7]) ∧
    [(1 : ℚ), 0, 0, 0, 7].length ≠ solid_long_record.comm_n * (1 - 0) := by
  decide

/-! ## Facts about the neighbour lists -/

theorem getD_set_same {α : Type} (l : List α) (i : Nat) (a d : α) (h : i < l.length) :
    (l.set i a).getD i d = a := by
  rw [List.getD_eq_getElem?_getD, List.getElem?_set_self h]
  rfl

theorem getD_set_other {α : Type} (l : List α) (i j : Nat) (a d : α) (h : i ≠ j) :
    (l.set i a).getD j d = l.getD j d := by
  rw [List.getD_eq_getElem?_getD, List.getElem?_set_ne h, ← List.getD_eq_getElem?_getD]

theorem zip3_append {α β γ : Type} (a : List α) (b : List β) (c : List γ)
    (h1 : a.length = b.length) (h2 : b.length = c.length) (x : α) (y : β) (z : γ) :
    List.zip (a ++ [x]) (List.zip (b ++ [y]) (c ++ [z]))
      = List.zip a (List.zip b c) ++ [(x, y, z)] := by
  rw [List.zip_append h2, List.zip_append (by rw [h1, List.length_zip, h2, Nat.min_self])]
  rfl

theorem vset_natCast {α : Type} (l : List α) (k : Nat) (a : α) :
    vset l (k : Int) a = l.set k a := by
  simp [vset]

theorem vget_natCast {α : Type} [Inhabited α] (l : List α) (k : Nat) :
    vget l (k : Int) = l.getD k default := by
  simp [vget]

theorem vset_length {α : Type} (l : List α) (i : Int) (a : α) :
    (vset l i a).length = l.length := by
  unfold vset
  split <;> simp

theorem vset_getD_other {α : Type} (l : List α) (i : Int) (k : Nat) (a d : α)
    (h : i ≠ (k : Int)) : (vset l i a).getD k d = l.getD k d := by
  unfold vset
  split
  · rename_i h0
    apply getD_set_other
    intro e
    apply h
    rw [← e, Int.toNat_of_nonneg h0]
  · rfl

/-- What `push_entry` does to the entries of the particle it is called for. -/
theorem push_entry_pn_same (s : Solid) (ip : Nat) (inn : Int) (w : ℚ) (g : Vec3)
    (h1 : ip < s.neigh_pn.length) (h2 : ip < s.wf_pn.length) (h3 : ip < s.wfd_pn.length)
    (ha : s.aligned_pn ip) :
    (push_entry s ip inn w g).entries_pn ip = s.entries_pn ip ++ [(inn, w, g)] := by
  simp only [Solid.entries_pn, push_entry, getD_set_same _ _ _ _ h1,
    getD_set_same _ _ _ _ h2, getD_set_same _ _ _ _ h3]
  exact zip3_append _ _ _ ha.1 ha.2 _ _ _

/-- The entries of the other particles are untouched by `push_entry`. -/
theorem push_entry_pn_other (s : Solid) (ip ip' : Nat) (inn : Int) (w : ℚ) (g : Vec3)
    (h : ip ≠ ip') : (push_entry s ip inn w g).entries_pn ip' = s.entries_pn ip' := by
  simp only [Solid.entries_pn, push_entry, getD_set_other _ _ _ _ _ h]

/-- What `push_entry` does to the entries of the node it is called for. -/
theorem push_entry_np_same (s : Solid) (ip k : Nat) (w : ℚ) (g : Vec3)
    (h1 : k < s.neigh_np.length) (h2 : k < s.wf_np.length) (h3 : k < s.wfd_np.length)
    (ha : s.aligned_np k) :
    (push_entry s ip (k : Int) w g).entries_np k
      = s.entries_np k ++ [((ip : Int), w, g)] := by
  simp only [Solid.entries_np, push_entry, vset_natCast, vget_natCast,
    getD_set_same _ _ _ _ h1, getD_set_same _ _ _ _ h2, getD_set_same _ _ _ _ h3]
  exact zip3_append _ _ _ ha.1 ha.2 _ _ _

/-- The entries of the other nodes are untouched by `push_entry`. -/
theorem push_entry_np_other (s : Solid) (ip k : Nat) (inn : Int) (w : ℚ) (g : Vec3)
    (h : inn ≠ (k : Int)) : (push_entry s ip inn w g).entries_np k = s.entries_np k := by
  simp only [Solid.entries_np, push_entry, vset_getD_other _ _ _ _ _ h]

theorem push_entry_allocated (s : Solid) (ip : Nat) (inn : Int) (w : ℚ) (g : Vec3)
    (N P : Nat) (h : s.allocated N P) : (push_entry s ip inn w g).allocated N P := by
  simpa only [Solid.allocated, push_entry, List.length_set, vset_length] using h

theorem push_entry_aligned_pn (s : Solid) (ip ip' : Nat) (inn : Int) (w : ℚ) (g : Vec3)
    (h1 : ip < s.neigh_pn.length) (h2 : ip < s.wf_pn.length) (h3 : ip < s.wfd_pn.length)
    (ha : s.aligned_pn ip') : (push_entry s ip inn w g).aligned_pn ip' := by
  by_cases e : ip = ip'
  · subst e
    simp only [Solid.aligned_pn, push_entry, getD_set_same _ _ _ _ h1,
      getD_set_same _ _ _ _ h2, getD_set_same _ _ _ _ h3, List.length_append,
      List.length_singleton]
    exact ⟨by rw [ha.1], by rw [ha.2]⟩
  · simpa only [Solid.aligned_pn, push_entry, getD_set_other _ _ _ _ _ e] using ha

theorem push_entry_aligned_np (s : Solid) (ip k : Nat) (inn : Int) (w : ℚ) (g : Vec3)
    (h1 : k < s.neigh_np.length) (h2 : k < s.wf_np.length) (h3 : k < s.wfd_np.length)
    (ha : s.aligned_np k) : (push_entry s ip inn w g).aligned_np k := by
  by_cases e : inn = (k : Int)
  · subst e
    simp only [Solid.aligned_np, push_entry, vset_natCast, vget_natCast,
      getD_set_same _ _ _ _ h1, getD_set_same _ _ _ _ h2, getD_set_same _ _ _ _ h3,
      List.length_append, List.length_singleton]
    exact ⟨congrArg (· + 1) ha.1, congrArg (· + 1) ha.2⟩
  · simpa only [Solid.aligned_np, push_entry, vset_getD_other _ _ _ _ _ e] using ha

/-- The invariant is kept when an entry is appended for a particle of `A`. -/
theorem neigh_inv_push (s : Solid) (N P : Nat) (A : Nat → Prop) (ip : Nat) (inn : Int)
    (w : ℚ) (g : Vec3) (h : s.neigh_inv N P A) (hA : A ip) :
    (push_entry s ip inn w g).neigh_inv N P A := by
  obtain ⟨hal, hnp, hpn, hsym, horig⟩ := h
  have hipP : ip < P := (hpn ip hA).1
  obtain ⟨a1, a2, a3, a4, a5, a6⟩ := hal
  have b1 : ip < s.neigh_pn.length := by omega
  have b2 : ip < s.wf_pn.length := by omega
  have b3 : ip < s.wfd_pn.length := by omega
  have hnp_entries : ∀ k < N, (push_entry s ip inn w g).entries_np k
      = s.entries_np k ++ (if inn = (k : Int) then [((ip : Int), w, g)] else []) := by
    intro k hk
    by_cases e : inn = (k : Int)
    · subst e
      rw [push_entry_np_same s ip k w g (by omega) (by omega) (by omega) (hnp k hk)]
      simp
    · rw [push_entry_np_other s ip k inn w g e]
      simp [e]
  have hpn_entries : ∀ ip', (push_entry s ip inn w g).entries_pn ip'
      = s.entries_pn ip' ++ (if ip = ip' then [(inn, w, g)] else []) := by
    intro ip'
    by_cases e : ip = ip'
    · subst e
      rw [push_entry_pn_same s ip inn w g b1 b2 b3 (hpn ip hA).2]
      simp
    · rw [push_entry_pn_other s ip ip' inn w g e]
      simp [e]
  refine ⟨push_entry_allocated s ip inn w g N P ⟨a1, a2, a3, a4, a5, a6⟩, ?_, ?_, ?_, ?_⟩
  · intro k hk
    exact push_entry_aligned_np s ip k inn w g (by omega) (by omega) (by omega) (hnp k hk)
  · intro ip' hA'
    exact ⟨(hpn ip' hA').1, push_entry_aligned_pn s ip ip' inn w g b1 b2 b3 (hpn ip' hA').2⟩
  · intro ip' hA' k hk w' g'
    rw [hpn_entries ip', hnp_entries k hk, List.mem_append, List.mem_append,
      hsym ip' hA' k hk w' g']
    apply or_congr_right
    by_cases e1 : ip = ip'
    · by_cases e2 : inn = (k : Int)
      · subst e1
        simp only [e2, if_true, List.mem_singleton, Prod.mk.injEq, true_and]
      · subst e1
        simp only [e2, if_true, if_false, List.mem_singleton, Prod.mk.injEq,
          List.not_mem_nil, iff_false, not_and]
        intro e3
        exact absurd e3.symm e2
    · by_cases e2 : inn = (k : Int)
      · simp only [e1, e2, if_true, if_false, List.mem_singleton, Prod.mk.injEq,
          List.not_mem_nil, false_iff, not_and]
        intro e3
        exact absurd (Int.ofNat_inj.mp e3).symm e1
      · simp only [e1, e2, if_false, List.not_mem_nil]
  · intro k hk e he
    rw [hnp_entries k hk, List.mem_append] at he
    rcases he with he | he
    · exact horig k hk e he
    · by_cases e2 : inn = (k : Int)
      · simp only [e2, if_true, List.mem_singleton] at he
        exact ⟨ip, hA, by rw [he]⟩
      · simp only [e2, if_false, List.not_mem_nil] at he

/-- The invariant is kept, with one more particle in `A`, when the lists of a
particle outside `A` are cleared. -/
theorem neigh_inv_clear (s : Solid) (N P : Nat) (A : Nat → Prop) (ip : Nat)
    (h : s.neigh_inv N P A) (hA : ¬ A ip) (hip : ip < P) :
    (clear_pn s ip).neigh_inv N P (fun j => A j ∨ j = ip) := by
  obtain ⟨hal, hnp, hpn, hsym, horig⟩ := h
  have hnil : (clear_pn s ip).entries_pn ip = [] := by
    simp only [Solid.entries_pn, clear_pn]
    have : (s.neigh_pn.set ip []).getD ip [] = [] := by
      by_cases hl : ip < s.neigh_pn.length
      · exact getD_set_same _ _ _ _ hl
      · rw [List.getD_eq_default _ _ (by rw [List.length_set]; omega)]
    rw [this]
    rfl
  have hother : ∀ ip', ip' ≠ ip → (clear_pn s ip).entries_pn ip' = s.entries_pn ip' := by
    intro ip' hne
    simp only [Solid.entries_pn, clear_pn, getD_set_other _ _ _ _ _ (Ne.symm hne)]
  have hnp' : ∀ k, (clear_pn s ip).entries_np k = s.entries_np k := fun _ => rfl
  refine ⟨?_, ?_, ?_, ?_, ?_⟩
  · simpa only [Solid.allocated, clear_pn, List.length_set] using hal
  · intro k hk
    exact hnp k hk
  · intro ip' hA'
    rcases hA' with hA' | rfl
    · have hne : ip' ≠ ip := fun e => hA (e ▸ hA')
      refine ⟨(hpn ip' hA').1, ?_⟩
      have := (hpn ip' hA').2
      simpa only [Solid.aligned_pn, clear_pn, getD_set_other _ _ _ _ _ (Ne.symm hne)]
        using this
    · refine ⟨hip, ?_⟩
      obtain ⟨_, _, _, a4, a5, a6⟩ := hal
      simp only [Solid.aligned_pn, clear_pn,
        getD_set_same _ _ _ _ (show ip' < s.neigh_pn.length by omega),
        getD_set_same _ _ _ _ (show ip' < s.wf_pn.length by omega),
        getD_set_same _ _ _ _ (show ip' < s.wfd_pn.length by omega)]
      exact ⟨rfl, rfl⟩
  · intro ip' hA' k hk w g
    rw [hnp' k]
    rcases hA' with hA' | rfl
    · have hne : ip' ≠ ip := fun e => hA (e ▸ hA')
      rw [hother ip' hne]
      exact hsym ip' hA' k hk w g
    · rw [hnil]
      constructor
      · intro hm
        exact absurd hm (List.not_mem_nil _)
      · intro hm
        obtain ⟨j, hj, hje⟩ := horig k hk _ hm
        have : ip' = j := Int.ofNat_inj.mp hje
        exact absurd (this ▸ hj) hA
  · intro k hk e he
    obtain ⟨j, hj, hje⟩ := horig k hk e he
    exact ⟨j, Or.inl hj, hje⟩

/-- The invariant depends on the set `A` only up to equivalence. -/
theorem neigh_inv_congr (s : Solid) (N P : Nat) (A B : Nat → Prop)
    (hAB : ∀ j, A j ↔ B j) (h : s.neigh_inv N P A) : s.neigh_inv N P B := by
  have : A = B := funext fun j => propext (hAB j)
  rw [← this]
  exact h

/-- After the lists of the nodes below `n` are cleared, they are empty; the
allocation, the counts and the lists of the particles are as before. -/
theorem clear_np_range (s : Solid) (N P : Nat) (h : s.allocated N P) :
    ∀ n, n ≤ N →
      ((List.range n).foldl clear_np s).allocated N P ∧
      ((List.range n).foldl clear_np s).np_local = s.np_local ∧
      ((List.range n).foldl clear_np s).grid = s.grid ∧
      ∀ k < n, ((List.range n).foldl clear_np s).neigh_np.getD k [] = [] ∧
        ((List.range n).foldl clear_np s).wf_np.getD k [] = [] ∧
        ((List.range n).foldl clear_np s).wfd_np.getD k [] = [] := by
  intro n
  induction n with
  | zero =>
    intro _
    exact ⟨h, rfl, rfl, fun k hk => absurd hk (Nat.not_lt_zero k)⟩
  | succ n ih =>
    intro hn
    obtain ⟨hal, hnp, hg, hnil⟩ := ih (by omega)
    rw [List.range_succ, List.foldl_append]
    simp only [List.foldl_cons, List.foldl_nil]
    obtain ⟨a1, a2, a3, a4, a5, a6⟩ := hal
    refine ⟨?_, hnp, hg, ?_⟩
    · simpa only [Solid.allocated, clear_np, List.length_set] using
        (⟨a1, a2, a3, a4, a5, a6⟩ : ((List.range n).foldl clear_np s).allocated N P)
    · intro k hk
      by_cases e : n = k
      · subst e
        simp only [clear_np]
        exact ⟨getD_set_same _ _ _ _ (by omega), getD_set_same _ _ _ _ (by omega),
          getD_set_same _ _ _ _ (by omega)⟩
      · simp only [clear_np, getD_set_other _ _ _ _ _ e]
        exact hnil k (by omega)

/-- The invariant holds, for the empty set of particles, once the lists of the
nodes have been cleared. -/
theorem neigh_inv_init (s : Solid) (N P : Nat) (h : s.allocated N P) :
    ((List.range N).foldl clear_np s).neigh_inv N P (fun _ => False) := by
  obtain ⟨hal, _, _, hnil⟩ := clear_np_range s N P h N (le_refl _)
  have hent : ∀ k < N, ((List.range N).foldl clear_np s).entries_np k = [] := by
    intro k hk
    simp only [Solid.entries_np, (hnil k hk).1]
    rfl
  refine ⟨hal, ?_, ?_, ?_, ?_⟩
  · intro k hk
    simp only [Solid.aligned_np, (hnil k hk).1, (hnil k hk).2.1, (hnil k hk).2.2]
    exact ⟨rfl, rfl⟩
  · intro ip hF
    exact absurd hF id
  · intro ip hF
    exact absurd hF id
  · intro k hk e he
    rw [hent k hk] at he
    exact absurd he (List.not_mem_nil _)

/-- One (particle, node) pair either changes nothing or appends one entry (and may
mark the node rigid). -/
theorem add_neighbor_cases (bf : BasisFunction) (m : ULMPM) (dom : Domain) (ip : Nat)
    (st : Solid × KernelLocals) (inn : Int) :
    add_neighbor bf m dom ip st inn = st ∨
    ∃ (rigid : List Bool) (w : ℚ) (g : Vec3) (loc : KernelLocals),
      add_neighbor bf m dom ip st inn
        = (push_entry { st.1 with grid := { st.1.grid with rigid := rigid } } ip inn w g,
           loc) := by
  unfold add_neighbor
  simp only []
  split_ifs <;> first | exact Or.inl rfl | exact Or.inr ⟨_, _, _, _, rfl⟩

/-- One (particle, node) pair keeps the invariant and the counts. -/
theorem add_neighbor_inv (bf : BasisFunction) (m : ULMPM) (dom : Domain) (ip : Nat)
    (st : Solid × KernelLocals) (inn : Int) (N P : Nat) (A : Nat → Prop)
    (h : st.1.neigh_inv N P A) (hA : A ip) :
    (add_neighbor bf m dom ip st inn).1.neigh_inv N P A ∧
    (add_neighbor bf m dom ip st inn).1.np_local = st.1.np_local ∧
    (add_neighbor bf m dom ip st inn).1.grid.nnodes_local = st.1.grid.nnodes_local ∧
    (add_neighbor bf m dom ip st inn).1.grid.nnodes_ghost = st.1.grid.nnodes_ghost := by
  rcases add_neighbor_cases bf m dom ip st inn with e | ⟨rigid, w, g, loc, e⟩
  · rw [e]
    exact ⟨h, rfl, rfl, rfl⟩
  · rw [e]
    refine ⟨neigh_inv_push _ N P A ip inn w g ?_ hA, rfl, rfl, rfl⟩
    exact h

/-- The loop over `n_neigh` keeps the invariant and the counts. -/
theorem add_neighbors_inv (bf : BasisFunction) (m : ULMPM) (dom : Domain) (ip : Nat)
    (N P : Nat) (A : Nat → Prop) (hA : A ip) :
    ∀ (nb : List Int) (st : Solid × KernelLocals), st.1.neigh_inv N P A →
      (nb.foldl (add_neighbor bf m dom ip) st).1.neigh_inv N P A ∧
      (nb.foldl (add_neighbor bf m dom ip) st).1.np_local = st.1.np_local ∧
      (nb.foldl (add_neighbor bf m dom ip) st).1.grid.nnodes_local
        = st.1.grid.nnodes_local ∧
      (nb.foldl (add_neighbor bf m dom ip) st).1.grid.nnodes_ghost
        = st.1.grid.nnodes_ghost := by
  intro nb
  induction nb with
  | nil => intro st h; exact ⟨h, rfl, rfl, rfl⟩
  | cons inn rest ih =>
    intro st h
    obtain ⟨h1, h2, h3, h4⟩ := add_neighbor_inv bf m dom ip st inn N P A h hA
    obtain ⟨k1, k2, k3, k4⟩ := ih (add_neighbor bf m dom ip st inn) h1
    simp only [List.foldl_cons]
    exact ⟨k1, by rw [k2, h2], by rw [k3, h3], by rw [k4, h4]⟩

/-- The loop over the particles: when it returns, the invariant holds for the
particles it went through. -/
theorem particle_loop_inv (bf : BasisFunction) (m : ULMPM) (u : Update) (dom : Domain)
    (N P : Nat) :
    ∀ (ips : List Nat) (st st' : Solid × KernelLocals) (A : Nat → Prop),
      ips.Nodup → (∀ ip ∈ ips, ¬ A ip ∧ ip < P) → st.1.neigh_inv N P A →
      particle_loop bf m u dom ips st = .ok st' →
      st'.1.neigh_inv N P (fun j => A j ∨ j ∈ ips) ∧
      st'.1.np_local = st.1.np_local ∧
      st'.1.grid.nnodes_local = st.1.grid.nnodes_local ∧
      st'.1.grid.nnodes_ghost = st.1.grid.nnodes_ghost := by
  intro ips
  induction ips with
  | nil =>
    intro st st' A _ _ h hrun
    simp only [particle_loop, Except.ok.injEq] at hrun
    subst hrun
    exact ⟨neigh_inv_congr _ N P A _ (fun j => by simp) h, rfl, rfl, rfl⟩
  | cons ip rest ih =>
    intro st st' A hnd hips h hrun
    have hnd' := List.nodup_cons.mp hnd
    obtain ⟨hnA, hipP⟩ := hips ip (List.mem_cons_self _ _)
    simp only [particle_loop] at hrun
    cases hn : n_neigh u dom (clear_pn st.1 ip) ip with
    | error e => rw [hn] at hrun; cases hrun
    | ok nb =>
      rw [hn] at hrun
      simp only at hrun
      have hclear := neigh_inv_clear st.1 N P A ip h hnA hipP
      obtain ⟨k1, k2, k3, k4⟩ := add_neighbors_inv bf m dom ip N P
        (fun j => A j ∨ j = ip) (Or.inr rfl) nb (clear_pn st.1 ip, st.2) hclear
      obtain ⟨r1, r2, r3, r4⟩ := ih _ st' (fun j => A j ∨ j = ip) hnd'.2 (by
        intro j hj
        refine ⟨?_, (hips j (List.mem_cons_of_mem _ hj)).2⟩
        intro hor
        rcases hor with hor | hor
        · exact (hips j (List.mem_cons_of_mem _ hj)).1 hor
        · exact hnd'.1 (hor ▸ hj)) k1 hrun
      refine ⟨neigh_inv_congr _ N P _ _ (fun j => ?_) r1, ?_, ?_, ?_⟩
      · simp only [List.mem_cons]
        tauto
      · rw [r2, k2]; rfl
      · rw [r3, k3]; rfl
      · rw [r4, k4]; rfl

/-- The body of the loop over the solids: when it returns, the counts are those
of the solid it was called on and the entries of the particles and of the nodes
mirror each other. -/
theorem compute_solid_symmetric (bf : BasisFunction) (garbage : KernelLocals) (m : ULMPM)
    (u : Update) (dom : Domain) (s s' : Solid)
    (hal : s.allocated (s.grid.nnodes_local + s.grid.nnodes_ghost) s.np_local)
    (hrun : compute_solid bf garbage m u dom s = .ok s') :
    s'.np_local = s.np_local ∧ s'.grid.nnodes_local = s.grid.nnodes_local ∧
    s'.grid.nnodes_ghost = s.grid.nnodes_ghost ∧
    ∀ ip < s.np_local, ∀ k < s.grid.nnodes_local + s.grid.nnodes_ghost,
      ∀ (w : ℚ) (g : Vec3),
        ((k : Int), w, g) ∈ s'.entries_pn ip ↔ ((ip : Int), w, g) ∈ s'.entries_np k := by
  have hinit := neigh_inv_init s _ _ hal
  obtain ⟨_, c2, c3, _⟩ := clear_np_range s _ _ hal _ (le_refl _)
  have key : ∀ st : Solid × KernelLocals,
      (if s.np_local ≠ 0 ∧ s.grid.nnodes_local + s.grid.nnodes_ghost ≠ 0 then
          particle_loop bf m u dom (List.range s.np_local)
            ((List.range (s.grid.nnodes_local + s.grid.nnodes_ghost)).foldl clear_np s, garbage)
        else .ok ((List.range (s.grid.nnodes_local + s.grid.nnodes_ghost)).foldl clear_np s,
          garbage)) = .ok st →
      st.1.np_local = s.np_local ∧ st.1.grid.nnodes_local = s.grid.nnodes_local ∧
      st.1.grid.nnodes_ghost = s.grid.nnodes_ghost ∧
      ∀ ip < s.np_local, ∀ k < s.grid.nnodes_local + s.grid.nnodes_ghost,
        ∀ (w : ℚ) (g : Vec3),
          ((k : Int), w, g) ∈ st.1.entries_pn ip ↔ ((ip : Int), w, g) ∈ st.1.entries_np k := by
    intro st hst
    by_cases hc : s.np_local ≠ 0 ∧ s.grid.nnodes_local + s.grid.nnodes_ghost ≠ 0
    · rw [if_pos hc] at hst
      obtain ⟨r1, r2, r3, r4⟩ := particle_loop_inv bf m u dom _ _ (List.range s.np_local)
        _ st (fun _ => False) (List.nodup_range _)
        (fun ip hip => ⟨id, List.mem_range.mp hip⟩) hinit hst
      refine ⟨by rw [r2]; exact c2, by rw [r3, c3], by rw [r4, c3], ?_⟩
      intro ip hip k hk w g
      exact r1.2.2.2.1 ip (Or.inr (List.mem_range.mpr hip)) k hk w g
    · rw [if_neg hc] at hst
      simp only [Except.ok.injEq] at hst
      subst hst
      refine ⟨c2, by rw [c3], by rw [c3], ?_⟩
      intro ip hip k hk
      exfalso
      apply hc
      constructor <;> omega
  unfold compute_solid at hrun
  simp only [] at hrun
  split at hrun
  · cases hrun
  · rename_i st hst
    have hk := key st hst
    split at hrun
    · simp only [Except.ok.injEq] at hrun
      subst hrun
      exact hk
    · simp only [Except.ok.injEq] at hrun
      subst hrun
      exact hk

/-- Every solid returned by the loop over the solids comes from a solid of the
list. -/
theorem compute_solids_mem (bf : BasisFunction) (garbage : KernelLocals) (m : ULMPM)
    (u : Update) (dom : Domain) :
    ∀ (solids solids' : List Solid), compute_solids bf garbage m u dom solids = .ok solids' →
      ∀ s' ∈ solids', ∃ s ∈ solids, compute_solid bf garbage m u dom s = .ok s' := by
  intro solids
  induction solids with
  | nil =>
    intro solids' h s' hs'
    simp only [compute_solids, Except.ok.injEq] at h
    subst h
    exact absurd hs' (List.not_mem_nil _)
  | cons s rest ih =>
    intro solids' h s' hs'
    simp only [compute_solids] at h
    cases h1 : compute_solid bf garbage m u dom s with
    | error e => rw [h1] at h; cases h
    | ok t =>
      rw [h1] at h
      simp only [] at h
      cases h2 : compute_solids bf garbage m u dom rest with
      | error e => rw [h2] at h; cases h
      | ok rest' =>
        rw [h2] at h
        simp only [Except.ok.injEq] at h
        subst h
        rcases List.mem_cons.mp hs' with rfl | hmem
        · exact ⟨s, List.mem_cons_self _ _, h1⟩
        · obtain ⟨s0, hs0, hc⟩ := ih rest' h2 s' hmem
          exact ⟨s0, List.mem_cons_of_mem _ hs0, hc⟩

/-- With a supported shape function the list `n_neigh` is built without error. -/
theorem n_neigh_ok (u : Update) (dom : Domain) (s : Solid) (ip : Nat)
    (h : supported_shape u) : ∃ nb, n_neigh u dom s ip = .ok nb := by
  unfold n_neigh
  rcases h with h | h | h | h <;> simp [h]

/-- With a supported shape function the loop over the particles returns. -/
theorem particle_loop_ok (bf : BasisFunction) (m : ULMPM) (u : Update) (dom : Domain)
    (h : supported_shape u) :
    ∀ (ips : List Nat) (st : Solid × KernelLocals),
      ∃ st', particle_loop bf m u dom ips st = .ok st' := by
  intro ips
  induction ips with
  | nil => intro st; exact ⟨st, rfl⟩
  | cons ip rest ih =>
    intro st
    obtain ⟨nb, hnb⟩ := n_neigh_ok u dom (clear_pn st.1 ip) ip h
    obtain ⟨st', hst'⟩ := ih (nb.foldl (add_neighbor bf m dom ip) (clear_pn st.1 ip, st.2))
    exact ⟨st', by simp only [particle_loop, hnb, hst']⟩

/-- With a supported shape function the body of the loop over the solids
returns. -/
theorem compute_solid_ok (bf : BasisFunction) (garbage : KernelLocals) (m : ULMPM)
    (u : Update) (dom : Domain) (s : Solid) (h : supported_shape u) :
    ∃ s', compute_solid bf garbage m u dom s = .ok s' := by
  unfold compute_solid
  simp only []
  by_cases hc : s.np_local ≠ 0 ∧ s.grid.nnodes_local + s.grid.nnodes_ghost ≠ 0
  · obtain ⟨st', hst'⟩ := particle_loop_ok bf m u dom h (List.range s.np_local)
      ((List.range (s.grid.nnodes_local + s.grid.nnodes_ghost)).foldl clear_np s, garbage)
    rw [if_pos hc, hst']
    simp only []
    split <;> exact ⟨_, rfl⟩
  · rw [if_neg hc]
    simp only []
    split <;> exact ⟨_, rfl⟩

/-- With a supported shape function the loop over the solids returns. -/
theorem compute_solids_ok (bf : BasisFunction) (garbage : KernelLocals) (m : ULMPM)
    (u : Update) (dom : Domain) (h : supported_shape u) :
    ∀ solids : List Solid, ∃ solids', compute_solids bf garbage m u dom solids = .ok solids' := by
  intro solids
  induction solids with
  | nil => exact ⟨[], rfl⟩
  | cons s rest ih =>
    obtain ⟨s', hs'⟩ := compute_solid_ok bf garbage m u dom s h
    obtain ⟨rest', hrest'⟩ := ih
    exact ⟨s' :: rest', by simp only [compute_solids, hs', hrest']⟩

/-- With a supported shape function
`compute_grid_weight_functions_and_gradients` returns. -/
theorem compute_grid_weight_functions_and_gradients_ok (bf : BasisFunction)
    (garbage : KernelLocals) (m : ULMPM) (mpm : MPM) (h : supported_shape mpm.update) :
    ∃ mpm', compute_grid_weight_functions_and_gradients bf garbage m mpm = .ok mpm' := by
  unfold compute_grid_weight_functions_and_gradients
  split
  · exact ⟨mpm, rfl⟩
  · obtain ⟨solids', hs⟩ := compute_solids_ok bf garbage m mpm.update mpm.domain h
      mpm.domain.solids
    rw [hs]
    exact ⟨_, rfl⟩

/-! ## C1: the symmetry of the neighbour lists -/

/-- C1: after `compute_grid_weight_functions_and_gradients` has run with `update_wf`
set, on solids whose neighbour vectors are allocated for their nodes and particles
(whatever these vectors hold), for every solid, every particle `ip < np_local`,
every node `inn < nnodes_local + nnodes_ghost`, every weight `w` and gradient `g`:
the entry `(inn, w, g)` occurs at a common position of `neigh_pn[ip]`, `wf_pn[ip]`,
`wfd_pn[ip]` if and only if the entry `(ip, w, g)` occurs at a common position of
`neigh_np[inn]`, `wf_np[inn]`, `wfd_np[inn]`. -/
theorem neighbor_lists_symmetric (bf : BasisFunction) (garbage : KernelLocals)
    (m : ULMPM) (mpm mpm' : MPM) (hwf : m.update_wf = true)
    (hal : ∀ s ∈ mpm.domain.solids,
      s.allocated (s.grid.nnodes_local + s.grid.nnodes_ghost) s.np_local)
    (hrun : compute_grid_weight_functions_and_gradients bf garbage m mpm = .ok mpm') :
    ∀ s' ∈ mpm'.domain.solids, ∀ ip < s'.np_local,
      ∀ inn < s'.grid.nnodes_local + s'.grid.nnodes_ghost, ∀ (w : ℚ) (g : Vec3),
        ((inn : Int), w, g) ∈ s'.entries_pn ip ↔ ((ip : Int), w, g) ∈ s'.entries_np inn := by
  unfold compute_grid_weight_functions_and_gradients at hrun
  simp only [hwf, Bool.not_true, Bool.false_eq_true, if_false] at hrun
  cases hs : compute_solids bf garbage m mpm.update mpm.domain mpm.domain.solids with
  | error e => rw [hs] at hrun; cases hrun
  | ok solids' =>
    rw [hs] at hrun
    simp only [Except.ok.injEq] at hrun
    subst hrun
    intro s' hs' ip hip inn hinn w g
    obtain ⟨s, hmem, hc⟩ := compute_solids_mem bf garbage m mpm.update mpm.domain _ _ hs s' hs'
    obtain ⟨e1, e2, e3, hsym⟩ :=
      compute_solid_symmetric bf garbage m mpm.update mpm.domain s s' (hal s hmem) hc
    exact hsym ip (by omega) inn (by omega) w g

/-- The run `mpm_one_particle`, evaluated: the particle gets the two nodes with
weight 1/2 and gradients -1 and +1, each node gets the particle, and the stale entry
of node 0 is gone. -/
theorem compute_one_particle :
    (compute_grid_weight_functions_and_gradients hat_basis {} {} mpm_one_particle).toOption.map
      (fun m => m.domain.solids.map
        (fun s => (s.entries_pn 0, s.entries_np 0, s.entries_np 1, s.numneigh_pn,
          s.numneigh_np)))
    = some [([(0, 1 / 2, { x := -1 }), (1, 1 / 2, { x := 1 })],
             [(0, 1 / 2, { x := -1 })], [(0, 1 / 2, { x := 1 })], [2], [1, 1])] := by
  have abs_half : |(1 / 2 : ℚ)| = 1 / 2 := abs_of_pos (by norm_num)
  have abs_neg_half : |(-1 / 2 : ℚ)| = 1 / 2 := by rw [neg_div, abs_neg]; exact abs_half
  simp only [compute_grid_weight_functions_and_gradients, compute_solids, compute_solid,
    mpm_one_particle, solid_one_particle, particle_loop, n_neigh, stencil, List.range,
    List.range.loop, List.foldl, clear_np, clear_pn, List.flatMap, List.map, List.flatten]
  norm_num [toInt, add_neighbor, push_entry, vget, vset, hat_basis, Vec3.sub_scaled,
    find_push, Except.toOption, List.flatMap, abs_half, abs_neg_half]
  simp +decide [Solid.entries_pn, Solid.entries_np]

/-- Witness of `neighbor_lists_symmetric`: the 1D run `mpm_one_particle`, whose
node lists hold a stale entry before the call. -/
theorem neighbor_lists_symmetric_witness :
    ∃ mpm' : MPM,
      compute_grid_weight_functions_and_gradients hat_basis {} {} mpm_one_particle
        = .ok mpm' ∧
      ∀ s' ∈ mpm'.domain.solids, ∀ ip < s'.np_local,
        ∀ inn < s'.grid.nnodes_local + s'.grid.nnodes_ghost, ∀ (w : ℚ) (g : Vec3),
          ((inn : Int), w, g) ∈ s'.entries_pn ip ↔
            ((ip : Int), w, g) ∈ s'.entries_np inn := by
  obtain ⟨mpm', h⟩ := compute_grid_weight_functions_and_gradients_ok hat_basis {} {}
    mpm_one_particle (Or.inl rfl)
  refine ⟨mpm', h, neighbor_lists_symmetric hat_basis {} {} mpm_one_particle mpm' rfl ?_ h⟩
  intro s hs
  simp only [mpm_one_particle, List.mem_singleton] at hs
  subst hs
  simp [Solid.allocated, solid_one_particle]

/-! ## C11: the name of the dump file -/

theorem find_append_cons (pre post : List Char) (c : Char) (h : c ∉ pre)
    (hlen : pre.length < npos) : find (pre ++ c :: post) c = pre.length := by
  induction pre with
  | nil => simp [find]
  | cons a rest ih =>
    have ha : a ≠ c := fun e => h (by simp [e])
    have hr : c ∉ rest := fun e => h (by simp [e])
    have hl : rest.length < npos := by simp at hlen; omega
    have hn : rest.length ≠ npos := by omega
    simp [find, ha, ih hr hl, hn]

theorem find_not_mem (s : List Char) (c : Char) (h : c ∉ s) : find s c = npos := by
  induction s with
  | nil => simp [find]
  | cons a rest ih =>
    have ha : a ≠ c := fun e => h (by simp [e])
    have hr : c ∉ rest := fun e => h (by simp [e])
    simp [find, ha, ih hr]

/-- The file name for a template `pre*post` whose first `*` is the one shown: the
`*` is replaced by the time step. -/
theorem fdump_asterisk (pre post : List Char) (n : Int) (h : '*' ∉ pre)
    (hlen : pre.length + post.length + 1 < 2 ^ 64) :
    DumpParticleGz.fdump (String.mk (pre ++ '*' :: post)) n =
      String.mk (pre ++ (toString n).toList ++ post) := by
  have hp : pre.length < npos := by unfold npos; omega
  unfold DumpParticleGz.fdump
  simp only [String.toList, find_append_cons pre post '*' h hp, Nat.zero_le, if_true,
    substr, List.length_append, List.length_cons, List.drop_zero]
  have h1 : (pre.length + (post.length + 1) + 2 ^ 64 - pre.length - 1) % 2 ^ 64
      = post.length := by omega
  have h2 : (pre.length + 1) % 2 ^ 64 = pre.length + 1 := by omega
  rw [h1, h2]
  have h3 : List.take pre.length (pre ++ '*' :: post) = pre := by simp
  have h4 : List.drop (pre.length + 1) (pre ++ '*' :: post) = post := by
    rw [List.drop_append_eq_append_drop]; simp
  rw [h3, h4]
  split
  · simp
  · have : post = [] := by
      cases post with
      | nil => rfl
      | cons a r => simp at *
    simp [this]

/-- The file name for a template `f` without `*`: `find` returns `npos`, the test
`pos_asterisk >= 0` holds, `substr(0, npos)` is the whole template, and
`substr(npos + 1, size - npos - 1)` is `substr(0, size)`, the whole template again. -/
theorem fdump_no_asterisk (f : List Char) (n : Int) (h : '*' ∉ f)
    (hlen : f.length < 2 ^ 64) :
    DumpParticleGz.fdump (String.mk f) n =
      String.mk (f ++ (toString n).toList ++ f) := by
  unfold DumpParticleGz.fdump
  simp only [String.toList, find_not_mem f '*' h, Nat.zero_le, if_true, substr,
    List.drop_zero]
  have h1 : (f.length + 2 ^ 64 - npos - 1) % 2 ^ 64 = f.length := by
    unfold npos; omega
  have h2 : (npos + 1) % 2 ^ 64 = 0 := by unfold npos; norm_num
  rw [h1, h2]
  have h3 : List.take npos f = f := List.take_of_length_le (by unfold npos; omega)
  rw [h3]
  split
  · simp
  · have : f = [] := by
      cases f with
      | nil => rfl
      | cons a r => simp at *
    simp [this]

/-- C11, on the code: for a template `pre*post` (no `*` in `pre`),
`DumpParticleGz::write` opens the template with its first `*` replaced by the decimal
time step; for a template `f` without `*` it does not open `f` but `f`, followed by
the decimal time step, followed by `f` again (the branch `fdump = filename` is never
taken, the test `pos_asterisk >= 0` being a test on a `size_t`). -/
theorem write_file_name (fmt : ℚ → String) (update : Update) (boxlo boxhi : Vec3)
    (solids : List DumpSolid) (pre post f : List Char) (hpre : '*' ∉ pre)
    (hlen : pre.length + post.length + 1 < 2 ^ 64) (hf : '*' ∉ f)
    (hflen : f.length < 2 ^ 64) :
    (DumpParticleGz.write fmt (String.mk (pre ++ '*' :: post)) update boxlo boxhi solids).1
      = String.mk (pre ++ (toString update.ntimestep).toList ++ post) ∧
    (DumpParticleGz.write fmt (String.mk f) update boxlo boxhi solids).1
      = String.mk (f ++ (toString update.ntimestep).toList ++ f) :=
  ⟨fdump_asterisk pre post update.ntimestep hpre hlen,
   fdump_no_asterisk f update.ntimestep hf hflen⟩

/-- Witness of `write_file_name`: at time step 12 the template `dump.*.gz` gives
`dump.12.gz` and the template `dump.gz` gives `dump.gz12dump.gz`. -/
theorem write_file_name_witness :
    (DumpParticleGz.write (fun _ => "") "dump.*.gz" { ntimestep := 12 } {} {} []).1
      = "dump.12.gz" ∧
    (DumpParticleGz.write (fun _ => "") "dump.gz" { ntimestep := 12 } {} {} []).1
      = "dump.gz12dump.gz" ∧
    "dump.gz12dump.gz" ≠ "dump.gz" :=
  ⟨(write_file_name (fun _ => "") { ntimestep := 12 } {} {} [] "dump.".toList ".gz".toList
      "dump.gz".toList (by decide) (by decide) (by decide) (by decide)).1,
   (write_file_name (fun _ => "") { ntimestep := 12 } {} {} [] "dump.".toList ".gz".toList
      "dump.gz".toList (by decide) (by decide) (by decide) (by decide)).2,
   by decide⟩

/-! ## C18: the clock of `Update` -/

theorem clock_inv_run (d : ℚ) (st : Update × Vars) (c : TimeCall)
    (h : st.1.clock_inv d) : (c.run st).1.clock_inv d := by
  obtain ⟨h1, h2, h3⟩ := h
  cases c with
  | update_time =>
    refine ⟨h1, le_refl _, ?_⟩
    simp only [TimeCall.run, Update.update_time, h1, h3, Dbl.mul, Dbl.add]
    congr 1
    push_cast
    ring
  | update_timestep =>
    refine ⟨h1, ?_, h3⟩
    simp only [TimeCall.run, Update.update_timestep]
    omega

theorem clock_inv_run_calls (d : ℚ) (calls : List TimeCall) (st : Update × Vars)
    (h : st.1.clock_inv d) : (run_calls calls st).1.clock_inv d := by
  induction calls generalizing st with
  | nil => exact h
  | cons c rest ih => exact ih _ (clock_inv_run d st c h)

theorem counters_within_run (n : Int) (st : Update × Vars) (c : TimeCall)
    (h : st.1.counters_within n) : (c.run st).1.counters_within (n + 1) := by
  obtain ⟨h1, h2, h3⟩ := h
  cases c with
  | update_time => exact ⟨h2, h2, by show st.1.ntimestep ≤ n + 1; omega⟩
  | update_timestep =>
    exact ⟨h1, by show 0 ≤ st.1.ntimestep + 1; omega,
      by show st.1.ntimestep + 1 ≤ n + 1; omega⟩

theorem counters_within_run_calls (calls : List TimeCall) :
    ∀ (n : Int) (st : Update × Vars), st.1.counters_within n →
      (run_calls calls st).1.counters_within (n + calls.length) := by
  induction calls with
  | nil => intro n st h; simpa using h
  | cons c rest ih =>
    intro n st h
    have := ih (n + 1) (c.run st) (counters_within_run n st c h)
    simp only [List.length_cons, Nat.cast_add, Nat.cast_one]
    rw [show n + ((rest.length : Int) + 1) = n + 1 + rest.length from by ring]
    exact this

/-- The step counter after `n` calls of `update_timestep`. -/
theorem run_calls_replicate (n : Nat) :
    ∀ st : Update × Vars,
      (run_calls (List.replicate n .update_timestep) st).1.ntimestep
        = st.1.ntimestep + n := by
  induction n with
  | zero => intro st; simp [run_calls]
  | succ n ih =>
    intro st
    have := ih (TimeCall.run st .update_timestep)
    simp only [run_calls, List.replicate_succ, List.foldl_cons] at this ⊢
    rw [this]
    show st.1.ntimestep + 1 + (n : Int) = st.1.ntimestep + ((n + 1 : Nat) : Int)
    push_cast
    ring

theorem toInt32_of_range (n : Int) (h0 : -(2 ^ 31) ≤ n) (h1 : n < 2 ^ 31) :
    toInt32 n = n := by
  unfold toInt32
  omega

/-- C18, amended: in every state reached from a freshly constructed `Update` whose
time step is the exact value `d`, by a sequence of fewer than `2^63 - 1` calls of
`update_time` and `update_timestep`: `dt` is still `d`, `0 ≤ atimestep ≤ ntimestep`,
`ntimestep` is at most the number of calls (below `2^63 - 1`, so that the 64-bit
counter can take one more step) and `atime = atimestep · d`; a further
`update_timestep` increases `ntimestep` by exactly 1, leaves `atime` and `atimestep`
alone and returns the new value converted to `int`, which is the new value itself as
long as it is below `2^31`; and of two further calls of `update_time` in a row the
second leaves `atime` and `atimestep` as the first set them. -/
theorem update_clock (d : ℚ) (vars : Vars) (calls : List TimeCall)
    (hlen : (calls.length : Int) < 2 ^ 63 - 1) :
    let st := run_calls calls ({ dt := .val d }, vars)
    (st.1.dt = .val d ∧ 0 ≤ st.1.atimestep ∧ st.1.atimestep ≤ st.1.ntimestep ∧
      st.1.ntimestep ≤ calls.length ∧ st.1.ntimestep < 2 ^ 63 - 1 ∧
      st.1.atime = .val ((st.1.atimestep : ℚ) * d)) ∧
    ((st.1.update_timestep st.2).1.1.ntimestep = st.1.ntimestep + 1 ∧
      (st.1.update_timestep st.2).2 = toInt32 (st.1.ntimestep + 1) ∧
      (st.1.ntimestep + 1 < 2 ^ 31 →
        (st.1.update_timestep st.2).2 = st.1.ntimestep + 1) ∧
      (st.1.update_timestep st.2).1.1.atime = st.1.atime ∧
      (st.1.update_timestep st.2).1.1.atimestep = st.1.atimestep) ∧
    (let once := st.1.update_time st.2
     let twice := once.1.update_time once.2
     twice.1.atime = once.1.atime ∧ twice.1.atimestep = once.1.atimestep) := by
  intro st
  have hinv : st.1.clock_inv d :=
    clock_inv_run_calls d calls _ ⟨rfl, le_refl _, by simp⟩
  have hcnt : st.1.counters_within (0 + calls.length) :=
    counters_within_run_calls calls 0 _ ⟨le_refl _, le_refl _, le_refl _⟩
  rw [zero_add] at hcnt
  obtain ⟨c1, c2, c3⟩ := hcnt
  refine ⟨⟨hinv.1, c1, hinv.2.1, c3, by omega, hinv.2.2⟩,
    ⟨rfl, rfl, fun hlt => toInt32_of_range _ (by omega) hlt, rfl, rfl⟩, ?_⟩
  have h1 := clock_inv_run d st .update_time hinv
  have h2 := clock_inv_run d (TimeCall.run st .update_time) .update_time h1
  simp only [TimeCall.run] at h1 h2
  refine ⟨?_, rfl⟩
  rw [h2.2.2, h1.2.2]
  rfl

/-- Witness of `update_clock`: the sequence `update_timestep`, `update_time`,
`update_timestep` with the time step 1/2. -/
theorem update_clock_witness :
    let st := run_calls [.update_timestep, .update_time, .update_timestep]
      ({ dt := .val (1 / 2) }, [])
    (st.1.dt = .val (1 / 2) ∧ 0 ≤ st.1.atimestep ∧ st.1.atimestep ≤ st.1.ntimestep ∧
      st.1.ntimestep ≤ ([TimeCall.update_timestep, .update_time, .update_timestep].length) ∧
      st.1.ntimestep < 2 ^ 63 - 1 ∧
      st.1.atime = .val ((st.1.atimestep : ℚ) * (1 / 2))) ∧
    ((st.1.update_timestep st.2).1.1.ntimestep = st.1.ntimestep + 1 ∧
      (st.1.update_timestep st.2).2 = toInt32 (st.1.ntimestep + 1) ∧
      (st.1.ntimestep + 1 < 2 ^ 31 →
        (st.1.update_timestep st.2).2 = st.1.ntimestep + 1) ∧
      (st.1.update_timestep st.2).1.1.atime = st.1.atime ∧
      (st.1.update_timestep st.2).1.1.atimestep = st.1.atimestep) ∧
    (let once := st.1.update_time st.2
     let twice := once.1.update_time once.2
     twice.1.atime = once.1.atime ∧ twice.1.atimestep = once.1.atimestep) :=
  update_clock (1 / 2) [] [.update_timestep, .update_time, .update_timestep] (by decide)

/-- C18 as stated fails once the counter leaves the range of `int`: in the state
reached from a freshly constructed `Update` by 2147483647 calls of `update_timestep`,
`ntimestep` is 2147483647; the next call sets it to 2147483648 and returns
-2147483648. -/
theorem update_clock_counterexample :
    (run_calls (List.replicate 2147483647 .update_timestep) ({}, [])).1.ntimestep
      = 2147483647 ∧
    ((run_calls (List.replicate 2147483647 .update_timestep) ({}, [])).1.update_timestep
        (run_calls (List.replicate 2147483647 .update_timestep) ({}, [])).2).1.1.ntimestep
      = 2147483648 ∧
    ((run_calls (List.replicate 2147483647 .update_timestep) ({}, [])).1.update_timestep
        (run_calls (List.replicate 2147483647 .update_timestep) ({}, [])).2).2
      = -2147483648 := by
  have h := run_calls_replicate 2147483647 ({}, [])
  have h0 : (run_calls (List.replicate 2147483647 .update_timestep) ({}, [])).1.ntimestep
      = 2147483647 := by
    rw [h]
    rfl
  refine ⟨h0, ?_, ?_⟩
  · show (run_calls (List.replicate 2147483647 .update_timestep) ({}, [])).1.ntimestep + 1
      = 2147483648
    rw [h0]
    rfl
  · show toInt32
      ((run_calls (List.replicate 2147483647 .update_timestep) ({}, [])).1.ntimestep + 1)
      = -2147483648
    rw [h0]
    decide

/-! ## C12: the weight and the gradient of an entry -/

theorem active_axes_one : active_axes 1 = [0] := by decide
theorem active_axes_two : active_axes 2 = [0, 1] := by decide
theorem active_axes_three : active_axes 3 = [0, 1, 2] := by decide

/-- The body of the loop in terms of the values and derivatives on the axes. -/
theorem add_neighbor_eq (bf : BasisFunction) (m : ULMPM) (dom : Domain)
    (ip : Nat) (st : Solid × KernelLocals) (inn : Int) :
    add_neighbor bf m dom ip st inn =
      let sv := axis_values bf m st.1 ip inn
      let sdv := axis_derivatives bf m st.1 ip inn
      let s1 := if dom.dimension ≥ 2 then sv.y else 1
      let s2 := if dom.dimension = 3 then sv.z else 1
      if sv.x ≠ 0 ∧ s1 ≠ 0 ∧ s2 ≠ 0 then
        let sd1 := if dom.dimension ≥ 2 then sdv.y else st.2.sd.y
        let sd2 := if dom.dimension = 3 then sdv.z else st.2.sd.z
        let wf1 := if dom.dimension = 1 then sv.x else st.2.wf
        let wf2 := if dom.dimension = 2 then sv.x * s1 else wf1
        let wf := if dom.dimension = 3 then sv.x * s1 * s2 else wf2
        let wfd : Vec3 :=
          if dom.dimension = 1 then { x := sdv.x, y := 0, z := 0 }
          else if dom.dimension = 2 then { x := sdv.x * s1, y := sv.x * sd1, z := 0 }
          else if dom.dimension = 3 then
            { x := sdv.x * s1 * s2, y := sv.x * sd1 * s2, z := sv.x * s1 * sd2 }
          else st.2.wfd
        (push_entry (mark_rigid st.1 inn) ip inn wf wfd,
         { wf := wf, wfd := wfd, sd := { x := sdv.x, y := sd1, z := sd2 } })
      else st := rfl

/-- The loop body in a run of dimension 1, 2 or 3: the call of `push_entry` with the
product weight and gradient when no active `s[d]` is zero, no change otherwise. -/
theorem add_neighbor_push (bf : BasisFunction) (m : ULMPM) (dom : Domain)
    (ip : Nat) (st : Solid × KernelLocals) (inn : Int)
    (hdim : dom.dimension = 1 ∨ dom.dimension = 2 ∨ dom.dimension = 3) :
    ((∀ d ∈ active_axes dom.dimension, (axis_values bf m st.1 ip inn).get d ≠ 0) →
      (add_neighbor bf m dom ip st inn).1
        = push_entry (mark_rigid st.1 inn) ip inn
            (tensor_weight dom.dimension (axis_values bf m st.1 ip inn))
            (tensor_gradient dom.dimension (axis_values bf m st.1 ip inn)
              (axis_derivatives bf m st.1 ip inn))) ∧
    ((∃ d ∈ active_axes dom.dimension, (axis_values bf m st.1 ip inn).get d = 0) →
      add_neighbor bf m dom ip st inn = st) := by
  rw [add_neighbor_eq]
  generalize axis_values bf m st.1 ip inn = sv
  generalize axis_derivatives bf m st.1 ip inn = sdv
  rcases hdim with h | h | h
  · rw [h, active_axes_one]
    constructor
    · intro hs
      have h0 := hs 0 (by simp)
      simp only [Vec3.get] at h0
      simp [h0, tensor_weight, tensor_gradient, tensor_gradient_component,
        active_axes_one, Vec3.get]
    · rintro ⟨d, hd, h0⟩
      simp only [List.mem_singleton] at hd
      subst hd
      simp only [Vec3.get] at h0
      simp [h0]
  · rw [h, active_axes_two]
    constructor
    · intro hs
      have h0 := hs 0 (by simp)
      have h1 := hs 1 (by simp)
      simp only [Vec3.get] at h0 h1
      simp [h0, h1, tensor_weight, tensor_gradient,
        tensor_gradient_component, active_axes_two, Vec3.get]
      refine congrArg₂ (push_entry (mark_rigid st.1 inn) ip inn) rfl ?_
      rw [Vec3.mk.injEq]
      exact ⟨rfl, by ring, rfl⟩
    · rintro ⟨d, hd, h0⟩
      simp only [List.mem_cons, List.mem_singleton, List.not_mem_nil, or_false] at hd
      rcases hd with hd | hd <;> subst hd <;> simp only [Vec3.get] at h0 <;>
        simp [h0]
  · rw [h, active_axes_three]
    constructor
    · intro hs
      have h0 := hs 0 (by simp)
      have h1 := hs 1 (by simp)
      have h2 := hs 2 (by simp)
      simp only [Vec3.get] at h0 h1 h2
      simp [h0, h1, h2, tensor_weight, tensor_gradient,
        tensor_gradient_component, active_axes_three, Vec3.get]
      refine congrArg₂ (push_entry (mark_rigid st.1 inn) ip inn) (by ring) ?_
      rw [Vec3.mk.injEq]
      exact ⟨by ring, by ring, by ring⟩
    · rintro ⟨d, hd, h0⟩
      simp only [List.mem_cons, List.mem_singleton, List.not_mem_nil, or_false] at hd
      rcases hd with hd | hd | hd <;> subst hd <;> simp only [Vec3.get] at h0 <;>
        simp [h0]

/-- C12: in a run of dimension 1, 2 or 3, for every basis function and derivative,
every particle `ip` and every candidate node `inn` of its list. If the shape function
`s[d]` is nonzero on every active axis `d < dimension`, the loop body appends one
entry for `(ip, inn)`: the entries of the particle (the triples at a common position
of `neigh_pn[ip]`, `wf_pn[ip]`, `wfd_pn[ip]`, these being allocated and aligned) gain
`(inn, wf, wfd)` at their end and `numneigh_pn[ip]` grows by 1; the entries of the
node gain `(ip, wf, wfd)` at their end and `numneigh_np[inn]` grows by 1; `wf` is the
product of the `s[d]` over the active axes and `wfd` has, on an active axis `d`, the
component `sd[d]` times the product of the other active `s[e]`, and 0 on an inactive
axis. If `s[d]` is zero on some active axis, the loop body appends nothing and changes
nothing. -/
theorem add_neighbor_tensor_product (bf : BasisFunction) (m : ULMPM) (dom : Domain)
    (ip : Nat) (st : Solid × KernelLocals) (inn : Int)
    (hdim : dom.dimension = 1 ∨ dom.dimension = 2 ∨ dom.dimension = 3) :
    ((∀ d ∈ active_axes dom.dimension, (axis_values bf m st.1 ip inn).get d ≠ 0) →
      (add_neighbor bf m dom ip st inn).1
        = push_entry (mark_rigid st.1 inn) ip inn
            (tensor_weight dom.dimension (axis_values bf m st.1 ip inn))
            (tensor_gradient dom.dimension (axis_values bf m st.1 ip inn)
              (axis_derivatives bf m st.1 ip inn)) ∧
      (ip < st.1.neigh_pn.length → ip < st.1.wf_pn.length → ip < st.1.wfd_pn.length →
        st.1.aligned_pn ip →
        (add_neighbor bf m dom ip st inn).1.entries_pn ip
          = st.1.entries_pn ip ++
            [(inn, tensor_weight dom.dimension (axis_values bf m st.1 ip inn),
              tensor_gradient dom.dimension (axis_values bf m st.1 ip inn)
                (axis_derivatives bf m st.1 ip inn))]) ∧
      (ip < st.1.numneigh_pn.length →
        (add_neighbor bf m dom ip st inn).1.numneigh_pn.getD ip 0
          = st.1.numneigh_pn.getD ip 0 + 1) ∧
      (∀ k : Nat, inn = (k : Int) → k < st.1.neigh_np.length → k < st.1.wf_np.length →
        k < st.1.wfd_np.length → st.1.aligned_np k →
        (add_neighbor bf m dom ip st inn).1.entries_np k
          = st.1.entries_np k ++
            [((ip : Int), tensor_weight dom.dimension (axis_values bf m st.1 ip inn),
              tensor_gradient dom.dimension (axis_values bf m st.1 ip inn)
                (axis_derivatives bf m st.1 ip inn))]) ∧
      (∀ k : Nat, inn = (k : Int) → k < st.1.numneigh_np.length →
        (add_neighbor bf m dom ip st inn).1.numneigh_np.getD k 0
          = st.1.numneigh_np.getD k 0 + 1)) ∧
    ((∃ d ∈ active_axes dom.dimension, (axis_values bf m st.1 ip inn).get d = 0) →
      (add_neighbor bf m dom ip st inn = st ∧
        (add_neighbor bf m dom ip st inn).1.entries_pn ip = st.1.entries_pn ip ∧
        ∀ k : Nat, (add_neighbor bf m dom ip st inn).1.entries_np k = st.1.entries_np k)) := by
  obtain ⟨hpush, hskip⟩ := add_neighbor_push bf m dom ip st inn hdim
  refine ⟨fun hs => ?_, fun hz => ?_⟩
  · have e := hpush hs
    refine ⟨e, ?_, ?_, ?_, ?_⟩
    · intro h1 h2 h3 ha
      rw [e]
      exact push_entry_pn_same (mark_rigid st.1 inn) ip inn _ _ h1 h2 h3 ha
    · intro h1
      rw [e]
      show (st.1.numneigh_pn.set ip (st.1.numneigh_pn.getD ip 0 + 1)).getD ip 0 = _
      rw [getD_set_same _ _ _ _ h1]
    · intro k hk h1 h2 h3 ha
      rw [e, hk]
      exact push_entry_np_same (mark_rigid st.1 (k : Int)) ip k _ _ h1 h2 h3 ha
    · intro k hk h1
      rw [e, hk]
      show (vset st.1.numneigh_np (k : Int) (vget st.1.numneigh_np (k : Int) + 1)).getD k 0
        = _
      rw [vset_natCast, getD_set_same _ _ _ _ h1, vget_natCast]
      rfl
  · have e := hskip hz
    exact ⟨e, by rw [e], fun k => by rw [e]⟩

/-- Witness of `add_neighbor_tensor_product`: the 1D solid `solid_one_particle`, its
particle at `x = 1/2` and the node at `x = 0`, whose list holds a stale entry; the
entry has weight 1/2 and gradient `(-1, 0, 0)`, it is the only entry of the particle
and the second of the node. -/
theorem add_neighbor_tensor_product_witness :
    (add_neighbor hat_basis {} { dimension := 1 } 0 (solid_one_particle, {}) 0).1
      = push_entry (mark_rigid solid_one_particle 0) 0 0
          (tensor_weight 1 (axis_values hat_basis {} solid_one_particle 0 0))
          (tensor_gradient 1 (axis_values hat_basis {} solid_one_particle 0 0)
            (axis_derivatives hat_basis {} solid_one_particle 0 0)) ∧
    tensor_weight 1 (axis_values hat_basis {} solid_one_particle 0 0) = 1 / 2 ∧
    tensor_gradient 1 (axis_values hat_basis {} solid_one_particle 0 0)
      (axis_derivatives hat_basis {} solid_one_particle 0 0) = { x := -1 } ∧
    (add_neighbor hat_basis {} { dimension := 1 } 0 (solid_one_particle, {}) 0).1.entries_pn 0
      = [(0, 1 / 2, { x := -1 })] ∧
    (add_neighbor hat_basis {} { dimension := 1 } 0
      (solid_one_particle, {}) 0).1.numneigh_pn.getD 0 0 = 1 ∧
    (add_neighbor hat_basis {} { dimension := 1 } 0 (solid_one_particle, {}) 0).1.entries_np 0
      = [(7, 1, {}), (0, 1 / 2, { x := -1 })] ∧
    (add_neighbor hat_basis {} { dimension := 1 } 0
      (solid_one_particle, {}) 0).1.numneigh_np.getD 0 0 = 2 := by
  have abs_half : |(1 / 2 : ℚ)| = 1 / 2 := abs_of_pos (by norm_num)
  have hx : (axis_values hat_basis {} solid_one_particle 0 0).x = 1 / 2 := by
    norm_num [axis_values, hat_basis, solid_one_particle, Vec3.sub_scaled, vget, abs_half]
  have hd : (axis_derivatives hat_basis {} solid_one_particle 0 0).x = -1 := by
    norm_num [axis_derivatives, hat_basis, solid_one_particle, Vec3.sub_scaled, vget,
      abs_half]
  have hw : tensor_weight 1 (axis_values hat_basis {} solid_one_particle 0 0) = 1 / 2 := by
    simp [tensor_weight, active_axes_one, Vec3.get, hx]
  have hg : tensor_gradient 1 (axis_values hat_basis {} solid_one_particle 0 0)
      (axis_derivatives hat_basis {} solid_one_particle 0 0) = { x := -1 } := by
    simp [tensor_gradient, tensor_gradient_component, active_axes_one, Vec3.get, hd]
  have hs : ∀ d ∈ active_axes ({ dimension := 1 } : Domain).dimension,
      (axis_values hat_basis {} (solid_one_particle, ({} : KernelLocals)).1 0 0).get d ≠ 0 := by
    intro d hd
    rw [show ({ dimension := 1 } : Domain).dimension = 1 from rfl, active_axes_one,
      List.mem_singleton] at hd
    subst hd
    show (axis_values hat_basis {} solid_one_particle 0 0).x ≠ 0
    rw [hx]
    norm_num
  obtain ⟨e, epn, enum, enp, enumnp⟩ := (add_neighbor_tensor_product hat_basis {}
    { dimension := 1 } 0 (solid_one_particle, {}) 0 (Or.inl rfl)).1 hs
  refine ⟨e, hw, hg, ?_, ?_, ?_, ?_⟩
  · have := epn (by decide) (by decide) (by decide)
      (by simp [Solid.aligned_pn, solid_one_particle])
    rw [this]
    show solid_one_particle.entries_pn 0 ++
      [((0 : Int), tensor_weight 1 (axis_values hat_basis {} solid_one_particle 0 0),
        tensor_gradient 1 (axis_values hat_basis {} solid_one_particle 0 0)
          (axis_derivatives hat_basis {} solid_one_particle 0 0))] = _
    rw [hw, hg]
    rfl
  · rw [enum (by decide)]
    rfl
  · have := enp 0 rfl (by decide) (by decide) (by decide)
      (by simp [Solid.aligned_np, solid_one_particle])
    rw [this]
    show solid_one_particle.entries_np 0 ++
      [((0 : Int), tensor_weight 1 (axis_values hat_basis {} solid_one_particle 0 0),
        tensor_gradient 1 (axis_values hat_basis {} solid_one_particle 0 0)
          (axis_derivatives hat_basis {} solid_one_particle 0 0))] = _
    rw [hw, hg]
    rfl
  · rw [enumnp 0 rfl (by decide)]
    rfl

/-! ## Facts about the stencils -/

theorem flatMap_axis_range (i0 : Int) (w : Nat) (f : Int → List Int) :
    (axis_range i0 w).flatMap f = (List.range w).flatMap fun a => f (i0 + (a : Int)) := by
  unfold axis_range
  induction List.range w with
  | nil => rfl
  | cons a rest ih => simp only [List.map_cons, List.flatMap_cons, ih]

/-- The loops of a stencil resolve the candidates of the three ranges. -/
theorem stencil_candidates (g : Grid) (i0 j0 k0 : Int) (w : Nat) :
    stencil g i0 j0 k0 w
      = resolve_all g (axis_range i0 w) (axis_range j0 w) (axis_range k0 w) := by
  unfold resolve_all stencil
  rw [flatMap_axis_range]
  congr 1
  funext a
  by_cases hy : g.ny_global > 1
  · simp only [hy, if_true]
    rw [flatMap_axis_range]
    congr 1
    funext b
    by_cases hz : g.nz_global > 1
    · simp only [hz, if_true]
      rw [flatMap_axis_range]
      simp only [resolve, hy, hz, if_true]
    · simp only [hz, if_false, resolve, hy, if_true]
  · simp only [hy, if_false, resolve]

theorem axis_range_three (i0 : Int) : axis_range i0 3 = [i0, i0 + 1, i0 + 2] := by
  simp [axis_range, List.range, List.range.loop]

theorem axis_range_four (i0 : Int) : axis_range i0 4 = [i0, i0 + 1, i0 + 2, i0 + 3] := by
  simp [axis_range, List.range, List.range.loop]

theorem toInt_of_nonneg (q : ℚ) (h : 0 ≤ q) : toInt q = ⌊q⌋ := by
  simp [toInt, h]

theorem toInt_of_neg (q : ℚ) (h : q < 0) : toInt q = ⌈q⌉ := by
  simp [toInt, not_le.mpr h]

/-- The conversion `(int) (q - 1)` when `q ≥ 1` or `q` is an integer. -/
theorem toInt_sub_one_floor (q : ℚ) (h : 1 ≤ q ∨ (⌊q⌋ : ℚ) = q) :
    toInt (q - 1) = ⌊q⌋ - 1 := by
  by_cases h1 : 1 ≤ q
  · rw [toInt_of_nonneg _ (by linarith), Int.floor_sub_one]
  · have hq : (⌊q⌋ : ℚ) = q := h.resolve_left h1
    rw [toInt_of_neg _ (by linarith), Int.ceil_sub_one]
    congr 1
    rw [← hq, Int.ceil_intCast, Int.floor_intCast]

/-- The conversion `(int) (q - 1)` when `q < 1` is not an integer. -/
theorem toInt_sub_one_trunc (q : ℚ) (h1 : q < 1) (hq : (⌊q⌋ : ℚ) ≠ q) :
    toInt (q - 1) = ⌊q⌋ := by
  rw [toInt_of_neg _ (by linarith), Int.ceil_sub_one]
  have : ⌈q⌉ = ⌊q⌋ + 1 := by
    rw [Int.ceil_eq_iff]
    push_cast
    refine ⟨?_, (Int.lt_floor_add_one q).le⟩
    have := Int.floor_le q
    rw [add_sub_cancel_right]
    exact lt_of_le_of_ne this hq
  omega

theorem bernstein_anchor_even (t : Int) : bernstein_anchor (2 * t) = 2 * t := by
  unfold bernstein_anchor
  have : (2 * t) % 2 = 0 := by omega
  simp [this]

/-- The list `n_neigh` with the cubic or the quadratic spline. -/
theorem n_neigh_spline (u : Update) (dom : Domain) (s : Solid) (ip : Nat)
    (hshape : u.method_shape_function = "cubic-spline" ∨
      u.method_shape_function = "quadratic-spline") :
    n_neigh u dom s ip = .ok (resolve_all s.grid
      (spline_range (cell_coordinate (s.particles.getD ip default).x.x dom.boxlo.x
        s.grid.cellsize))
      (spline_range (cell_coordinate (s.particles.getD ip default).x.y dom.boxlo.y
        s.grid.cellsize))
      (spline_range (cell_coordinate (s.particles.getD ip default).x.z dom.boxlo.z
        s.grid.cellsize))) := by
  have : n_neigh u dom s ip = .ok (stencil s.grid
      (toInt (cell_coordinate (s.particles.getD ip default).x.x dom.boxlo.x
        s.grid.cellsize - 1))
      (toInt (cell_coordinate (s.particles.getD ip default).x.y dom.boxlo.y
        s.grid.cellsize - 1))
      (toInt (cell_coordinate (s.particles.getD ip default).x.z dom.boxlo.z
        s.grid.cellsize - 1)) 4) := by
    unfold n_neigh cell_coordinate
    rcases hshape with h | h <;> simp only [h] <;> rfl
  rw [this, stencil_candidates]
  rfl

/-- The list `n_neigh` with the Bernstein functions. -/
theorem n_neigh_bernstein (u : Update) (dom : Domain) (s : Solid) (ip : Nat)
    (hshape : u.method_shape_function = "Bernstein-quadratic") :
    n_neigh u dom s ip = .ok (resolve_all s.grid
      (bernstein_range (cell_coordinate (s.particles.getD ip default).x.x dom.boxlo.x
        s.grid.cellsize))
      (bernstein_range (cell_coordinate (s.particles.getD ip default).x.y dom.boxlo.y
        s.grid.cellsize))
      (bernstein_range (cell_coordinate (s.particles.getD ip default).x.z dom.boxlo.z
        s.grid.cellsize))) := by
  have : n_neigh u dom s ip = .ok (stencil s.grid
      (bernstein_anchor (2 * toInt (cell_coordinate (s.particles.getD ip default).x.x
        dom.boxlo.x s.grid.cellsize)))
      (bernstein_anchor (2 * toInt (cell_coordinate (s.particles.getD ip default).x.y
        dom.boxlo.y s.grid.cellsize)))
      (bernstein_anchor (2 * toInt (cell_coordinate (s.particles.getD ip default).x.z
        dom.boxlo.z s.grid.cellsize))) 3) := by
    unfold n_neigh cell_coordinate
    simp only [hshape, bernstein_anchor_even, ite_self]
    rfl
  rw [this, stencil_candidates]
  rfl

/-! ## C13: the candidates of the cubic and quadratic splines -/

/-- C13, amended: with the cubic or the quadratic spline, the list `n_neigh` of a
particle holds the candidates of `spline_range q` on each axis (`q` the coordinate of
the particle in cells), resolved in the order of the loops; `spline_range q` is the
four consecutive integers `⌊q⌋ - 1, ..., ⌊q⌋ + 2` when `q ≥ 1` or `q` is an integer,
and the four consecutive integers `⌊q⌋, ..., ⌊q⌋ + 3` when `q < 1` is not an integer
(the conversion `(int) (q - 1)` truncates toward zero). -/
theorem spline_candidates (u : Update) (dom : Domain) (s : Solid) (ip : Nat)
    (hshape : u.method_shape_function = "cubic-spline" ∨
      u.method_shape_function = "quadratic-spline") :
    n_neigh u dom s ip = .ok (resolve_all s.grid
      (spline_range (cell_coordinate (s.particles.getD ip default).x.x dom.boxlo.x
        s.grid.cellsize))
      (spline_range (cell_coordinate (s.particles.getD ip default).x.y dom.boxlo.y
        s.grid.cellsize))
      (spline_range (cell_coordinate (s.particles.getD ip default).x.z dom.boxlo.z
        s.grid.cellsize))) ∧
    (∀ q : ℚ, (1 ≤ q ∨ (⌊q⌋ : ℚ) = q) →
      spline_range q = [⌊q⌋ - 1, ⌊q⌋, ⌊q⌋ + 1, ⌊q⌋ + 2]) ∧
    (∀ q : ℚ, q < 1 → (⌊q⌋ : ℚ) ≠ q →
      spline_range q = [⌊q⌋, ⌊q⌋ + 1, ⌊q⌋ + 2, ⌊q⌋ + 3]) := by
  refine ⟨n_neigh_spline u dom s ip hshape, ?_, ?_⟩
  · intro q h
    rw [spline_range, toInt_sub_one_floor q h, axis_range_four]
    simp only [List.cons.injEq, and_true, true_and]
    omega
  · intro q h1 hq
    rw [spline_range, toInt_sub_one_trunc q h1 hq, axis_range_four]

/-- Witness of `spline_candidates`: the 1D solid `solid_one_particle` with the
cubic spline. -/
theorem spline_candidates_witness :
    n_neigh { method_shape_function := "cubic-spline" } { dimension := 1 }
      solid_one_particle 0 = .ok (resolve_all solid_one_particle.grid
      (spline_range (cell_coordinate (solid_one_particle.particles.getD 0 default).x.x 0
        solid_one_particle.grid.cellsize))
      (spline_range (cell_coordinate (solid_one_particle.particles.getD 0 default).x.y 0
        solid_one_particle.grid.cellsize))
      (spline_range (cell_coordinate (solid_one_particle.particles.getD 0 default).x.z 0
        solid_one_particle.grid.cellsize))) ∧
    (∀ q : ℚ, (1 ≤ q ∨ (⌊q⌋ : ℚ) = q) →
      spline_range q = [⌊q⌋ - 1, ⌊q⌋, ⌊q⌋ + 1, ⌊q⌋ + 2]) ∧
    (∀ q : ℚ, q < 1 → (⌊q⌋ : ℚ) ≠ q →
      spline_range q = [⌊q⌋, ⌊q⌋ + 1, ⌊q⌋ + 2, ⌊q⌋ + 3]) :=
  spline_candidates { method_shape_function := "cubic-spline" } { dimension := 1 }
    solid_one_particle 0 (Or.inl rfl)

/-- C13 as stated fails for a particle in the first cell: at `q = 1/2` the first
candidate is `(int) (-1/2) = 0`, not `⌊q⌋ - 1 = -1`; on the 1D grid of
`solid_one_particle` (two nodes) the cubic spline gives `n_neigh = [0, 1]`, where the
candidates `-1, 0, 1, 2` would give `[-1, 0, 1]`. -/
theorem spline_candidates_counterexample :
    (solid_one_particle.particles.getD 0 default).x.x = 1 / 2 ∧
    cell_coordinate (1 / 2) 0 solid_one_particle.grid.cellsize = 1 / 2 ∧
    spline_range (1 / 2) = [0, 1, 2, 3] ∧
    ⌊(1 / 2 : ℚ)⌋ - 1 = -1 ∧
    n_neigh { method_shape_function := "cubic-spline" } { dimension := 1 }
      solid_one_particle 0 = .ok [0, 1] ∧
    resolve_all solid_one_particle.grid [-1, 0, 1, 2] [-1, 0, 1, 2] [-1, 0, 1, 2]
      = [-1, 0, 1] := by
  have hf : ⌊(1 / 2 : ℚ)⌋ = 0 := by
    rw [Int.floor_eq_iff]; norm_num
  have hr : spline_range (1 / 2) = [0, 1, 2, 3] := by
    rw [spline_range, toInt_sub_one_trunc _ (by norm_num) (by rw [hf]; norm_num), hf,
      axis_range_four]
    rfl
  have h0 : spline_range 0 = [-1, 0, 1, 2] := by
    rw [spline_range, toInt_sub_one_floor _ (Or.inr (by simp)), axis_range_four]
    simp
  refine ⟨rfl, by norm_num [cell_coordinate, solid_one_particle], hr, by rw [hf]; rfl, ?_,
    by decide⟩
  rw [n_neigh_spline { method_shape_function := "cubic-spline" } { dimension := 1 }
    solid_one_particle 0 (Or.inl rfl)]
  have e1 : cell_coordinate (solid_one_particle.particles.getD 0 default).x.x
      ({ dimension := 1 } : Domain).boxlo.x solid_one_particle.grid.cellsize = 1 / 2 := by
    norm_num [cell_coordinate, solid_one_particle]
  have e2 : cell_coordinate (solid_one_particle.particles.getD 0 default).x.y
      ({ dimension := 1 } : Domain).boxlo.y solid_one_particle.grid.cellsize = 0 := by
    norm_num [cell_coordinate, solid_one_particle]
  have e3 : cell_coordinate (solid_one_particle.particles.getD 0 default).x.z
      ({ dimension := 1 } : Domain).boxlo.z solid_one_particle.grid.cellsize = 0 := by
    norm_num [cell_coordinate, solid_one_particle]
  rw [e1, e2, e3, hr, h0]
  exact congrArg Except.ok (by decide)

/-! ## C15: the candidates of the Bernstein functions -/

/-- C15: with the Bernstein functions, the list `n_neigh` of a particle holds the
candidates of `bernstein_range q` on each axis (`q` the coordinate of the particle in
cells), resolved in the order of the loops; the decrement never changes the anchor
`2 * (int) q`; and for a coordinate `x ≥ boxlo` (and a cell size that is not negative)
`q ≥ 0`, the anchor is the even integer `2 * ⌊q⌋` and the candidates on the axis are
`2 * ⌊q⌋`, `2 * ⌊q⌋ + 1` and `2 * ⌊q⌋ + 2`. -/
theorem bernstein_candidates (u : Update) (dom : Domain) (s : Solid) (ip : Nat)
    (hshape : u.method_shape_function = "Bernstein-quadratic") :
    n_neigh u dom s ip = .ok (resolve_all s.grid
      (bernstein_range (cell_coordinate (s.particles.getD ip default).x.x dom.boxlo.x
        s.grid.cellsize))
      (bernstein_range (cell_coordinate (s.particles.getD ip default).x.y dom.boxlo.y
        s.grid.cellsize))
      (bernstein_range (cell_coordinate (s.particles.getD ip default).x.z dom.boxlo.z
        s.grid.cellsize))) ∧
    (∀ q : ℚ, bernstein_anchor (2 * toInt q) = 2 * toInt q) ∧
    (∀ x boxlo cellsize : ℚ, boxlo ≤ x → 0 ≤ cellsize →
      0 ≤ cell_coordinate x boxlo cellsize ∧
      bernstein_anchor (2 * toInt (cell_coordinate x boxlo cellsize))
        = 2 * ⌊cell_coordinate x boxlo cellsize⌋ ∧
      (2 * ⌊cell_coordinate x boxlo cellsize⌋) % 2 = 0 ∧
      bernstein_range (cell_coordinate x boxlo cellsize)
        = [2 * ⌊cell_coordinate x boxlo cellsize⌋,
           2 * ⌊cell_coordinate x boxlo cellsize⌋ + 1,
           2 * ⌊cell_coordinate x boxlo cellsize⌋ + 2]) := by
  refine ⟨n_neigh_bernstein u dom s ip hshape, fun q => bernstein_anchor_even _, ?_⟩
  · intro x boxlo cellsize hx hc
    have hq : 0 ≤ cell_coordinate x boxlo cellsize := by
      unfold cell_coordinate
      exact mul_nonneg (by linarith) (by positivity)
    refine ⟨hq, ?_, by omega, ?_⟩
    · rw [bernstein_anchor_even, toInt_of_nonneg _ hq]
    · rw [bernstein_range, bernstein_anchor_even, toInt_of_nonneg _ hq, axis_range_three]

/-- Witness of `bernstein_candidates`: the 1D solid `solid_one_particle` with the
Bernstein functions. -/
theorem bernstein_candidates_witness :
    n_neigh { method_shape_function := "Bernstein-quadratic" } { dimension := 1 }
      solid_one_particle 0 = .ok [0, 1] ∧
    bernstein_range (cell_coordinate (1 / 2) 0 1) = [0, 1, 2] := by
  have h := bernstein_candidates { method_shape_function := "Bernstein-quadratic" }
    { dimension := 1 } solid_one_particle 0 rfl
  have hf : ⌊(1 / 2 : ℚ)⌋ = 0 := by
    rw [Int.floor_eq_iff]; norm_num
  have hc : cell_coordinate (1 / 2) 0 1 = 1 / 2 := by norm_num [cell_coordinate]
  have hr : bernstein_range (cell_coordinate (1 / 2) 0 1) = [0, 1, 2] := by
    rw [(h.2.2 (1 / 2) 0 1 (by norm_num) (by norm_num)).2.2.2, hc, hf]
    rfl
  have h0 : bernstein_range (cell_coordinate 0 0 1) = [0, 1, 2] := by
    rw [(h.2.2 0 0 1 (by norm_num) (by norm_num)).2.2.2]
    simp [cell_coordinate]
  refine ⟨?_, hr⟩
  rw [h.1]
  have e1 : (solid_one_particle.particles.getD 0 default).x.x = 1 / 2 := rfl
  have e2 : (solid_one_particle.particles.getD 0 default).x.y = 0 := rfl
  have e3 : (solid_one_particle.particles.getD 0 default).x.z = 0 := rfl
  have e4 : solid_one_particle.grid.cellsize = 1 := rfl
  have e5 : ({ dimension := 1 } : Domain).boxlo = { x := 0, y := 0, z := 0 } := rfl
  rw [e1, e2, e3, e4, e5, hr, h0]
  exact congrArg Except.ok (by decide)

/-! ## C14: the resolution of the candidates -/

theorem mem_find_push (map_ntag : Int → Option Int) (t idx : Int) :
    idx ∈ find_push map_ntag t ↔ map_ntag t = some idx := by
  unfold find_push
  cases h : map_ntag t with
  | none => simp
  | some v =>
    simp only [List.mem_singleton, Option.some.injEq]
    exact eq_comm

theorem find_push_eq_nil (map_ntag : Int → Option Int) (t : Int) :
    find_push map_ntag t = [] ↔ map_ntag t = none := by
  unfold find_push
  cases h : map_ntag t <;> simp

/-- In 2D and 3D a candidate is resolved through its tag. -/
theorem resolve_tag (g : Grid) (i j k : Int) (hy : g.ny_global > 1) :
    resolve g i j k = find_push g.map_ntag (g.tag i j k) := by
  unfold resolve Grid.tag
  simp only [hy, if_true]
  split <;> rfl

/-- Two pairs with the same tag `n * i + j`, `0 ≤ j < n`, are equal. -/
theorem tag_inj_two (n i j i' j' : Int) (hj : 0 ≤ j ∧ j < n) (hj' : 0 ≤ j' ∧ j' < n)
    (h : n * i + j = n * i' + j') : i = i' ∧ j = j' := by
  have e : j = j' := by
    have h1 : (n * i + j) % n = j := by
      rw [add_comm, Int.add_mul_emod_self_left, Int.emod_eq_of_lt hj.1 hj.2]
    have h2 : (n * i' + j') % n = j' := by
      rw [add_comm, Int.add_mul_emod_self_left, Int.emod_eq_of_lt hj'.1 hj'.2]
    rw [← h1, h, h2]
  subst e
  have hn : n ≠ 0 := by omega
  exact ⟨Int.eq_of_mul_eq_mul_left hn (by linarith), rfl⟩

/-- The tag determines the coordinates on the axes the loops iterate over, for
candidates in range on the second and third axes. -/
theorem tag_inj (g : Grid) (hy : g.ny_global > 1) (i j k i' j' k' : Int)
    (hj : 0 ≤ j ∧ j < g.ny_global) (hj' : 0 ≤ j' ∧ j' < g.ny_global)
    (hk : g.nz_global > 1 → 0 ≤ k ∧ k < g.nz_global)
    (hk' : g.nz_global > 1 → 0 ≤ k' ∧ k' < g.nz_global)
    (h : g.tag i j k = g.tag i' j' k') :
    i = i' ∧ j = j' ∧ (g.nz_global > 1 → k = k') := by
  unfold Grid.tag at h
  simp only [hy, if_true] at h
  by_cases hz : g.nz_global > 1
  · simp only [hz, if_true] at h
    have h1 := tag_inj_two g.nz_global (g.ny_global * i + j) k (g.ny_global * i' + j') k'
      (hk hz) (hk' hz) (by linarith)
    have h2 := tag_inj_two g.ny_global i j i' j' hj hj' h1.1
    exact ⟨h2.1, h2.2, fun _ => h1.2⟩
  · simp only [hz, if_false] at h
    have h2 := tag_inj_two g.ny_global i j i' j' hj hj' h
    exact ⟨h2.1, h2.2, fun hz' => absurd hz' hz⟩

theorem mem_stencil (g : Grid) (i0 j0 k0 : Int) (w : Nat) (idx : Int)
    (h : idx ∈ stencil g i0 j0 k0 w) : ∃ i j k, idx ∈ resolve g i j k := by
  rw [stencil_candidates] at h
  unfold resolve_all at h
  simp only [List.mem_flatMap] at h
  obtain ⟨i, _, h⟩ := h
  split at h
  · simp only [List.mem_flatMap] at h
    obtain ⟨j, _, h⟩ := h
    split at h
    · simp only [List.mem_flatMap] at h
      obtain ⟨k, _, h⟩ := h
      exact ⟨i, j, k, h⟩
    · exact ⟨i, j, 0, h⟩
  · exact ⟨i, 0, 0, h⟩

/-- In 1D the candidate `-1` is not skipped: it is below the number of nodes. -/
theorem resolve_negative_one_dim : resolve solid_one_particle.grid (-1) 0 0 = [-1] := by
  decide

theorem tag_map_two_by_two : grid_two_by_two.tag_map_of coord_two_by_two := by
  refine ⟨?_, ?_, ?_⟩
  · intro n hn
    have hn' : n < 4 := hn
    interval_cases n <;> simp +decide [Grid.in_range, coord_two_by_two, grid_two_by_two]
  · intro n hn
    have hn' : n < 4 := hn
    interval_cases n <;> simp +decide [Grid.tag, coord_two_by_two, grid_two_by_two]
  · intro t idx h
    have h' : (if 0 ≤ t ∧ t < 4 then some t else none) = some idx := h
    split at h'
    · rename_i ht
      simp only [Option.some.injEq] at h'
      subst h'
      refine ⟨t.toNat, ?_, by omega, ?_⟩
      · show t.toNat < 4
        omega
      · obtain ⟨h0, h4⟩ := ht
        interval_cases t <;> simp +decide [Grid.tag, coord_two_by_two, grid_two_by_two]
    · cases h'

/-- C14, amended: when `map_ntag` is the tag map of the stored nodes, in 2D and 3D
every index of `n_neigh` is a valid local index; every candidate `(i, j, k)` is either
skipped or resolved to the local index of a stored node that has the tag of the
candidate, which is the node of coordinates exactly `(i, j, k)` when the candidate is
in the range of the grid; and a candidate is skipped exactly when no stored node has
its tag. In 1D a candidate `i ≥ 0` is skipped when `i` is not below the number of
nodes and otherwise taken itself as the local index. -/
theorem candidates_resolved (g : Grid) (coord : Nat → Int × Int × Int)
    (hmap : g.tag_map_of coord) :
    (g.ny_global > 1 →
      (∀ (i0 j0 k0 : Int) (w : Nat), ∀ idx ∈ stencil g i0 j0 k0 w,
        ∃ n < g.nnodes_local + g.nnodes_ghost, idx = (n : Int)) ∧
      (∀ (i j k idx : Int), idx ∈ resolve g i j k →
        ∃ n < g.nnodes_local + g.nnodes_ghost, idx = (n : Int) ∧
          g.tag (coord n).1 (coord n).2.1 (coord n).2.2 = g.tag i j k ∧
          (g.in_range i j k → g.same_node (coord n) i j k)) ∧
      (∀ (i j k : Int), resolve g i j k = [] ↔
        ∀ n < g.nnodes_local + g.nnodes_ghost,
          g.tag (coord n).1 (coord n).2.1 (coord n).2.2 ≠ g.tag i j k)) ∧
    (¬ g.ny_global > 1 → ∀ (i j k : Int), 0 ≤ i →
      resolve g i j k
        = if i < ((g.nnodes_local + g.nnodes_ghost : Nat) : Int) then [i] else []) := by
  obtain ⟨hrange, hsend, honly⟩ := hmap
  have key : g.ny_global > 1 → ∀ (i j k idx : Int), idx ∈ resolve g i j k →
      ∃ n < g.nnodes_local + g.nnodes_ghost, idx = (n : Int) ∧
        g.tag (coord n).1 (coord n).2.1 (coord n).2.2 = g.tag i j k ∧
        (g.in_range i j k → g.same_node (coord n) i j k) := by
    intro hy i j k idx hidx
    rw [resolve_tag g i j k hy, mem_find_push] at hidx
    obtain ⟨n, hn, e, ht⟩ := honly _ _ hidx
    refine ⟨n, hn, e, ht, ?_⟩
    intro hin
    have hc := hrange n hn
    obtain ⟨e1, e2, e3⟩ := tag_inj g hy _ _ _ _ _ _ (hc.2.1 hy) (hin.2.1 hy)
      (hc.2.2 hy) (hin.2.2 hy) ht
    exact ⟨e1, fun _ => e2, fun _ hz => e3 hz⟩
  refine ⟨fun hy => ⟨?_, key hy, ?_⟩, ?_⟩
  · intro i0 j0 k0 w idx hidx
    obtain ⟨i, j, k, h⟩ := mem_stencil g i0 j0 k0 w idx hidx
    obtain ⟨n, hn, e, _⟩ := key hy i j k idx h
    exact ⟨n, hn, e⟩
  · intro i j k
    rw [resolve_tag g i j k hy, find_push_eq_nil]
    constructor
    · intro hnone n hn ht
      have := hsend n hn
      rw [ht, hnone] at this
      cases this
    · intro hno
      cases hm : g.map_ntag (g.tag i j k) with
      | none => rfl
      | some idx =>
        obtain ⟨n, hn, _, ht⟩ := honly _ _ hm
        exact absurd ht (hno n hn)
  · intro hy i j k _
    unfold resolve
    simp only [hy, if_false]

/-- Witness of `candidates_resolved`: the grid `grid_two_by_two` and its tag map. -/
theorem candidates_resolved_witness :
    grid_two_by_two.tag_map_of coord_two_by_two ∧
    (∀ (i0 j0 k0 : Int) (w : Nat), ∀ idx ∈ stencil grid_two_by_two i0 j0 k0 w,
      ∃ n : Nat, n < 4 ∧ idx = (n : Int)) ∧
    (∀ (i j k idx : Int), idx ∈ resolve grid_two_by_two i j k →
      ∃ n : Nat, n < 4 ∧ idx = (n : Int) ∧
        grid_two_by_two.tag (coord_two_by_two n).1 (coord_two_by_two n).2.1
          (coord_two_by_two n).2.2 = grid_two_by_two.tag i j k ∧
        (grid_two_by_two.in_range i j k →
          grid_two_by_two.same_node (coord_two_by_two n) i j k)) :=
  ⟨tag_map_two_by_two,
   ((candidates_resolved grid_two_by_two coord_two_by_two tag_map_two_by_two).1
      (by decide)).1,
   ((candidates_resolved grid_two_by_two coord_two_by_two tag_map_two_by_two).1
      (by decide)).2.1⟩

/-- C14 as stated fails on the grid of 2 × 2 nodes: the candidate `(0, 2)` of the
particle at the centre of the cell, with the cubic spline, is out of range on the
second axis; its tag `2 * 0 + 2` is the tag of the node `(1, 0)`, of local index 2,
and the candidate is not skipped but resolved to that node. -/
theorem candidates_resolved_counterexample :
    grid_two_by_two.tag_map_of coord_two_by_two ∧
    ¬ grid_two_by_two.in_range 0 2 0 ∧
    spline_range (cell_coordinate (1 / 2) 0 1) = [0, 1, 2, 3] ∧
    resolve grid_two_by_two 0 2 0 = [2] ∧
    coord_two_by_two 2 = (1, 0, 0) ∧
    n_neigh { method_shape_function := "cubic-spline" } { dimension := 2 }
      solid_two_by_two 0 = .ok [0, 1, 2, 3, 2, 3] := by
  have hf : ⌊(1 / 2 : ℚ)⌋ = 0 := by
    rw [Int.floor_eq_iff]; norm_num
  have hc : cell_coordinate (1 / 2) 0 1 = 1 / 2 := by norm_num [cell_coordinate]
  have hr : spline_range (cell_coordinate (1 / 2) 0 1) = [0, 1, 2, 3] := by
    rw [hc, spline_range, toInt_sub_one_trunc _ (by norm_num) (by rw [hf]; norm_num), hf,
      axis_range_four]
    rfl
  have h0 : spline_range (cell_coordinate 0 0 1) = [-1, 0, 1, 2] := by
    have : cell_coordinate 0 0 1 = 0 := by norm_num [cell_coordinate]
    rw [this, spline_range, toInt_sub_one_floor _ (Or.inr (by simp)), axis_range_four]
    simp
  refine ⟨tag_map_two_by_two, by simp +decide [Grid.in_range, grid_two_by_two], hr,
    by decide, by decide, ?_⟩
  rw [n_neigh_spline { method_shape_function := "cubic-spline" } { dimension := 2 }
    solid_two_by_two 0 (Or.inl rfl)]
  have e1 : (solid_two_by_two.particles.getD 0 default).x.x = 1 / 2 := rfl
  have e2 : (solid_two_by_two.particles.getD 0 default).x.y = 1 / 2 := rfl
  have e3 : (solid_two_by_two.particles.getD 0 default).x.z = 0 := rfl
  have e4 : solid_two_by_two.grid.cellsize = 1 := rfl
  have e5 : ({ dimension := 2 } : Domain).boxlo = { x := 0, y := 0, z := 0 } := rfl
  rw [e1, e2, e3, e4, e5, hr, h0]
  exact congrArg Except.ok (by decide)

/-! ## Facts about the lists of a particle -/

theorem same_stencil_refl (s : Solid) : s.same_stencil s :=
  ⟨rfl, rfl, s.grid.rigid, rfl⟩

theorem same_stencil_trans (s s' s'' : Solid) (h : s.same_stencil s')
    (h' : s'.same_stencil s'') : s.same_stencil s'' := by
  obtain ⟨a1, a2, r, a3⟩ := h
  obtain ⟨b1, b2, r', b3⟩ := h'
  exact ⟨b1.trans a1, b2.trans a2, r', by rw [b3, a3]⟩

theorem n_neigh_same_stencil (u : Update) (dom : Domain) (s s' : Solid) (ip : Nat)
    (h : s.same_stencil s') : n_neigh u dom s' ip = n_neigh u dom s ip := by
  obtain ⟨hp, _, r, hg⟩ := h
  unfold n_neigh stencil
  simp only [hp, hg]

theorem keeps_same_stencil (bf : BasisFunction) (m : ULMPM) (dom : Domain) (s s' : Solid)
    (ip : Nat) (h : s.same_stencil s') : keeps bf m dom s' ip = keeps bf m dom s ip := by
  obtain ⟨hp, _, r, hg⟩ := h
  funext inn
  unfold keeps axis_values
  simp only [hp, hg]

theorem pn_good_of_eq (bf : BasisFunction) (m : ULMPM) (u : Update) (dom : Domain)
    (s s' : Solid) (ip : Nat)
    (h : s.same_stencil s') (e : s'.pn ip = s.pn ip) (hg : s.pn_good bf m u dom ip) :
    s'.pn_good bf m u dom ip := by
  simp only [Solid.pn, Prod.mk.injEq] at e
  obtain ⟨e1, e2, e3, e4⟩ := e
  unfold Solid.pn_good Solid.aligned_pn at *
  rw [n_neigh_same_stencil u dom s s' ip h, keeps_same_stencil bf m dom s s' ip h,
    e1, e2, e3, e4]
  exact hg

/-- One (particle, node) pair: the records of the other particles are untouched and
the records of the particle get one entry when the test of line 360 passes, none
otherwise. -/
theorem add_neighbor_pn (bf : BasisFunction) (m : ULMPM) (dom : Domain) (ip : Nat)
    (st : Solid × KernelLocals) (inn : Int) (P : Nat) (hip : ip < P)
    (hal : st.1.pn_allocated P) :
    (add_neighbor bf m dom ip st inn).1.pn_allocated P ∧
    st.1.same_stencil (add_neighbor bf m dom ip st inn).1 ∧
    (∀ ip', ip' ≠ ip → (add_neighbor bf m dom ip st inn).1.pn ip' = st.1.pn ip') ∧
    (keeps bf m dom st.1 ip inn = false →
      (add_neighbor bf m dom ip st inn).1.pn ip = st.1.pn ip) ∧
    (keeps bf m dom st.1 ip inn = true →
      ∃ (w : ℚ) (g : Vec3), (add_neighbor bf m dom ip st inn).1.pn ip
        = ((st.1.pn ip).1 ++ [inn], (st.1.pn ip).2.1 + 1, (st.1.pn ip).2.2.1 ++ [w],
           (st.1.pn ip).2.2.2 ++ [g])) := by
  have hkeep : keeps bf m dom st.1 ip inn = false → add_neighbor bf m dom ip st inn = st := by
    intro hk
    rw [add_neighbor_eq]
    unfold keeps at hk
    simp only [decide_eq_false_iff_not] at hk
    dsimp only
    rw [if_neg hk]
  have hpush : keeps bf m dom st.1 ip inn = true →
      ∃ (w : ℚ) (g : Vec3) (loc : KernelLocals), add_neighbor bf m dom ip st inn
        = (push_entry (mark_rigid st.1 inn) ip inn w g, loc) := by
    intro hk
    rw [add_neighbor_eq]
    unfold keeps at hk
    simp only [decide_eq_true_eq] at hk
    dsimp only
    rw [if_pos hk]
    exact ⟨_, _, _, rfl⟩
  cases hk : keeps bf m dom st.1 ip inn with
  | false =>
    rw [hkeep hk]
    exact ⟨hal, same_stencil_refl _, fun _ _ => rfl, fun _ => rfl,
      fun h => absurd h (by decide)⟩
  | true =>
    obtain ⟨w, g, loc, e⟩ := hpush hk
    rw [e]
    obtain ⟨h1, h2, h3, h4⟩ := hal
    refine ⟨?_, ⟨rfl, rfl, _, rfl⟩, ?_, fun h => absurd h (by decide), fun _ => ⟨w, g, ?_⟩⟩
    · simpa only [Solid.pn_allocated, push_entry, mark_rigid, List.length_set] using
        (⟨h1, h2, h3, h4⟩ : st.1.pn_allocated P)
    · intro ip' hne
      simp only [Solid.pn, push_entry, mark_rigid, getD_set_other _ _ _ _ _ (Ne.symm hne)]
    · simp only [Solid.pn, push_entry, mark_rigid]
      rw [getD_set_same _ _ _ _ (by omega), getD_set_same _ _ _ _ (by omega),
        getD_set_same _ _ _ _ (by omega), getD_set_same _ _ _ _ (by omega)]

/-- The loop over `n_neigh` for particle `ip`: its records grow by the nodes of the
list that pass the test, the records of the other particles are untouched. -/
theorem add_neighbors_pn (bf : BasisFunction) (m : ULMPM) (dom : Domain) (ip : Nat)
    (P : Nat) (hip : ip < P) :
    ∀ (nb : List Int) (st : Solid × KernelLocals), st.1.pn_allocated P →
      (nb.foldl (add_neighbor bf m dom ip) st).1.pn_allocated P ∧
      st.1.same_stencil (nb.foldl (add_neighbor bf m dom ip) st).1 ∧
      (∀ ip', ip' ≠ ip → (nb.foldl (add_neighbor bf m dom ip) st).1.pn ip' = st.1.pn ip') ∧
      ∃ (lw : List ℚ) (lg : List Vec3),
        lw.length = (nb.filter (keeps bf m dom st.1 ip)).length ∧
        lg.length = (nb.filter (keeps bf m dom st.1 ip)).length ∧
        (nb.foldl (add_neighbor bf m dom ip) st).1.pn ip
          = ((st.1.pn ip).1 ++ nb.filter (keeps bf m dom st.1 ip),
             (st.1.pn ip).2.1 + ((nb.filter (keeps bf m dom st.1 ip)).length : Int),
             (st.1.pn ip).2.2.1 ++ lw, (st.1.pn ip).2.2.2 ++ lg) := by
  intro nb
  induction nb with
  | nil =>
    intro st hal
    refine ⟨hal, same_stencil_refl _, fun _ _ => rfl, [], [], rfl, rfl, ?_⟩
    simp
  | cons inn rest ih =>
    intro st hal
    obtain ⟨a1, a2, a3, a4, a5⟩ := add_neighbor_pn bf m dom ip st inn P hip hal
    obtain ⟨b1, b2, b3, lw, lg, hlw, hlg, b4⟩ := ih (add_neighbor bf m dom ip st inn) a1
    rw [keeps_same_stencil bf m dom _ _ ip a2] at hlw hlg b4
    simp only [List.foldl_cons]
    refine ⟨b1, same_stencil_trans _ _ _ a2 b2, fun ip' hne => (b3 ip' hne).trans (a3 ip' hne),
      ?_⟩
    cases hk : keeps bf m dom st.1 ip inn with
    | false =>
      refine ⟨lw, lg, ?_, ?_, ?_⟩
      · rw [hlw, List.filter_cons_of_neg (by simp [hk])]
      · rw [hlg, List.filter_cons_of_neg (by simp [hk])]
      · rw [b4, a4 hk, List.filter_cons_of_neg (by simp [hk])]
    | true =>
      obtain ⟨w, g, a5⟩ := a5 hk
      refine ⟨w :: lw, g :: lg, ?_, ?_, ?_⟩
      · rw [List.filter_cons_of_pos hk]; simp [hlw]
      · rw [List.filter_cons_of_pos hk]; simp [hlg]
      · rw [b4, a5, List.filter_cons_of_pos hk]
        simp only [List.append_assoc, List.singleton_append, List.length_cons, Nat.cast_add,
          Nat.cast_one, Prod.mk.injEq, true_and, and_true]
        omega

theorem clear_pn_pn (s : Solid) (ip : Nat) (P : Nat) (hip : ip < P)
    (hal : s.pn_allocated P) :
    (clear_pn s ip).pn_allocated P ∧ s.same_stencil (clear_pn s ip) ∧
    (∀ ip', ip' ≠ ip → (clear_pn s ip).pn ip' = s.pn ip') ∧
    (clear_pn s ip).pn ip = ([], 0, [], []) := by
  obtain ⟨h1, h2, h3, h4⟩ := hal
  refine ⟨?_, ⟨rfl, rfl, s.grid.rigid, rfl⟩, ?_, ?_⟩
  · simpa only [Solid.pn_allocated, clear_pn, List.length_set] using
      (⟨h1, h2, h3, h4⟩ : s.pn_allocated P)
  · intro ip' hne
    simp only [Solid.pn, clear_pn, getD_set_other _ _ _ _ _ (Ne.symm hne)]
  · simp only [Solid.pn, clear_pn]
    rw [getD_set_same _ _ _ _ (by omega), getD_set_same _ _ _ _ (by omega),
      getD_set_same _ _ _ _ (by omega), getD_set_same _ _ _ _ (by omega)]

/-- The loop over the particles: when it returns, the records of the particles it
went through are consistent and the records of the others are untouched. -/
theorem particle_loop_pn (bf : BasisFunction) (m : ULMPM) (u : Update) (dom : Domain)
    (P : Nat) :
    ∀ (ips : List Nat) (st st' : Solid × KernelLocals),
      ips.Nodup → (∀ ip ∈ ips, ip < P) → st.1.pn_allocated P →
      particle_loop bf m u dom ips st = .ok st' →
      st'.1.pn_allocated P ∧ st.1.same_stencil st'.1 ∧
      (∀ ip ∈ ips, st'.1.pn_good bf m u dom ip) ∧
      (∀ ip, ip ∉ ips → st'.1.pn ip = st.1.pn ip) := by
  intro ips
  induction ips with
  | nil =>
    intro st st' _ _ hal hrun
    simp only [particle_loop, Except.ok.injEq] at hrun
    subst hrun
    exact ⟨hal, same_stencil_refl _, fun _ h => absurd h (List.not_mem_nil _), fun _ _ => rfl⟩
  | cons ip rest ih =>
    intro st st' hnd hips hal hrun
    have hnd' := List.nodup_cons.mp hnd
    have hip : ip < P := hips ip (List.mem_cons_self _ _)
    simp only [particle_loop] at hrun
    cases hn : n_neigh u dom (clear_pn st.1 ip) ip with
    | error e => rw [hn] at hrun; cases hrun
    | ok nb =>
      rw [hn] at hrun
      simp only at hrun
      obtain ⟨a1, a2, a3, a4⟩ := clear_pn_pn st.1 ip P hip hal
      obtain ⟨b1, b2, b3, lw, lg, hlw, hlg, b4⟩ :=
        add_neighbors_pn bf m dom ip P hip nb (clear_pn st.1 ip, st.2) a1
      obtain ⟨c1, c2, c3, c4⟩ := ih _ st' hnd'.2
        (fun j hj => hips j (List.mem_cons_of_mem _ hj)) b1 hrun
      refine ⟨c1, same_stencil_trans _ _ _ a2 (same_stencil_trans _ _ _ b2 c2), ?_, ?_⟩
      · intro j hj
        rcases List.mem_cons.mp hj with e | hj'
        · subst e
          have e1 := c4 j hnd'.1
          rw [b4] at e1
          simp only [a4] at e1
          simp only [Solid.pn, Prod.mk.injEq] at e1
          obtain ⟨e1, e2, e3, e4⟩ := e1
          refine ⟨?_, ⟨?_, ?_⟩, nb, ?_, ?_⟩
          · rw [e1, e2]; simp
          · rw [e1, e3]; simp [hlw]
          · rw [e3, e4]; simp [hlw, hlg]
          · rw [n_neigh_same_stencil u dom _ _ j (same_stencil_trans _ _ _ b2 c2)]
            exact hn
          · rw [e1, keeps_same_stencil bf m dom _ _ j (same_stencil_trans _ _ _ b2 c2)]
            simp
        · exact c3 j hj'
      · intro j hj
        have hne : j ≠ ip := fun e => hj (e ▸ List.mem_cons_self _ _)
        have hnr : j ∉ rest := fun e => hj (List.mem_cons_of_mem _ e)
        rw [c4 j hnr, b3 j hne, a3 j hne]

theorem foldl_clear_np (l : List Nat) :
    ∀ s : Solid, ∃ a b c d,
      l.foldl clear_np s
        = { s with neigh_np := a, numneigh_np := b, wf_np := c, wfd_np := d } := by
  induction l with
  | nil => intro s; exact ⟨_, _, _, _, rfl⟩
  | cons inn rest ih =>
    intro s
    obtain ⟨a, b, c, d, e⟩ := ih (clear_np s inn)
    exact ⟨a, b, c, d, by rw [List.foldl_cons, e]; rfl⟩

/-- The body of the loop over the solids: when it returns for a solid that has a
node, the records of every particle are consistent. -/
theorem compute_solid_pn (bf : BasisFunction) (garbage : KernelLocals) (m : ULMPM)
    (u : Update) (dom : Domain) (s s' : Solid) (hal : s.pn_allocated s.np_local)
    (hrun : compute_solid bf garbage m u dom s = .ok s') :
    s.same_stencil s' ∧
    (s.grid.nnodes_local + s.grid.nnodes_ghost ≠ 0 →
      ∀ ip < s.np_local, s'.pn_good bf m u dom ip) := by
  obtain ⟨a, b, c, d, e⟩ :=
    foldl_clear_np (List.range (s.grid.nnodes_local + s.grid.nnodes_ghost)) s
  have key : ∀ st : Solid × KernelLocals,
      (if s.np_local ≠ 0 ∧ s.grid.nnodes_local + s.grid.nnodes_ghost ≠ 0 then
          particle_loop bf m u dom (List.range s.np_local)
            ((List.range (s.grid.nnodes_local + s.grid.nnodes_ghost)).foldl clear_np s, garbage)
        else .ok ((List.range (s.grid.nnodes_local + s.grid.nnodes_ghost)).foldl clear_np s,
          garbage)) = .ok st →
      s.same_stencil st.1 ∧
      (s.grid.nnodes_local + s.grid.nnodes_ghost ≠ 0 →
        ∀ ip < s.np_local, st.1.pn_good bf m u dom ip) := by
    intro st hst
    have hs1 : s.same_stencil
        ((List.range (s.grid.nnodes_local + s.grid.nnodes_ghost)).foldl clear_np s) := by
      rw [e]; exact ⟨rfl, rfl, s.grid.rigid, rfl⟩
    have hal1 : ((List.range (s.grid.nnodes_local + s.grid.nnodes_ghost)).foldl
        clear_np s).pn_allocated s.np_local := by
      rw [e]; exact hal
    split at hst
    · obtain ⟨c1, c2, c3, _⟩ := particle_loop_pn bf m u dom s.np_local
        (List.range s.np_local) _ st (List.nodup_range _)
        (fun ip hip => List.mem_range.mp hip) hal1 hst
      exact ⟨same_stencil_trans _ _ _ hs1 c2,
        fun _ ip hip => c3 ip (List.mem_range.mpr hip)⟩
    · rename_i hc
      simp only [Except.ok.injEq] at hst
      subst hst
      refine ⟨hs1, fun hnn ip hip => ?_⟩
      exact absurd ⟨by omega, hnn⟩ hc
  unfold compute_solid at hrun
  simp only [] at hrun
  split at hrun
  · cases hrun
  · rename_i st hst
    obtain ⟨k1, k2⟩ := key st hst
    split at hrun
    · simp only [Except.ok.injEq] at hrun
      subst hrun
      have hsame : st.1.same_stencil (st.1.compute_inertia_tensor m.shape_function) :=
        ⟨rfl, rfl, st.1.grid.rigid, rfl⟩
      exact ⟨same_stencil_trans _ _ _ k1 hsame,
        fun hnn ip hip => pn_good_of_eq bf m u dom _ _ ip hsame rfl (k2 hnn ip hip)⟩
    · simp only [Except.ok.injEq] at hrun
      subst hrun
      exact ⟨k1, k2⟩

theorem nodup_flatMap_of_inj {α β : Type} (l : List α) (f : α → List β) (hl : l.Nodup)
    (hf : ∀ x ∈ l, (f x).Nodup)
    (hinj : ∀ x ∈ l, ∀ x' ∈ l, ∀ y, y ∈ f x → y ∈ f x' → x = x') :
    (l.flatMap f).Nodup := by
  rw [List.nodup_flatMap]
  refine ⟨hf, hl.pairwise_of_forall_ne ?_⟩
  intro a ha b hb hne y hy hy'
  exact hne (hinj a ha b hb y hy hy')

theorem axis_range_nodup (i0 : Int) (w : Nat) : (axis_range i0 w).Nodup := by
  unfold axis_range
  refine (List.nodup_range w).map ?_
  intro a b h
  simpa using h

theorem find_push_nodup (map_ntag : Int → Option Int) (t : Int) :
    (find_push map_ntag t).Nodup := by
  unfold find_push
  cases map_ntag t <;> simp

/-- In 1D the list `n_neigh` holds no index twice. -/
theorem stencil_nodup_one_dim (g : Grid) (i0 j0 k0 : Int) (w : Nat)
    (hy : ¬ g.ny_global > 1) : (stencil g i0 j0 k0 w).Nodup := by
  rw [stencil_candidates]
  unfold resolve_all
  simp only [hy, if_false]
  have hres : ∀ i : Int, ∀ y ∈ resolve g i 0 0, y = i := by
    intro i y h
    unfold resolve at h
    simp only [hy, if_false] at h
    split at h
    · simpa using h
    · cases h
  refine nodup_flatMap_of_inj _ _ (axis_range_nodup i0 w) ?_ ?_
  · intro i _
    unfold resolve
    simp only [hy, if_false]
    split <;> simp
  · intro i _ i' _ y h h'
    rw [← hres i y h, ← hres i' y h']

/-- In 2D and 3D the list `n_neigh` holds no index twice when the tag map sends
distinct tags to distinct indices and the candidates are in range on the second axis
(and on the third, in 3D). -/
theorem stencil_nodup (g : Grid) (i0 j0 k0 : Int) (w : Nat) (hy : g.ny_global > 1)
    (hmap : g.map_injective)
    (hj : ∀ j ∈ axis_range j0 w, 0 ≤ j ∧ j < g.ny_global)
    (hk : g.nz_global > 1 → ∀ k ∈ axis_range k0 w, 0 ≤ k ∧ k < g.nz_global) :
    (stencil g i0 j0 k0 w).Nodup := by
  have owner : ∀ (i j k i' j' k' y : Int),
      (0 ≤ j ∧ j < g.ny_global) → (0 ≤ j' ∧ j' < g.ny_global) →
      (g.nz_global > 1 → 0 ≤ k ∧ k < g.nz_global) →
      (g.nz_global > 1 → 0 ≤ k' ∧ k' < g.nz_global) →
      y ∈ resolve g i j k → y ∈ resolve g i' j' k' →
      i = i' ∧ j = j' ∧ (g.nz_global > 1 → k = k') := by
    intro i j k i' j' k' y h1 h2 h3 h4 m1 m2
    rw [resolve_tag g _ _ _ hy, mem_find_push] at m1 m2
    exact tag_inj g hy i j k i' j' k' h1 h2 h3 h4 (hmap _ _ y m1 m2)
  rw [stencil_candidates]
  unfold resolve_all
  simp only [hy, if_true]
  by_cases hz : g.nz_global > 1
  · simp only [hz, if_true]
    refine nodup_flatMap_of_inj _ _ (axis_range_nodup i0 w) ?_ ?_
    · intro i _
      refine nodup_flatMap_of_inj _ _ (axis_range_nodup j0 w) ?_ ?_
      · intro j pj
        refine nodup_flatMap_of_inj _ _ (axis_range_nodup k0 w) ?_ ?_
        · intro k _
          rw [resolve_tag g _ _ _ hy]
          exact find_push_nodup _ _
        · intro k pk k' pk' y m1 m2
          exact (owner i j k i j k' y (hj j pj) (hj j pj) (fun _ => hk hz k pk)
            (fun _ => hk hz k' pk') m1 m2).2.2 hz
      · intro j pj j' pj' y m1 m2
        simp only [List.mem_flatMap] at m1 m2
        obtain ⟨k, pk, m1⟩ := m1
        obtain ⟨k', pk', m2⟩ := m2
        exact (owner i j k i j' k' y (hj j pj) (hj j' pj') (fun _ => hk hz k pk)
          (fun _ => hk hz k' pk') m1 m2).2.1
    · intro i _ i' _ y m1 m2
      simp only [List.mem_flatMap] at m1 m2
      obtain ⟨j, pj, k, pk, m1⟩ := m1
      obtain ⟨j', pj', k', pk', m2⟩ := m2
      exact (owner i j k i' j' k' y (hj j pj) (hj j' pj') (fun _ => hk hz k pk)
        (fun _ => hk hz k' pk') m1 m2).1
  · simp only [hz, if_false]
    refine nodup_flatMap_of_inj _ _ (axis_range_nodup i0 w) ?_ ?_
    · intro i _
      refine nodup_flatMap_of_inj _ _ (axis_range_nodup j0 w) ?_ ?_
      · intro j _
        rw [resolve_tag g _ _ _ hy]
        exact find_push_nodup _ _
      · intro j pj j' pj' y m1 m2
        exact (owner i j 0 i j' 0 y (hj j pj) (hj j' pj') (fun h => absurd h hz)
          (fun h => absurd h hz) m1 m2).2.1
    · intro i _ i' _ y m1 m2
      simp only [List.mem_flatMap] at m1 m2
      obtain ⟨j, pj, m1⟩ := m1
      obtain ⟨j', pj', m2⟩ := m2
      exact (owner i j 0 i' j' 0 y (hj j pj) (hj j' pj') (fun h => absurd h hz)
        (fun h => absurd h hz) m1 m2).1

/-- The list `n_neigh` of the particle of `solid_two_by_two` with the cubic spline: the
nodes 2 and 3 come twice. -/
theorem n_neigh_two_by_two (solids : List Solid) :
    n_neigh { method_shape_function := "cubic-spline" } { dimension := 2, solids := solids }
      solid_two_by_two 0 = .ok [0, 1, 2, 3, 2, 3] := by
  have hf : ⌊(1 / 2 : ℚ)⌋ = 0 := by
    rw [Int.floor_eq_iff]; norm_num
  have hc : cell_coordinate (1 / 2) 0 1 = 1 / 2 := by norm_num [cell_coordinate]
  have hr : spline_range (cell_coordinate (1 / 2) 0 1) = [0, 1, 2, 3] := by
    rw [hc, spline_range, toInt_sub_one_trunc _ (by norm_num) (by rw [hf]; norm_num), hf,
      axis_range_four]
    rfl
  have h0 : spline_range (cell_coordinate 0 0 1) = [-1, 0, 1, 2] := by
    have : cell_coordinate 0 0 1 = 0 := by norm_num [cell_coordinate]
    rw [this, spline_range, toInt_sub_one_floor _ (Or.inr (by simp)), axis_range_four]
    simp
  rw [n_neigh_spline _ _ solid_two_by_two 0 (Or.inl rfl)]
  have e1 : (solid_two_by_two.particles.getD 0 default).x.x = 1 / 2 := rfl
  have e2 : (solid_two_by_two.particles.getD 0 default).x.y = 1 / 2 := rfl
  have e3 : (solid_two_by_two.particles.getD 0 default).x.z = 0 := rfl
  have e4 : solid_two_by_two.grid.cellsize = 1 := rfl
  have e5 : ({ dimension := 2, solids := solids } : Domain).boxlo
      = { x := 0, y := 0, z := 0 } := rfl
  rw [e1, e2, e3, e4, e5, hr, h0]
  exact congrArg Except.ok (by decide)

/-! ## C17: the records of a particle -/

/-- C17, amended: after `compute_grid_weight_functions_and_gradients` has run with
`update_wf` set, on solids whose per-particle vectors are allocated for their
particles, for every solid that has at least one node and every particle
`ip < np_local`: `numneigh_pn[ip]` is the common length of `neigh_pn[ip]`, `wf_pn[ip]`
and `wfd_pn[ip]`, and `neigh_pn[ip]` holds, in the order of the list `n_neigh` of the
particle, the nodes of that list that pass the test of line 360, so that it holds no
index twice when `n_neigh` holds none twice. The list
`n_neigh` holds no index twice in 1D; in 2D and 3D it holds none twice when the tag
map sends distinct tags to distinct indices and the candidates of the stencil are in
the range of the grid on the second axis (and on the third, in 3D). -/
theorem neighbor_list_counts (bf : BasisFunction) (garbage : KernelLocals)
    (m : ULMPM) (mpm mpm' : MPM) (hwf : m.update_wf = true)
    (hal : ∀ s ∈ mpm.domain.solids, s.pn_allocated s.np_local)
    (hrun : compute_grid_weight_functions_and_gradients bf garbage m mpm = .ok mpm') :
    (∀ s' ∈ mpm'.domain.solids, s'.grid.nnodes_local + s'.grid.nnodes_ghost ≠ 0 →
      ∀ ip < s'.np_local,
        s'.numneigh_pn.getD ip 0 = ((s'.neigh_pn.getD ip []).length : Int) ∧
        (s'.neigh_pn.getD ip []).length = (s'.wf_pn.getD ip []).length ∧
        (s'.wf_pn.getD ip []).length = (s'.wfd_pn.getD ip []).length ∧
        ∃ nb, n_neigh mpm'.update mpm'.domain s' ip = .ok nb ∧
          s'.neigh_pn.getD ip [] = nb.filter (keeps bf m mpm'.domain s' ip) ∧
          (nb.Nodup → (s'.neigh_pn.getD ip []).Nodup)) ∧
    (∀ (g : Grid) (i0 j0 k0 : Int) (w : Nat), ¬ g.ny_global > 1 →
      (stencil g i0 j0 k0 w).Nodup) ∧
    (∀ (g : Grid) (i0 j0 k0 : Int) (w : Nat), g.ny_global > 1 → g.map_injective →
      (∀ j ∈ axis_range j0 w, 0 ≤ j ∧ j < g.ny_global) →
      (g.nz_global > 1 → ∀ k ∈ axis_range k0 w, 0 ≤ k ∧ k < g.nz_global) →
      (stencil g i0 j0 k0 w).Nodup) := by
  refine ⟨?_, fun g i0 j0 k0 w hy => stencil_nodup_one_dim g i0 j0 k0 w hy,
    fun g i0 j0 k0 w hy hmap hj hk => stencil_nodup g i0 j0 k0 w hy hmap hj hk⟩
  unfold compute_grid_weight_functions_and_gradients at hrun
  simp only [hwf, Bool.not_true, Bool.false_eq_true, if_false] at hrun
  cases hs : compute_solids bf garbage m mpm.update mpm.domain mpm.domain.solids with
  | error e => rw [hs] at hrun; cases hrun
  | ok solids' =>
    rw [hs] at hrun
    simp only [Except.ok.injEq] at hrun
    subst hrun
    intro s' hs' hnn ip hip
    obtain ⟨s, hmem, hc⟩ := compute_solids_mem bf garbage m mpm.update mpm.domain _ _ hs s' hs'
    obtain ⟨hsame, hgood⟩ := compute_solid_pn bf garbage m mpm.update mpm.domain s s'
      (hal s hmem) hc
    obtain ⟨_, hnp, r, hg⟩ := hsame
    have hnn' : s.grid.nnodes_local + s.grid.nnodes_ghost ≠ 0 := by
      rw [hg] at hnn; exact hnn
    obtain ⟨g1, g2, nb, g3, g4⟩ := hgood hnn' ip (by omega)
    have g3' : n_neigh mpm.update
        ({ mpm.domain with solids := solids' } : Domain) s' ip = .ok nb := g3
    have g4' : s'.neigh_pn.getD ip []
        = nb.filter (keeps bf m ({ mpm.domain with solids := solids' } : Domain) s' ip) := g4
    exact ⟨g1, g2.1, g2.2, nb, g3', g4', fun hnd => g4 ▸ hnd.filter _⟩

/-- Witness of `neighbor_list_counts`: the 1D run `mpm_one_particle`. -/
theorem neighbor_list_counts_witness :
    ∃ mpm' : MPM,
      compute_grid_weight_functions_and_gradients hat_basis {} {} mpm_one_particle
        = .ok mpm' ∧
      ∀ s' ∈ mpm'.domain.solids, s'.grid.nnodes_local + s'.grid.nnodes_ghost ≠ 0 →
        ∀ ip < s'.np_local,
          s'.numneigh_pn.getD ip 0 = ((s'.neigh_pn.getD ip []).length : Int) ∧
          (s'.neigh_pn.getD ip []).length = (s'.wf_pn.getD ip []).length ∧
          (s'.wf_pn.getD ip []).length = (s'.wfd_pn.getD ip []).length ∧
          ∃ nb, n_neigh mpm'.update mpm'.domain s' ip = .ok nb ∧
            s'.neigh_pn.getD ip [] = nb.filter (keeps hat_basis {} mpm'.domain s' ip) ∧
            (nb.Nodup → (s'.neigh_pn.getD ip []).Nodup) := by
  obtain ⟨mpm', h⟩ := compute_grid_weight_functions_and_gradients_ok hat_basis {} {}
    mpm_one_particle (Or.inl rfl)
  refine ⟨mpm', h,
    (neighbor_list_counts hat_basis {} {} mpm_one_particle mpm' rfl ?_ h).1⟩
  intro s hs
  simp only [mpm_one_particle, List.mem_singleton] at hs
  subst hs
  simp [Solid.pn_allocated, solid_one_particle]

/-- C17 as stated fails on the grid of 2 × 2 nodes with the cubic spline: for the
particle at the centre of the cell the candidates `(0, 2)` and `(1, 0)` have the same
tag 2, the candidates `(0, 3)` and `(1, 1)` the same tag 3, and `neigh_pn[0]` holds
the nodes 2 and 3 twice. -/
theorem neighbor_list_counts_counterexample :
    (compute_grid_weight_functions_and_gradients spline_basis {}
        { basis_function := .cubic_spline } mpm_two_by_two).toOption.map
      (fun m => m.domain.solids.map
        (fun s => (s.neigh_pn.getD 0 [], s.numneigh_pn.getD 0 0)))
    = some [([0, 1, 2, 3, 2, 3], 6)] ∧
    ¬ ([0, 1, 2, 3, 2, 3] : List Int).Nodup := by
  refine ⟨?_, by decide⟩
  cases hc : compute_solid spline_basis {} { basis_function := .cubic_spline }
      mpm_two_by_two.update mpm_two_by_two.domain solid_two_by_two with
  | error e =>
    obtain ⟨s', hs'⟩ := compute_solid_ok spline_basis {} { basis_function := .cubic_spline }
      mpm_two_by_two.update mpm_two_by_two.domain solid_two_by_two (Or.inr (Or.inl rfl))
    rw [hs'] at hc
    cases hc
  | ok s' =>
    have hrun : compute_grid_weight_functions_and_gradients spline_basis {}
        { basis_function := .cubic_spline } mpm_two_by_two
        = .ok { mpm_two_by_two with
            domain := { mpm_two_by_two.domain with solids := [s'] } } := by
      unfold compute_grid_weight_functions_and_gradients
      have e : mpm_two_by_two.domain.solids = [solid_two_by_two] := rfl
      simp only [e, compute_solids, hc]
      rfl
    obtain ⟨hsame, hgood⟩ := compute_solid_pn spline_basis {}
      { basis_function := .cubic_spline } mpm_two_by_two.update mpm_two_by_two.domain
      solid_two_by_two s' (by simp [Solid.pn_allocated, solid_two_by_two]) hc
    obtain ⟨g1, _, nb, g3, g4⟩ := hgood (by decide) 0 (by decide)
    rw [n_neigh_same_stencil _ _ _ _ 0 hsame] at g3
    rw [keeps_same_stencil _ _ _ _ _ 0 hsame] at g4
    have hnb : nb = [0, 1, 2, 3, 2, 3] := by
      rw [show mpm_two_by_two.update = { method_shape_function := "cubic-spline" } from rfl,
        show mpm_two_by_two.domain
          = { dimension := 2, solids := [solid_two_by_two] } from rfl] at g3
      rw [n_neigh_two_by_two [solid_two_by_two]] at g3
      exact (Except.ok.inj g3).symm
    have hkeep : ∀ inn ∈ ([0, 1, 2, 3, 2, 3] : List Int),
        keeps spline_basis { basis_function := .cubic_spline } mpm_two_by_two.domain
          solid_two_by_two 0 inn = true := by
      have abs_half : |(1 / 2 : ℚ)| = 1 / 2 := abs_of_pos (by norm_num)
      have abs_neg_half : |(-1 / 2 : ℚ)| = 1 / 2 := by
        rw [neg_div, abs_neg]; exact abs_half
      have t2 : Int.toNat 2 = 2 := rfl
      have t3 : Int.toNat 3 = 3 := rfl
      intro inn hinn
      simp only [List.mem_cons, List.mem_singleton, List.not_mem_nil, or_false] at hinn
      rcases hinn with h | h | h | h | h | h <;> subst h <;>
        norm_num [keeps, axis_values, mpm_two_by_two, solid_two_by_two, grid_two_by_two,
          spline_basis, Vec3.sub_scaled, vget, t2, t3, abs_half, abs_neg_half]
    rw [hnb, List.filter_eq_self.mpr hkeep] at g4
    rw [g4] at g1
    rw [hrun]
    simp only [Except.toOption, Option.map_some', List.map_cons, List.map_nil, g4, g1]
    rfl

/-! ## Facts about the body force -/

theorem Vec3.add_def (a b : Vec3) :
    a + b = { x := a.x + b.x, y := a.y + b.y, z := a.z + b.z } := rfl

theorem Vec3.zero_def : (0 : Vec3) = { x := 0, y := 0, z := 0 } := rfl

theorem vec_add_zero (a : Vec3) : a + 0 = a := by
  cases a; simp [Vec3.add_def, Vec3.zero_def]

theorem vec_zero_add (a : Vec3) : 0 + a = a := by
  cases a; simp [Vec3.add_def, Vec3.zero_def]

theorem vec_add_assoc (a b c : Vec3) : a + b + c = a + (b + c) := by
  cases a; cases b; cases c; simp [Vec3.add_def, add_assoc]

theorem vec_add_comm (a b : Vec3) : a + b = b + a := by
  cases a; cases b; simp [Vec3.add_def, add_comm]

/-- The entries of a table other than `x0`, `y0`, `z0`. -/
theorem node_vars_eq (vars : Vars) (p : Vec3) :
    node_vars vars p
      = ("z0", Dbl.val p.z) :: ("y0", Dbl.val p.y) :: ("x0", Dbl.val p.x) ::
          vars.filter (fun kv => kv.1 != "z0" && (kv.1 != "y0" && kv.1 != "x0")) := by
  simp +decide [node_vars, setVar, List.filter_filter]

theorem node_vars_node_vars (vars : Vars) (p q : Vec3) :
    node_vars (node_vars vars p) q = node_vars vars q := by
  rw [node_vars_eq (node_vars vars p) q, node_vars_eq vars p, node_vars_eq vars q]
  simp +decide [List.filter_filter]

theorem vec_times_zero (a : Vec3) : Vec3.times 0 a = 0 := by
  cases a; simp [Vec3.times, Vec3.scale, Vec3.zero_def]

theorem vec_times_succ (n : Nat) (a : Vec3) : Vec3.times (n + 1) a = a + Vec3.times n a := by
  cases a
  simp only [Vec3.times, Vec3.scale, Vec3.add_def, Vec3.mk.injEq]
  push_cast
  exact ⟨by ring, by ring, by ring⟩

theorem vec_times_one (a : Vec3) : Vec3.times 1 a = a := by
  cases a; simp [Vec3.times, Vec3.scale]

/-- One node of the loop: only `mb[inn]` changes, by the increment of the node. -/
theorem node_step_spec (fix : FixBodyforce) (V : Vars) (st : Grid × Vars × Vec3) (inn : Nat)
    (hV : ∀ q, node_vars st.2.1 q = node_vars V q) :
    (fix.node_step st inn).1 = { st.1 with mb := (fix.node_step st inn).1.mb } ∧
    (∀ q, node_vars (fix.node_step st inn).2.1 q = node_vars V q) ∧
    (fix.node_step st inn).1.mb.length = st.1.mb.length ∧
    (∀ k, (fix.node_step st inn).1.mb.getD k default
      = if k = inn ∧ inn < st.1.mb.length then
          st.1.mb.getD k default + fix.increment V st.1 inn
        else st.1.mb.getD k default) ∧
    (fix.node_step st inn).2.2
      = if inn < st.1.nnodes_local then st.2.2 + fix.increment V st.1 inn else st.2.2 := by
  by_cases hsel : fix.selected st.1 inn
  · have e : fix.node_step st inn
        = ({ st.1 with mb := st.1.mb.set inn (st.1.mb.getD inn default
              + fix.increment V st.1 inn) },
           node_vars st.2.1 (st.1.x0.getD inn default),
           if inn < st.1.nnodes_local then st.2.2 + fix.increment V st.1 inn else st.2.2) := by
      unfold FixBodyforce.node_step FixBodyforce.increment
      have h1 := hsel.1
      have h2 := hsel.2
      simp only [h1, h2, hsel, if_true, ne_eq, not_false_eq_true, hV]
    rw [e]
    refine ⟨rfl, fun q => ?_, by simp, fun k => ?_, rfl⟩
    · show node_vars (node_vars st.2.1 _) q = _
      rw [node_vars_node_vars, hV]
    · show (st.1.mb.set inn _).getD k default = _
      by_cases hk : k = inn
      · subst hk
        by_cases hl : k < st.1.mb.length
        · rw [getD_set_same _ _ _ _ hl]; simp [hl]
        · rw [List.set_eq_of_length_le (by omega)]; simp [hl]
      · rw [getD_set_other _ _ _ _ _ (Ne.symm hk)]; simp [hk]
  · have e : fix.node_step st inn = st := by
      unfold FixBodyforce.node_step
      unfold FixBodyforce.selected at hsel
      by_cases h1 : st.1.mass.getD inn 0 > 0
      · have h2 : ¬ (st.1.mask.getD inn 0 &&& fix.groupbit ≠ 0) := fun h => hsel ⟨h1, h⟩
        simp only [h1, h2, if_true, if_false]
      · simp only [h1, if_false]
    have hinc : fix.increment V st.1 inn = 0 := by
      unfold FixBodyforce.increment
      simp only [hsel, if_false]
    rw [e, hinc]
    refine ⟨rfl, hV, rfl, fun k => ?_, ?_⟩
    · simp [vec_add_zero]
    · simp [vec_add_zero]

theorem increment_congr (fix : FixBodyforce) (V : Vars) (g g' : Grid)
    (h : g' = { g with mb := g'.mb }) (k : Nat) :
    fix.increment V g' k = fix.increment V g k := by
  rw [h]
  rfl

theorem filter_lt_range (a b : Nat) :
    (List.range (a + b)).filter (fun k => decide (k < a)) = List.range a := by
  induction b with
  | zero =>
    rw [Nat.add_zero, List.filter_eq_self]
    intro k hk
    simpa using hk
  | succ b ih =>
    rw [← Nat.add_assoc, List.range_succ, List.filter_append, ih]
    simp

/-- The loop over a list of distinct nodes: each node of the list gets its increment
once, the owned ones are summed in `ftot`, nothing else changes. -/
theorem nodes_fold_spec (fix : FixBodyforce) (V : Vars) :
    ∀ (l : List Nat), l.Nodup → ∀ (st : Grid × Vars × Vec3),
      (∀ q, node_vars st.2.1 q = node_vars V q) →
      (l.foldl fix.node_step st).1 = { st.1 with mb := (l.foldl fix.node_step st).1.mb } ∧
      (∀ q, node_vars (l.foldl fix.node_step st).2.1 q = node_vars V q) ∧
      (l.foldl fix.node_step st).1.mb.length = st.1.mb.length ∧
      (∀ k, (l.foldl fix.node_step st).1.mb.getD k default
        = if k ∈ l ∧ k < st.1.mb.length then
            st.1.mb.getD k default + fix.increment V st.1 k
          else st.1.mb.getD k default) ∧
      (l.foldl fix.node_step st).2.2
        = st.2.2 + Vec3.sum ((l.filter fun k => decide (k < st.1.nnodes_local)).map
            (fix.increment V st.1)) := by
  intro l
  induction l with
  | nil =>
    intro _ st hV
    exact ⟨rfl, hV, rfl, fun k => by simp, by simp [Vec3.sum, vec_add_zero]⟩
  | cons inn rest ih =>
    intro hnd st hV
    have hnd' := List.nodup_cons.mp hnd
    obtain ⟨a1, a2, a3, a4, a5⟩ := node_step_spec fix V st inn hV
    obtain ⟨b1, b2, b3, b4, b5⟩ := ih hnd'.2 (fix.node_step st inn) a2
    have hinc : ∀ k, fix.increment V (fix.node_step st inn).1 k = fix.increment V st.1 k :=
      fun k => increment_congr fix V _ _ a1 k
    have hnl : (fix.node_step st inn).1.nnodes_local = st.1.nnodes_local := by
      rw [a1]
    simp only [List.foldl_cons]
    refine ⟨?_, b2, b3.trans a3, fun k => ?_, ?_⟩
    · rw [b1, a1]
    · rw [b4 k, a4 k, hinc, a3]
      by_cases hk : k = inn
      · subst hk
        have : k ∉ rest := hnd'.1
        simp [this]
      · simp [hk]
    · rw [b5, a5, hnl, funext hinc]
      by_cases hlt : inn < st.1.nnodes_local
      · rw [List.filter_cons_of_pos (by simpa using hlt)]
        simp only [hlt, if_true, List.map_cons, Vec3.sum, vec_add_assoc]
      · rw [List.filter_cons_of_neg (by simpa using hlt)]
        simp only [hlt, if_false]

/-- The loop over the nodes of a grid whose vector `mb` is allocated. -/
theorem grid_pass_spec (fix : FixBodyforce) (V : Vars) (st : Grid × Vars × Vec3)
    (hV : ∀ q, node_vars st.2.1 q = node_vars V q)
    (hal : st.1.nnodes_local + st.1.nnodes_ghost ≤ st.1.mb.length) :
    (fix.grid_pass st).1 = { st.1 with mb := (fix.grid_pass st).1.mb } ∧
    (∀ q, node_vars (fix.grid_pass st).2.1 q = node_vars V q) ∧
    (fix.grid_pass st).1.mb.length = st.1.mb.length ∧
    (∀ k, (fix.grid_pass st).1.mb.getD k default
      = if k < st.1.nnodes_local + st.1.nnodes_ghost then
          st.1.mb.getD k default + fix.increment V st.1 k
        else st.1.mb.getD k default) ∧
    (fix.grid_pass st).2.2 = st.2.2 + fix.owned_total V st.1 := by
  obtain ⟨a1, a2, a3, a4, a5⟩ := nodes_fold_spec fix V
    (List.range (st.1.nnodes_local + st.1.nnodes_ghost)) (List.nodup_range _) st hV
  refine ⟨a1, a2, a3, fun k => ?_, ?_⟩
  · show ((List.range (st.1.nnodes_local + st.1.nnodes_ghost)).foldl fix.node_step st).1.mb.getD
      k default = _
    rw [a4 k]
    by_cases hk : k < st.1.nnodes_local + st.1.nnodes_ghost
    · have : k < st.1.mb.length := by omega
      simp [hk, this]
    · simp [hk]
  · show ((List.range (st.1.nnodes_local + st.1.nnodes_ghost)).foldl fix.node_step st).2.2 = _
    rw [a5, filter_lt_range]
    rfl

theorem owned_total_congr (fix : FixBodyforce) (V : Vars) (g g' : Grid)
    (h : g' = { g with mb := g'.mb }) : fix.owned_total V g' = fix.owned_total V g := by
  rw [h]
  rfl

/-- The loop over a list of solids: the grid of index `gi` gets the increment of each of
its nodes once for every solid of the list that points to it. -/
theorem solids_fold_spec (fix : FixBodyforce) (V : Vars) (sg : List Nat) :
    ∀ (sl : List Nat) (st : GridStore × Vars × Vec3),
      st.1.solid_grid = sg →
      (∀ q, node_vars st.2.1 q = node_vars V q) →
      (∀ gi < st.1.grids.length,
        (st.1.grids.getD gi default).nnodes_local + (st.1.grids.getD gi default).nnodes_ghost
          ≤ (st.1.grids.getD gi default).mb.length) →
      (sl.foldl fix.solid_step st).1.solid_grid = sg ∧
      (sl.foldl fix.solid_step st).1.grids.length = st.1.grids.length ∧
      (∀ q, node_vars (sl.foldl fix.solid_step st).2.1 q = node_vars V q) ∧
      (∀ gi < st.1.grids.length,
        (sl.foldl fix.solid_step st).1.grids.getD gi default
          = { st.1.grids.getD gi default with
              mb := ((sl.foldl fix.solid_step st).1.grids.getD gi default).mb } ∧
        ((sl.foldl fix.solid_step st).1.grids.getD gi default).mb.length
          = (st.1.grids.getD gi default).mb.length ∧
        ∀ k, ((sl.foldl fix.solid_step st).1.grids.getD gi default).mb.getD k default
          = if k < (st.1.grids.getD gi default).nnodes_local
                + (st.1.grids.getD gi default).nnodes_ghost then
              (st.1.grids.getD gi default).mb.getD k default
                + Vec3.times ((sl.map fun i => sg.getD i 0).count gi)
                    (fix.increment V (st.1.grids.getD gi default) k)
            else (st.1.grids.getD gi default).mb.getD k default) ∧
      (sl.foldl fix.solid_step st).2.2
        = st.2.2 + Vec3.sum ((sl.map fun i => sg.getD i 0).map fun gi =>
            fix.owned_total V (st.1.grids.getD gi default)) := by
  intro sl
  induction sl with
  | nil =>
    intro st hsg hV _
    refine ⟨hsg, rfl, hV, fun gi _ => ⟨rfl, rfl, fun k => ?_⟩, ?_⟩
    · simp [vec_times_zero, vec_add_zero]
    · simp [Vec3.sum, vec_add_zero]
  | cons i rest ih =>
    intro st hsg hV hal
    -- the step for solid `i`, whose grid has index `v`
    have hv : st.1.solid_grid.getD i 0 = sg.getD i 0 := by rw [hsg]
    have hal0 : (st.1.grids.getD (sg.getD i 0) default).nnodes_local
        + (st.1.grids.getD (sg.getD i 0) default).nnodes_ghost
        ≤ (st.1.grids.getD (sg.getD i 0) default).mb.length := by
      by_cases hlt : sg.getD i 0 < st.1.grids.length
      · exact hal _ hlt
      · rw [List.getD_eq_default _ _ (by omega)]
        exact Nat.le_refl _
    obtain ⟨a1, a2, a3, a4, a5⟩ := grid_pass_spec fix V
      (st.1.grids.getD (sg.getD i 0) default, st.2.1, st.2.2) hV hal0
    dsimp only at a1 a3 a4 a5
    obtain ⟨r, hr⟩ : ∃ r, r = fix.grid_pass (st.1.grids.getD (sg.getD i 0) default, st.2.1,
      st.2.2) := ⟨_, rfl⟩
    rw [← hr] at a1 a2 a3 a4 a5
    have hstep : fix.solid_step st i
        = ({ st.1 with grids := st.1.grids.set (sg.getD i 0) r.1 }, r.2.1, r.2.2) := by
      unfold FixBodyforce.solid_step
      simp only [hv, hr]
    -- the grid of index `gi` after the step
    have hg1 : ∀ gi, (fix.solid_step st i).1.grids.getD gi default
        = if gi = sg.getD i 0 ∧ gi < st.1.grids.length then r.1
          else st.1.grids.getD gi default := by
      intro gi
      rw [hstep]
      show (st.1.grids.set (sg.getD i 0) _).getD gi default = _
      by_cases hgi : gi = sg.getD i 0
      · subst hgi
        by_cases hlt : sg.getD i 0 < st.1.grids.length
        · rw [getD_set_same _ _ _ _ hlt, if_pos ⟨rfl, hlt⟩]
        · rw [List.set_eq_of_length_le (by omega), if_neg (fun h => hlt h.2)]
      · rw [getD_set_other _ _ _ _ _ (Ne.symm hgi), if_neg (fun h => hgi h.1)]
    have hsame : ∀ gi, (fix.solid_step st i).1.grids.getD gi default
        = { st.1.grids.getD gi default with
            mb := ((fix.solid_step st i).1.grids.getD gi default).mb } := by
      intro gi
      rw [hg1 gi]
      split
      · rename_i h
        rw [h.1]
        exact a1
      · rfl
    have hlen1 : (fix.solid_step st i).1.grids.length = st.1.grids.length := by
      rw [hstep]
      simp
    have hal1 : ∀ gi < (fix.solid_step st i).1.grids.length,
        ((fix.solid_step st i).1.grids.getD gi default).nnodes_local
          + ((fix.solid_step st i).1.grids.getD gi default).nnodes_ghost
          ≤ ((fix.solid_step st i).1.grids.getD gi default).mb.length := by
      intro gi hgi
      rw [hlen1] at hgi
      have h0 := hal gi hgi
      rw [hg1 gi]
      split
      · rename_i h
        rw [a3, a1]
        rw [h.1] at h0
        exact h0
      · exact h0
    obtain ⟨b1, b2, b3, b4, b5⟩ := ih (fix.solid_step st i)
      (by rw [hstep]; exact hsg) (by rw [hstep]; exact a2) hal1
    simp only [List.foldl_cons, List.map_cons]
    refine ⟨b1, b2.trans hlen1, b3, fun gi hgi => ?_, ?_⟩
    · obtain ⟨c1, c2, c3⟩ := b4 gi (by rw [hlen1]; exact hgi)
      have hinc : ∀ k, fix.increment V ((fix.solid_step st i).1.grids.getD gi default) k
          = fix.increment V (st.1.grids.getD gi default) k :=
        fun k => increment_congr fix V _ _ (hsame gi) k
      have hnl : ((fix.solid_step st i).1.grids.getD gi default).nnodes_local
          = (st.1.grids.getD gi default).nnodes_local := by rw [hsame gi]
      have hng : ((fix.solid_step st i).1.grids.getD gi default).nnodes_ghost
          = (st.1.grids.getD gi default).nnodes_ghost := by rw [hsame gi]
      refine ⟨?_, ?_, fun k => ?_⟩
      · rw [c1, hsame gi]
      · rw [c2, hg1 gi]
        split
        · rename_i h
          rw [a3, h.1]
        · rfl
      · rw [c3 k, hinc, hnl, hng]
        by_cases hk : k < (st.1.grids.getD gi default).nnodes_local
            + (st.1.grids.getD gi default).nnodes_ghost
        · simp only [hk, if_true]
          by_cases hgv : gi = sg.getD i 0
          · rw [hg1 gi, if_pos ⟨hgv, hgi⟩, a4 k, ← hgv, if_pos hk,
              List.count_cons_self, vec_times_succ, vec_add_assoc]
          · rw [hg1 gi, if_neg (fun h => hgv h.1), List.count_cons_of_ne hgv]
        · simp only [hk, if_false]
          by_cases hgv : gi = sg.getD i 0
          · rw [hg1 gi, if_pos ⟨hgv, hgi⟩, a4 k, ← hgv, if_neg hk]
          · rw [hg1 gi, if_neg (fun h => hgv h.1)]
    · rw [b5]
      have e1 : (fix.solid_step st i).2.2
          = st.2.2 + fix.owned_total V (st.1.grids.getD (sg.getD i 0) default) := by
        rw [hstep]; exact a5
      have e2 : (fun gi => fix.owned_total V ((fix.solid_step st i).1.grids.getD gi default))
          = fun gi => fix.owned_total V (st.1.grids.getD gi default) :=
        funext fun gi => owned_total_congr fix V _ _ (hsame gi)
      rw [e1, e2, vec_add_assoc]
      rfl

theorem local_pass_eq (fix : FixBodyforce) (store : GridStore) (vars : Vars)
    (r : GridStore × Vars × Vec3) (hrun : fix.local_pass store vars = .ok r) :
    r = (fix.visited_solids store).foldl fix.solid_step (store, vars, 0) := by
  unfold FixBodyforce.local_pass at hrun
  unfold FixBodyforce.visited_solids
  split at hrun
  · rename_i h
    simp only [Except.ok.injEq] at hrun
    rw [if_pos h, ← hrun]
  · rename_i h
    split at hrun
    · simp only [Except.ok.injEq] at hrun
      rw [if_neg h, ← hrun]
      rfl
    · cases hrun

/-- The part of the call before the reduction, on a process whose grids are
allocated. -/
theorem local_pass_spec (fix : FixBodyforce) (store : GridStore) (vars : Vars)
    (r : GridStore × Vars × Vec3) (hal : store.allocated)
    (hrun : fix.local_pass store vars = .ok r) :
    r.1.solid_grid = store.solid_grid ∧ r.1.grids.length = store.grids.length ∧
    (∀ gi < store.grids.length,
      r.1.grids.getD gi default
        = { store.grids.getD gi default with mb := (r.1.grids.getD gi default).mb } ∧
      ∀ k, (r.1.grids.getD gi default).mb.getD k default
        = if k < (store.grids.getD gi default).nnodes_local
              + (store.grids.getD gi default).nnodes_ghost then
            (store.grids.getD gi default).mb.getD k default
              + Vec3.times ((fix.visits store).count gi)
                  (fix.increment vars (store.grids.getD gi default) k)
          else (store.grids.getD gi default).mb.getD k default) ∧
    r.2.2 = fix.local_total (store, vars) := by
  have hal' : ∀ gi < store.grids.length,
      (store.grids.getD gi default).nnodes_local + (store.grids.getD gi default).nnodes_ghost
        ≤ (store.grids.getD gi default).mb.length := by
    intro gi hgi
    apply hal.2
    rw [List.getD_eq_getElem _ _ hgi]
    exact List.getElem_mem _
  obtain ⟨a1, a2, _, a4, a5⟩ := solids_fold_spec fix vars store.solid_grid
    (fix.visited_solids store) (store, vars, 0) rfl (fun _ => rfl) hal'
  rw [← local_pass_eq fix store vars r hrun] at a1 a2 a4 a5
  refine ⟨a1, a2, fun gi hgi => ⟨(a4 gi hgi).1, (a4 gi hgi).2.2⟩, ?_⟩
  rw [a5, vec_zero_add]
  rfl

theorem allreduce_sum_spec (fix : FixBodyforce) :
    ∀ (others : List (GridStore × Vars)) (total : Vec3),
      (∀ o ∈ others, o.1.allocated) → fix.allreduce_sum others = .ok total →
      total = Vec3.sum (others.map fix.local_total) := by
  intro others
  induction others with
  | nil =>
    intro total _ h
    simp only [FixBodyforce.allreduce_sum, Except.ok.injEq] at h
    rw [← h]
    rfl
  | cons o rest ih =>
    intro total hal h
    simp only [FixBodyforce.allreduce_sum] at h
    cases h1 : fix.local_pass o.1 o.2 with
    | error e => rw [h1] at h; cases h
    | ok r =>
      rw [h1] at h
      simp only at h
      cases h2 : fix.allreduce_sum rest with
      | error e => rw [h2] at h; cases h
      | ok t =>
        rw [h2] at h
        simp only [Except.ok.injEq] at h
        rw [← h, ih t (fun o' ho' => hal o' (List.mem_cons_of_mem _ ho')) h2,
          (local_pass_spec fix o.1 o.2 r (hal o (List.mem_cons_self _ _)) h1).2.2.2]
        rfl

theorem getVar_setVar_same (vars : Vars) (name : String) (v : Dbl) :
    getVar (setVar vars name v) name = some v := by
  simp [getVar, setVar]

theorem getVar_setVar_other (vars : Vars) (name other : String) (v : Dbl)
    (h : name ≠ other) : getVar (setVar vars name v) other = getVar vars other := by
  unfold getVar setVar
  rw [List.find?_cons_of_neg _ (by simpa using h)]
  congr 1
  induction vars with
  | nil => rfl
  | cons kv rest ih =>
    by_cases hk : kv.1 = name
    · have hko : ¬ kv.1 = other := fun e => h (hk ▸ e)
      rw [List.filter_cons_of_neg (by simpa using hk),
        List.find?_cons_of_neg _ (by simpa using hko)]
      exact ih
    · rw [List.filter_cons_of_pos (by simpa using hk)]
      by_cases hko : kv.1 = other
      · rw [List.find?_cons_of_pos _ (by simpa using hko),
          List.find?_cons_of_pos _ (by simpa using hko)]
      · rw [List.find?_cons_of_neg _ (by simpa using hko),
          List.find?_cons_of_neg _ (by simpa using hko)]
        exact ih

theorem append_suffix_ne (id : String) (a b : String) (h : a.data ≠ b.data) :
    id ++ a ≠ id ++ b := by
  intro e
  have := congrArg String.data e
  rw [String.data_append, String.data_append] at this
  exact h (List.append_cancel_left this)

/-- The three publications of lines 151-153 leave in the table, for each component
that is set, the reduced sum. -/
theorem publish_spec (fix : FixBodyforce) (vars : Vars) (t : Vec3) :
    (fix.xset = true →
      getVar (if fix.zset then
          setVar (if fix.yset then
              setVar (if fix.xset then setVar vars (fix.id ++ "_x") (.val t.x) else vars)
                (fix.id ++ "_y") (.val t.y)
            else if fix.xset then setVar vars (fix.id ++ "_x") (.val t.x) else vars)
            (fix.id ++ "_z") (.val t.z)
        else if fix.yset then
          setVar (if fix.xset then setVar vars (fix.id ++ "_x") (.val t.x) else vars)
            (fix.id ++ "_y") (.val t.y)
        else if fix.xset then setVar vars (fix.id ++ "_x") (.val t.x) else vars)
        (fix.id ++ "_x") = some (.val t.x)) ∧
    (fix.yset = true →
      getVar (if fix.zset then
          setVar (if fix.yset then
              setVar (if fix.xset then setVar vars (fix.id ++ "_x") (.val t.x) else vars)
                (fix.id ++ "_y") (.val t.y)
            else if fix.xset then setVar vars (fix.id ++ "_x") (.val t.x) else vars)
            (fix.id ++ "_z") (.val t.z)
        else if fix.yset then
          setVar (if fix.xset then setVar vars (fix.id ++ "_x") (.val t.x) else vars)
            (fix.id ++ "_y") (.val t.y)
        else if fix.xset then setVar vars (fix.id ++ "_x") (.val t.x) else vars)
        (fix.id ++ "_y") = some (.val t.y)) ∧
    (fix.zset = true →
      getVar (if fix.zset then
          setVar (if fix.yset then
              setVar (if fix.xset then setVar vars (fix.id ++ "_x") (.val t.x) else vars)
                (fix.id ++ "_y") (.val t.y)
            else if fix.xset then setVar vars (fix.id ++ "_x") (.val t.x) else vars)
            (fix.id ++ "_z") (.val t.z)
        else if fix.yset then
          setVar (if fix.xset then setVar vars (fix.id ++ "_x") (.val t.x) else vars)
            (fix.id ++ "_y") (.val t.y)
        else if fix.xset then setVar vars (fix.id ++ "_x") (.val t.x) else vars)
        (fix.id ++ "_z") = some (.val t.z)) := by
  have hyx : fix.id ++ "_y" ≠ fix.id ++ "_x" := append_suffix_ne _ _ _ (by decide)
  have hzx : fix.id ++ "_z" ≠ fix.id ++ "_x" := append_suffix_ne _ _ _ (by decide)
  have hzy : fix.id ++ "_z" ≠ fix.id ++ "_y" := append_suffix_ne _ _ _ (by decide)
  refine ⟨fun hx => ?_, fun hy => ?_, fun hz => ?_⟩
  · cases fix.zset <;> cases fix.yset <;>
      simp [hx, getVar_setVar_same, getVar_setVar_other _ _ _ _ hyx,
        getVar_setVar_other _ _ _ _ hzx]
  · cases fix.zset <;>
      simp [hy, getVar_setVar_same, getVar_setVar_other _ _ _ _ hzy]
  · simp [hz, getVar_setVar_same]

/-! ## C16: the body force added to the nodes -/

end Karamelo
